import Mathlib

/-!
Fibonacci heap (Cherry-Trees/Fibonacci-Heap): embedding and verification.

The C++ sources `FibonacciHeap.hpp` / `FibonacciHeap_Impl.hpp` are embedded with an explicit
node store.  A pointer is a natural number, `0` is the null pointer; every `Node` field is
one component of the store (a function from addresses to field values).  Every dereference
checks that the address is non-null and refers to a node that `new` has handed out and
`delete` has not yet released; otherwise the operation stops with a `Fault`.  Loops and
recursion take a step budget.

The instance embedded is `FibonacciHeap<int>`: `DefaultKey` (the value is the key) and
`DefaultCompare` (`first < second`).
-/

set_option autoImplicit false

namespace FibHeap

/-! ## Store -/

/-- A pointer to a `Node`; `0` is the null pointer. -/
abbrev Ptr := Nat

/-- Ways in which an operation can fail to return. The first three are undefined behaviour
of the C++ program; `outOfFuel` only says that the step budget given to a loop was too small. -/
inductive Fault where
  | nullDeref
  | useAfterFree
  | outOfBounds
  | outOfFuel
  deriving DecidableEq, Repr

abbrev Res := Except Fault

/-- Pointwise update of one field at one address. -/
def upd {α : Type} (f : Ptr → α) (p : Ptr) (v : α) : Ptr → α :=
  fun q => if q = p then v else f q

/-- The node store: the fields of `struct Node`, per address, the set of allocated nodes
and the next address `new` hands out. -/
structure Store where
  value : Ptr → Int
  prev : Ptr → Ptr
  next : Ptr → Ptr
  parent : Ptr → Ptr
  child : Ptr → Ptr
  degree : Ptr → Int
  marked : Ptr → Bool
  live : Ptr → Bool
  brk : Ptr

/-- Check performed by every `p->field` access. -/
def Store.deref (m : Store) (p : Ptr) : Res Unit :=
  if p = 0 then .error .nullDeref
  else if m.live p then .ok ()
  else .error .useAfterFree

/-- Read `p->field`. -/
def Store.get {α : Type} (m : Store) (p : Ptr) (field : Ptr → α) : Res α := do
  m.deref p
  pure (field p)

def Store.setValue (m : Store) (p : Ptr) (v : Int) : Res Store := do
  m.deref p
  pure { m with value := upd m.value p v }

def Store.setPrev (m : Store) (p : Ptr) (v : Ptr) : Res Store := do
  m.deref p
  pure { m with prev := upd m.prev p v }

def Store.setNext (m : Store) (p : Ptr) (v : Ptr) : Res Store := do
  m.deref p
  pure { m with next := upd m.next p v }

def Store.setParent (m : Store) (p : Ptr) (v : Ptr) : Res Store := do
  m.deref p
  pure { m with parent := upd m.parent p v }

def Store.setChild (m : Store) (p : Ptr) (v : Ptr) : Res Store := do
  m.deref p
  pure { m with child := upd m.child p v }

def Store.setDegree (m : Store) (p : Ptr) (v : Int) : Res Store := do
  m.deref p
  pure { m with degree := upd m.degree p v }

def Store.setMarked (m : Store) (p : Ptr) (v : Bool) : Res Store := do
  m.deref p
  pure { m with marked := upd m.marked p v }

/-- The statement `delete p`. -/
def Store.delete (m : Store) (p : Ptr) : Res Store := do
  m.deref p
  pure { m with live := upd m.live p false }

/-- The expression `new Node(value)`: a fresh address whose node is a one-element cycle
without parent or child, degree 0, unmarked. -/
def Store.alloc (m : Store) (v : Int) : Ptr × Store :=
  (m.brk,
   { value := upd m.value m.brk v
     prev := upd m.prev m.brk m.brk
     next := upd m.next m.brk m.brk
     parent := upd m.parent m.brk 0
     child := upd m.child m.brk 0
     degree := upd m.degree m.brk 0
     marked := upd m.marked m.brk false
     live := upd m.live m.brk true
     brk := m.brk + 1 })

/-- The store before any allocation; address 0 is never handed out. -/
def Store.init : Store :=
  { value := fun _ => 0
    prev := fun _ => 0
    next := fun _ => 0
    parent := fun _ => 0
    child := fun _ => 0
    degree := fun _ => 0
    marked := fun _ => false
    live := fun _ => false
    brk := 1 }

/-! ## Node primitives -/

/-- Method `Node::join`: `self.join(u)`. -/
def Node.join (m : Store) (self u : Ptr) : Res (Ptr × Store) :=
  if u = 0 then pure (self, m) else do
    -- next->prev = u->prev;
    let m ← m.setPrev (← m.get self m.next) (← m.get u m.prev)
    -- u->prev->next = next;
    let m ← m.setNext (← m.get u m.prev) (← m.get self m.next)
    -- next = u;
    let m ← m.setNext self u
    -- u->prev = this;
    let m ← m.setPrev u self
    -- return Compare{}(Key{}(value), Key{}(u->value)) ? this : u;
    let a ← m.get self m.value
    let b ← m.get u m.value
    pure (if a < b then self else u, m)

/-- Method `Node::cut`: `self.cut(u)`. -/
def Node.cut (m : Store) (self u : Ptr) : Res (Ptr × Store) :=
  if u = 0 then pure (self, m) else do
    let p ← m.get u m.parent
    let m ← (if p ≠ 0 then do
        let m ← (if u = (← m.get u m.next) then
            -- u->parent->child = 0;
            m.setChild p 0
          else do
            -- u->parent->child = u->next;
            let m ← m.setChild p (← m.get u m.next)
            -- u->next->prev = u->prev;
            let m ← m.setPrev (← m.get u m.next) (← m.get u m.prev)
            -- u->prev->next = u->next;
            m.setNext (← m.get u m.prev) (← m.get u m.next))
        -- u->prev = u->next = u;
        let m ← m.setNext u u
        let m ← m.setPrev u u
        -- --u->parent->degree;
        let q ← m.get u m.parent
        m.setDegree q ((← m.get q m.degree) - 1)
      else pure m)
    -- return u->join(this);
    Node.join m u self

/-- Method `Node::add_child`: `self.add_child(u)`. -/
def Node.add_child (m : Store) (self u : Ptr) : Res (Int × Store) := do
  -- u->next->prev = u->prev;
  let m ← m.setPrev (← m.get u m.next) (← m.get u m.prev)
  -- u->prev->next = u->next;
  let m ← m.setNext (← m.get u m.prev) (← m.get u m.next)
  -- u->prev = u->next = u;
  let m ← m.setNext u u
  let m ← m.setPrev u u
  -- u->parent = this;
  let m ← m.setParent u self
  -- child = u->join(child);
  let (c, m) ← Node.join m u (← m.get self m.child)
  let m ← m.setChild self c
  -- return ++degree;
  let d ← m.get self m.degree
  let m ← m.setDegree self (d + 1)
  pure (d + 1, m)

/-! ## The heap -/

/-- The object `FibonacciHeap<int>`: its member `_top`, together with the node store. -/
structure FibonacciHeap where
  mem : Store
  top : Ptr

/-- The default constructor: `_top(0)`. -/
def FibonacciHeap.init : FibonacciHeap := { mem := Store.init, top := 0 }

/-- Private method `FibonacciHeap::cut`. -/
def FibonacciHeap.cut (h : FibonacciHeap) (u : Ptr) : Res FibonacciHeap := do
  -- u->marked = 0;
  let m ← h.mem.setMarked u false
  -- _top = _top->cut(u);
  let (t, m) ← Node.cut m h.top u
  pure { mem := m, top := t }

/-- Private method `FibonacciHeap::cascade_cut`; one unit of fuel per recursive call. -/
def FibonacciHeap.cascade_cut : Nat → FibonacciHeap → Ptr → Res FibonacciHeap
  | 0, _, _ => .error .outOfFuel
  | fuel + 1, h, u => do
    if (← h.mem.get u h.mem.parent) ≠ 0 then
      let h ← (if (← h.mem.get u h.mem.marked) then do
          let h ← h.cut u
          FibonacciHeap.cascade_cut fuel h (← h.mem.get u h.mem.parent)
        else pure h)
      -- u->marked = 1;
      let m ← h.mem.setMarked u true
      pure { h with mem := m }
    else pure h

/-- Method `FibonacciHeap::push`; returns the handle of the new node. -/
def FibonacciHeap.push (h : FibonacciHeap) (v : Int) : Res (Ptr × FibonacciHeap) := do
  let (node, m) := h.mem.alloc v
  let (t, m) ← Node.join m node h.top
  pure (node, { mem := m, top := t })

/-- Method `FibonacciHeap::top`. -/
def FibonacciHeap.topValue (h : FibonacciHeap) : Res Int :=
  h.mem.get h.top h.mem.value

/-- Method `FibonacciHeap::empty`. -/
def FibonacciHeap.empty (h : FibonacciHeap) : Bool := h.top = 0

/-- The constant `max_degree` of `pop`: the number of slots of `degree_map`. -/
def max_degree : Nat := 32

/-- The index check of `degree_map[d]`. -/
def slot (d : Int) : Res Nat :=
  if 0 ≤ d ∧ d < (max_degree : Int) then pure d.toNat else .error .outOfBounds

/-- The variables of `pop` that its consolidation loop works on. -/
structure Consol where
  mem : Store
  top : Ptr
  degree_map : Nat → Ptr
  curr : Ptr
  stop : Ptr
  mapped : Bool

/-- Body of the `do ... while (curr != end)` loop of `pop` (`stop` is the variable `end`). -/
def pop_scan_body (c : Consol) : Res Consol := do
  let d ← slot (← c.mem.get c.curr c.mem.degree)
  let e := c.degree_map d
  if e = 0 then
    -- degree_map[curr->degree] = curr; curr = curr->next;
    pure { c with degree_map := upd c.degree_map d c.curr,
                  curr := (← c.mem.get c.curr c.mem.next) }
  else if e = c.curr then
    -- curr = curr->next;
    pure { c with curr := (← c.mem.get c.curr c.mem.next) }
  else
    -- mapped = 0; choose parent and child by comparing the values
    let a ← c.mem.get c.curr c.mem.value
    let b ← c.mem.get e c.mem.value
    let parent := if a < b then c.curr else e
    let child := if a < b then e else c.curr
    -- degree_map[curr->degree] = 0;
    let dm := upd c.degree_map d 0
    -- curr = curr->next;
    let curr ← c.mem.get c.curr c.mem.next
    -- if (curr == child) curr = curr->next;
    let curr ← (if curr = child then c.mem.get curr c.mem.next else pure curr)
    -- if (end == child) end = _top = parent;
    let stop := if c.stop = child then parent else c.stop
    let top := if c.stop = child then parent else c.top
    -- parent->add_child(child);
    let (_, m) ← Node.add_child c.mem parent child
    pure { mem := m, top := top, degree_map := dm, curr := curr, stop := stop, mapped := false }

/-- The loop `do ... while (curr != end)` of `pop`. -/
def pop_scan : Nat → Consol → Res Consol
  | 0, _ => .error .outOfFuel
  | fuel + 1, c => do
    let c ← pop_scan_body c
    if c.curr ≠ c.stop then pop_scan fuel c else pure c

/-- The loop `while (!mapped)` of `pop`; `inner` is the budget of each inner scan. -/
def pop_consolidate (inner : Nat) : Nat → Consol → Res Consol
  | 0, _ => .error .outOfFuel
  | fuel + 1, c =>
    if c.mapped then pure c else do
      -- mapped = 1; curr = _top, end = _top;
      let c ← pop_scan inner { c with mapped := true, curr := c.top, stop := c.top }
      pop_consolidate inner fuel c

/-- The final loop of `pop`: find the new top, unparent and unmark the roots.
The state is the store, `_top`, `curr`; `stop` is the variable `end`. -/
def pop_newtop (stop : Ptr) : Nat → Store → Ptr → Ptr → Res (Store × Ptr)
  | 0, _, _, _ => .error .outOfFuel
  | fuel + 1, m, top, curr => do
    -- if (Compare{}(Key{}(curr->value), Key{}(_top->value))) _top = curr;
    let a ← m.get curr m.value
    let b ← m.get top m.value
    let top := if a < b then curr else top
    -- curr->parent = 0; curr->marked = 0; curr = curr->next;
    let m ← m.setParent curr 0
    let m ← m.setMarked curr false
    let curr ← m.get curr m.next
    if curr ≠ stop then pop_newtop stop fuel m top curr else pure (m, top)

/-- Method `FibonacciHeap::pop`; `fuel` bounds the iterations of each of its loops. -/
def FibonacciHeap.pop (fuel : Nat) (h : FibonacciHeap) : Res (Int × FibonacciHeap) := do
  -- T value = _top->value;
  let value ← h.mem.get h.top h.mem.value
  -- if (_top == _top->next && !_top->child) { delete _top; _top = 0; return value; }
  if h.top = (← h.mem.get h.top h.mem.next) ∧ (← h.mem.get h.top h.mem.child) = 0 then
    let m ← h.mem.delete h.top
    pure (value, { mem := m, top := 0 })
  else
    -- _top->join(_top->child); _top->child = 0;
    let (_, m) ← Node.join h.mem h.top (← h.mem.get h.top h.mem.child)
    let m ← m.setChild h.top 0
    -- Node *curr = _top->next, *end = _top->next, *temp = _top->next;
    let temp ← m.get h.top m.next
    -- _top->next->prev = _top->prev; _top->prev->next = _top->next;
    let m ← m.setPrev (← m.get h.top m.next) (← m.get h.top m.prev)
    let m ← m.setNext (← m.get h.top m.prev) (← m.get h.top m.next)
    -- delete _top; _top = temp;
    let m ← m.delete h.top
    -- degree_map cleared; bool mapped = 0; while (!mapped) ...
    let c ← pop_consolidate fuel fuel
      { mem := m, top := temp, degree_map := fun _ => 0, curr := temp, stop := temp,
        mapped := false }
    -- curr = end = _top; do ... while (curr != end);
    let (m, t) ← pop_newtop c.top fuel c.mem c.top c.top
    pure (value, { mem := m, top := t })

/-- Method `FibonacciHeap::decrease_key`; `fuel` bounds the depth of `cascade_cut`. -/
def FibonacciHeap.decrease_key (fuel : Nat) (h : FibonacciHeap) (node : Ptr) (key : Int) :
    Res FibonacciHeap := do
  -- Key{}(node->value) = key;
  let m ← h.mem.setValue node key
  let h : FibonacciHeap := { h with mem := m }
  -- if (node->parent && Compare{}(key, Key{}(node->parent->value)))
  let p ← h.mem.get node h.mem.parent
  let h ← (if p ≠ 0 then do
      if key < (← h.mem.get p h.mem.value) then
        -- cut(node); cascade_cut(node->parent);
        let h ← h.cut node
        FibonacciHeap.cascade_cut fuel h (← h.mem.get node h.mem.parent)
      else pure h
    else pure h)
  -- if (Compare{}(key, Key{}(_top->value))) _top = node;
  if key < (← h.mem.get h.top h.mem.value) then
    pure { h with top := node }
  else pure h

/-! ## Circular doubly linked lists -/

/-- The pair of pointers of two neighbours: `x->next == y` and `y->prev == x`. -/
def Linked (m : Store) (x y : Ptr) : Prop := m.next x = y ∧ m.prev y = x

/-- The nodes `x, l, y` are consecutive neighbours. -/
def Seg (m : Store) (x : Ptr) (l : List Ptr) (y : Ptr) : Prop :=
  List.Chain (Linked m) x (l ++ [y])

/-- The list `L` enumerates one circular sibling list, in `next` order. -/
def IsRing (m : Store) : List Ptr → Prop
  | [] => True
  | a :: l => Seg m a l a

/-- The store after the four assignments of `self.join(u)` for non-null `u`. -/
def joinMem (m : Store) (a b : Ptr) : Store :=
  { m with prev := upd (upd m.prev (m.next a) (m.prev b)) b a,
           next := upd (upd m.next (m.prev b) (m.next a)) a b }

/-! ## The operations on valid pointers -/

/-- A pointer that may be dereferenced. -/
def Valid (m : Store) (p : Ptr) : Prop := p ≠ 0 ∧ m.live p = true

/-- The pointer `self.join(u)` returns for non-null `u`. -/
def joinTop (m : Store) (a b : Ptr) : Ptr := if m.value a < m.value b then a else b

/-- The store after the assignments of `self.add_child(u)` that take `u` out of its list
and make it a one-element cycle (`u->prev = u->next = u`). -/
def isolateMem (m : Store) (u : Ptr) : Store :=
  { m with prev := upd (upd m.prev (m.next u) (m.prev u)) u u,
           next := upd (upd m.next (m.prev u) (m.next u)) u u }

/-- The store after `self.add_child(u)`. -/
def addChildMem (m : Store) (p u : Ptr) : Store :=
  let m1 : Store := { isolateMem m u with parent := upd m.parent u p }
  let m2 : Store := if m.child p = 0 then m1 else joinMem m1 u (m.child p)
  let c : Ptr := if m.child p = 0 then u else joinTop m u (m.child p)
  { m2 with child := upd m.child p c, degree := upd m.degree p (m.degree p + 1) }

/-! ## The forest invariant -/

/-- The nodes `N` of the store form a forest of heap-ordered binomial trees: `roots` is
the root list, `kids x` the child list of `x`, each in `next` order. -/
structure Forest (m : Store) (N : Finset Ptr) (roots : List Ptr) (kids : Ptr → List Ptr) :
    Prop where
  nonnull : 0 ∉ N
  live : ∀ x ∈ N, m.live x = true
  roots_nodup : roots.Nodup
  roots_mem : ∀ r ∈ roots, r ∈ N
  roots_ring : IsRing m roots
  roots_parent : ∀ r ∈ roots, m.parent r ∉ N
  kids_nodup : ∀ x ∈ N, (kids x).Nodup
  kids_ring : ∀ x ∈ N, IsRing m (kids x)
  kids_mem : ∀ x ∈ N, ∀ y ∈ kids x, y ∈ N
  kids_parent : ∀ x ∈ N, ∀ y ∈ kids x, m.parent y = x
  child_head : ∀ x ∈ N, m.child x = (kids x).headI
  degree_eq : ∀ x ∈ N, m.degree x = ((kids x).length : Int)
  cover : ∀ y ∈ N, y ∈ roots ∨ (m.parent y ∈ N ∧ y ∈ kids (m.parent y))
  order : ∀ x ∈ N, ∀ y ∈ kids x, m.value x ≤ m.value y
  binom : ∀ x ∈ N, 2 ^ (kids x).length = 1 + ((kids x).map (fun y => 2 ^ (kids y).length)).sum
  count : (roots.map (fun r => 2 ^ (kids r).length)).sum = N.card

/-- The child list of `p` after `p.add_child(c)`. -/
def linkKids (m : Store) (kids : Ptr → List Ptr) (p c : Ptr) : List Ptr :=
  if m.child p = 0 then [c]
  else if m.value c < m.value (m.child p) then c :: kids p
  else kids p ++ [c]

/-- State at the head of the `do ... while` loop: `U` are the roots still to be visited
in this pass, starting at `curr`; `V` are the roots from `end` up to `curr`. -/
structure ScanInv (c : Consol) (N : Finset Ptr) (U V : List Ptr) (kids : Ptr → List Ptr) :
    Prop where
  forest : Forest c.mem N (U ++ V) kids
  map_ok : ∀ d, c.degree_map d ≠ 0 →
    c.degree_map d ∈ U ++ V ∧ (kids (c.degree_map d)).length = d
  curr_eq : ∃ U1, U = c.curr :: U1
  stop_eq : c.stop = (V ++ U).headI
  top_eq : c.top = c.stop
  seen : c.mapped = true →
    ∀ x ∈ V, (kids x).length < max_degree ∧ c.degree_map (kids x).length = x

/-- What one iteration of the loop body establishes. -/
structure ScanPost (c c2 : Consol) (N : Finset Ptr) (U V U2 V2 : List Ptr)
    (kids2 : Ptr → List Ptr) : Prop where
  forest : Forest c2.mem N (U2 ++ V2) kids2
  map_ok : ∀ d, c2.degree_map d ≠ 0 →
    c2.degree_map d ∈ U2 ++ V2 ∧ (kids2 (c2.degree_map d)).length = d
  v_ne : V2 ≠ []
  stop_eq : c2.stop = V2.headI
  top_eq : c2.top = c2.stop
  curr_eq : c2.curr = (U2 ++ V2).headI
  measure : U2.length + (U2 ++ V2).length ^ 2 < U.length + (U ++ V).length ^ 2
  len_le : (U2 ++ V2).length ≤ (U ++ V).length
  seen : c2.mapped = true → c.mapped = true ∧
    ∀ x ∈ V2, (kids2 x).length < max_degree ∧ c2.degree_map (kids2 x).length = x
  linked : c2.mapped = false → c.mapped = false ∨ (U2 ++ V2).length < (U ++ V).length
  value_eq : c2.mem.value = c.mem.value
  brk_eq : c2.mem.brk = c.mem.brk

/-- The state after the loop body, when it links `curr` with the node found in the slot
`d` of its degree. -/
def linkState (c : Consol) (d : Nat) : Consol :=
  let e := c.degree_map d
  let parent := if c.mem.value c.curr < c.mem.value e then c.curr else e
  let child := if c.mem.value c.curr < c.mem.value e then e else c.curr
  { mem := addChildMem c.mem parent child
    top := if c.stop = child then parent else c.top
    degree_map := upd c.degree_map d 0
    curr := if c.mem.next c.curr = child then c.mem.next (c.mem.next c.curr)
            else c.mem.next c.curr
    stop := if c.stop = child then parent else c.stop
    mapped := false }

/-- What one pass (one run of the `do ... while` loop) establishes. -/
structure PassPost (c c2 : Consol) (N : Finset Ptr) (n : Nat) (R2 : List Ptr)
    (kids2 : Ptr → List Ptr) : Prop where
  forest : Forest c2.mem N R2 kids2
  map_ok : ∀ d, c2.degree_map d ≠ 0 →
    c2.degree_map d ∈ R2 ∧ (kids2 (c2.degree_map d)).length = d
  ne : R2 ≠ []
  top_head : c2.top = R2.headI
  len_le : R2.length ≤ n
  seen : c2.mapped = true → c.mapped = true ∧
    ∀ x ∈ R2, (kids2 x).length < max_degree ∧ c2.degree_map (kids2 x).length = x
  linked : c2.mapped = false → c.mapped = false ∨ R2.length < n
  value_eq : c2.mem.value = c.mem.value
  brk_eq : c2.mem.brk = c.mem.brk

/-! ## Removing the top node -/

/-- The store of `pop` after `_top->join(_top->child)`. -/
def popJoinMem (m : Store) (t : Ptr) : Store :=
  if m.child t = 0 then m else joinMem m t (m.child t)

/-- The store of `pop` when it enters the consolidation loop: the children of `_top` are
spliced into the root list, `_top` is unlinked and deleted. -/
def popUnlinkMem (m : Store) (t : Ptr) : Store :=
  let m1 := popJoinMem m t
  let m2 : Store := { m1 with child := upd m1.child t 0 }
  let m3 : Store := { m2 with prev := upd m2.prev (m2.next t) (m2.prev t) }
  let m4 : Store := { m3 with next := upd m3.next (m3.prev t) (m3.next t) }
  { m4 with live := upd m4.live t false }

/-- State at the head of the final loop of `pop`. -/
structure NewtopInv (m : Store) (top curr stop : Ptr) (N : Finset Ptr) (U V : List Ptr)
    (kids : Ptr → List Ptr) : Prop where
  forest : Forest m N (U ++ V) kids
  curr_eq : ∃ U1, U = curr :: U1
  stop_eq : stop = (V ++ U).headI
  top_mem : top ∈ U ++ V
  top_le : ∀ x ∈ V, m.value top ≤ m.value x
  cleared : ∀ x ∈ V, m.parent x = 0 ∧ m.marked x = false

/-- What the final loop of `pop` establishes. -/
structure NewtopPost (m m2 : Store) (top2 : Ptr) (N : Finset Ptr) (R : List Ptr)
    (kids : Ptr → List Ptr) : Prop where
  forest : Forest m2 N R kids
  top_mem : top2 ∈ R
  top_le : ∀ x ∈ R, m2.value top2 ≤ m2.value x
  cleared : ∀ x ∈ R, m2.parent x = 0 ∧ m2.marked x = false
  value_eq : m2.value = m.value
  brk_eq : m2.brk = m.brk

/-- The invariant of the heap object between two operations. -/
structure HeapInv (h : FibonacciHeap) (N : Finset Ptr) (roots : List Ptr)
    (kids : Ptr → List Ptr) : Prop where
  forest : Forest h.mem N roots kids
  top_head : h.top = roots.headI
  top_le : ∀ r ∈ roots, h.mem.value h.top ≤ h.mem.value r
  cleared : ∀ r ∈ roots, h.mem.parent r = 0 ∧ h.mem.marked r = false
  fresh : ∀ x ∈ N, x < h.mem.brk
  brk_pos : 0 < h.mem.brk

/-- The heap is well formed and `N` is the set of its nodes. -/
def WF (h : FibonacciHeap) (N : Finset Ptr) : Prop :=
  ∃ roots kids, HeapInv h N roots kids

/-- The values stored in the nodes `N`. -/
def contents (h : FibonacciHeap) (N : Finset Ptr) : Multiset Int :=
  N.val.map h.mem.value

/-! ## Sequences of operations -/

/-- Push the values of a list, in order; returns the handles, in the same order. -/
def pushAll : List Int → FibonacciHeap → Res (List Ptr × FibonacciHeap)
  | [], h => pure ([], h)
  | v :: vs, h => do
    let (p, h) ← h.push v
    let (ps, h) ← pushAll vs h
    pure (p :: ps, h)

/-- The client loop `while (!heap.empty()) out.push_back(heap.pop());`, for at most `k`
rounds; returns the popped values in the order of the calls. -/
def drain (fuel : Nat) : Nat → FibonacciHeap → Res (List Int)
  | 0, h => if h.empty then pure [] else .error .outOfFuel
  | k + 1, h =>
    if h.empty then pure [] else do
      let (v, h) ← h.pop fuel
      let vs ← drain fuel k h
      pure (v :: vs)

/-! ## Pushing a list of values -/

/-- What pushing the list `l` onto a well-formed heap establishes. -/
structure PushedPost (l : List Int) (h : FibonacciHeap) (N : Finset Ptr) (roots : List Ptr)
    (hs : List Ptr) (h2 : FibonacciHeap) (N2 : Finset Ptr) (roots2 : List Ptr)
    (kids2 : Ptr → List Ptr) : Prop where
  inv : HeapInv h2 N2 roots2 kids2
  nodup : hs.Nodup
  new : ∀ x ∈ hs, x ∉ N
  nodes : ∀ x, x ∈ N2 ↔ x ∈ N ∨ x ∈ hs
  roots : ∀ x, x ∈ roots2 ↔ x ∈ roots ∨ x ∈ hs
  values : hs.map h2.mem.value = l
  old_values : ∀ x ∈ N, h2.mem.value x = h.mem.value x
  contents : contents h2 N2 = (l : Multiset Int) + contents h N
  card : N2.card = N.card + l.length

/-! ## More fuel never changes a result -/

/-- Every result of `a` is also the result of `b`. -/
def Extends {α : Type} (a b : Res α) : Prop := ∀ r, a = .ok r → b = .ok r

/-! ## Claims C1, C3, C8: pushes followed by pops -/

/-- Push the values of `l` onto the empty heap, then pop until `empty()` is true;
returns the popped values in the order of the calls. -/
def pushThenDrain (fuel k : Nat) (l : List Int) : Res (List Int) := do
  let (_, h) ← pushAll l FibonacciHeap.init
  drain fuel k h

/-! ## Claim C4: sequences of pushes and pops -/

/-- A call of the public interface that needs no handle. -/
inductive Op where
  | push (v : Int)
  | pop
  | top
  deriving DecidableEq

/-- Run a sequence of calls; returns the heap after the last call. -/
def runOps (fuel : Nat) : List Op → FibonacciHeap → Res FibonacciHeap
  | [], h => pure h
  | .push v :: ops, h => do
    let (_, h) ← h.push v
    runOps fuel ops h
  | .pop :: ops, h => do
    let (_, h) ← h.pop fuel
    runOps fuel ops h
  | .top :: ops, h => do
    let _ ← h.topValue
    runOps fuel ops h

/-- The caller's contract, checked along the run: `pop` and `top` are only called when
`empty()` is false. -/
def guarded (fuel : Nat) : List Op → FibonacciHeap → Bool
  | [], _ => true
  | .push v :: ops, h =>
    match h.push v with
    | .ok (_, h2) => guarded fuel ops h2
    | .error _ => true
  | .pop :: ops, h =>
    !h.empty && match h.pop fuel with
    | .ok (_, h2) => guarded fuel ops h2
    | .error _ => true
  | .top :: ops, h => !h.empty && guarded fuel ops h

/-- Number of `push` calls of a sequence. -/
def pushes : List Op → Nat
  | [] => 0
  | .push _ :: ops => pushes ops + 1
  | _ :: ops => pushes ops

/-- Number of `pop` calls of a sequence. -/
def pops : List Op → Nat
  | [] => 0
  | .pop :: ops => pops ops + 1
  | _ :: ops => pops ops

/-- The largest number of elements the heap holds at any moment of the sequence, when it
holds `n` elements at the start. -/
def maxHeld : Nat → List Op → Nat
  | n, [] => n
  | n, .push _ :: ops => maxHeld (n + 1) ops
  | n, .pop :: ops => max n (maxHeld (n - 1) ops)
  | n, .top :: ops => maxHeld n ops

/-! ## Claims C2, C9, C10: `decrease_key` twice on the same node -/

/-- The reference model of the cross-validation: the keys in a sorted list. -/
def refPush (v : Int) (q : List Int) : List Int := List.orderedInsert (· ≤ ·) v q

/-- Reference `pop`: the head of the sorted list. -/
def refPop (q : List Int) : Option (Int × List Int) :=
  match q with
  | [] => none
  | v :: q => some (v, q)

/-- Reference `decrease_key`: the old key is replaced by the new one. -/
def refDecrease (old new : Int) (q : List Int) : List Int :=
  List.orderedInsert (· ≤ ·) new (q.erase old)

/-! ## `clear` -/

mutual
/-- Static method `Node::clear(u)`; one unit of fuel per call and per loop iteration. -/
def Node.clear : Nat → Store → Ptr → Res Store
  | 0, _, _ => .error .outOfFuel
  | fuel + 1, m, u =>
    if u = 0 then pure m else do
      -- u->prev->next = 0;
      let m ← m.setNext (← m.get u m.prev) 0
      -- Node *prev = 0, *curr = u; while (curr) ...
      Node.clear_loop fuel m u
/-- The loop `while (curr)` of `Node::clear`. -/
def Node.clear_loop : Nat → Store → Ptr → Res Store
  | 0, _, _ => .error .outOfFuel
  | fuel + 1, m, curr =>
    if curr = 0 then pure m else do
      -- clear(curr->child);
      let m ← Node.clear fuel m (← m.get curr m.child)
      -- prev = curr; curr = curr->next; delete prev;
      let next ← m.get curr m.next
      let m ← m.delete curr
      Node.clear_loop fuel m next
end

/-- Method `FibonacciHeap::clear`. -/
def FibonacciHeap.clear (fuel : Nat) (h : FibonacciHeap) : Res FibonacciHeap := do
  -- Node::clear(_top); _top = 0;
  let m ← Node.clear fuel h.mem h.top
  pure { mem := m, top := 0 }

/-! ## Descendants -/

/-- The node `z` is a strict descendant of `x`. -/
inductive Below (kids : Ptr → List Ptr) : Ptr → Ptr → Prop where
  | kid {x z : Ptr} : z ∈ kids x → Below kids x z
  | step {x y z : Ptr} : y ∈ kids x → Below kids y z → Below kids x z

/-- Two nodes are siblings: both are roots, or both are children of one node. -/
def Siblings (N : Finset Ptr) (roots : List Ptr) (kids : Ptr → List Ptr) (L : List Ptr) :
    Prop :=
  L = roots ∨ ∃ p ∈ N, L = kids p

/-! ## `clear` on a well-formed heap -/

/-- The node `z` is still allocated and linked as in the store `m0`. -/
def Intact (m0 m : Store) (z : Ptr) : Prop :=
  m.live z = true ∧ m.child z = m0.child z ∧ m.next z = m0.next z ∧ m.prev z = m0.prev z

/-- The stores `m` and `m2` agree on every node outside `P`. -/
def SameOutside (m m2 : Store) (P : Ptr → Prop) : Prop :=
  ∀ z, ¬ P z → m2.live z = m.live z ∧ m2.child z = m.child z ∧ m2.next z = m.next z ∧
    m2.prev z = m.prev z

/-- The nodes `S`, starting at `c`, are linked by `next` and end with the null pointer. -/
def Lst (m : Store) : Ptr → List Ptr → Prop
  | c, [] => c = 0
  | c, s :: S => c = s ∧ Lst m (m.next s) S

/-! ## Claim C6: `clear()` -/

/-- The values a sequence of calls returns, up to and including the first fault. -/
def trace (fuel : Nat) : List Op → FibonacciHeap → List (Res Int)
  | [], _ => []
  | .push v :: ops, h =>
    match h.push v with
    | .ok (_, h2) => trace fuel ops h2
    | .error e => [.error e]
  | .pop :: ops, h =>
    match h.pop fuel with
    | .ok (v, h2) => .ok v :: trace fuel ops h2
    | .error e => [.error e]
  | .top :: ops, h =>
    match h.topValue with
    | .ok v => .ok v :: trace fuel ops h
    | .error e => [.error e]

/-- An example store: the nodes 1 and 2 form one circular list, node 3 is alone. -/
def exampleStore : Store :=
  joinMem (((Store.init.alloc 5).2.alloc 3).2.alloc 8).2 1 2

/-- The store after the block `if (u->parent) { ... }` of `A.cut(u)` when `u` has a
parent. -/
def cutMem (m : Store) (u : Ptr) : Store :=
  let p := m.parent u
  let m1 : Store :=
    if u = m.next u then { m with child := upd m.child p 0 }
    else { m with child := upd m.child p (m.next u),
                  prev := upd m.prev (m.next u) (m.prev u),
                  next := upd m.next (m.prev u) (m.next u) }
  { m1 with next := upd m1.next u u, prev := upd m1.prev u u,
            degree := upd m1.degree p (m1.degree p - 1) }

/-- An example store: node 1 has the children 3 and 2 (one circular list), node 4 is
alone. -/
def exampleTree : Store :=
  addChildMem (addChildMem ((((Store.init.alloc 5).2.alloc 3).2.alloc 8).2.alloc 1).2 1 2) 1 3

/-! ## Postconditions of runs that return -/

/-- Every result the computation `r` can return satisfies `Q`. -/
def Post {α : Type} (r : Res α) (Q : α → Prop) : Prop := ∀ a, r = .ok a → Q a

/-! ## Claim C14: the sibling lists stay circular -/

/-- On the allocated nodes `next` and `prev` are inverse to each other and stay within
the allocated nodes; addresses from `brk` on are not allocated. -/
structure Circ (m : Store) : Prop where
  next_valid : ∀ n, Valid m n → Valid m (m.next n)
  prev_valid : ∀ n, Valid m n → Valid m (m.prev n)
  prev_next : ∀ n, Valid m n → m.prev (m.next n) = n
  next_prev : ∀ n, Valid m n → m.next (m.prev n) = n
  fresh : ∀ n, m.brk ≤ n → m.live n = false
  brk_pos : 0 < m.brk

/-- The step from `m` to `m2` allocates and releases nothing and keeps the lists
circular. -/
def Keeps (m m2 : Store) : Prop :=
  m2.live = m.live ∧ m2.brk = m.brk ∧ (Circ m → Circ m2)

/-- The table `dm` holds the node `x` under the degree of `x`. -/
def Seen (m : Store) (dm : Nat → Ptr) (x : Ptr) : Prop :=
  x ≠ 0 ∧ ∃ d, slot (m.degree x) = .ok d ∧ dm d = x

/-- The table holds every node of the list of `top`. -/
def Mapped (c : Consol) : Prop :=
  ∀ i, Seen c.mem c.degree_map (c.mem.next^[i] c.top)

/-- No two distinct nodes of the list of `top` have the same degree. -/
def DistinctDegrees (h : FibonacciHeap) : Prop :=
  ∀ i j, h.mem.degree (h.mem.next^[i] h.top) = h.mem.degree (h.mem.next^[j] h.top) →
    h.mem.next^[i] h.top = h.mem.next^[j] h.top

/-! ## Sequences of `push`, `pop` and `decrease_key` -/

/-- A call of `push`, `pop` or `decrease_key`; the node of `decrease_key` is given by the
number `i` of the `push` that returned its handle (counted from 0). -/
inductive Call where
  | push (v : Int)
  | pop
  | decrease_key (i : Nat) (k : Int)

/-- Run a sequence of calls; `hs` are the handles returned so far. A `decrease_key` on a
number without handle passes the null pointer. -/
def runCalls (fuel : Nat) : List Call → List Ptr → FibonacciHeap →
    Res (List Ptr × FibonacciHeap)
  | [], hs, h => pure (hs, h)
  | .push v :: cs, hs, h => do
    let (p, h) ← h.push v
    runCalls fuel cs (hs ++ [p]) h
  | .pop :: cs, hs, h => do
    let (_, h) ← h.pop fuel
    runCalls fuel cs hs h
  | .decrease_key i k :: cs, hs, h => do
    let h ← h.decrease_key fuel (hs.getD i 0) k
    runCalls fuel cs hs h

/-! ## Claim C19: binomial trees -/

/-- The nodes from `c` along `next` up to the node before `stop`. -/
def ringFrom (m : Store) (stop : Ptr) : Nat → Ptr → List Ptr
  | 0, _ => []
  | fuel + 1, c => c :: (if m.next c = stop then [] else ringFrom m stop fuel (m.next c))

/-- The circular list of the node `c`, starting at `c`; empty for the null pointer. -/
def siblings (m : Store) (fuel : Nat) (c : Ptr) : List Ptr :=
  if c = 0 then [] else ringFrom m c fuel c

/-- Number of nodes of the tree below and including `x`: `x` and the trees of the nodes
of its child list. -/
def subtreeSize (m : Store) : Nat → Ptr → Nat
  | 0, _ => 0
  | fuel + 1, x => 1 + ((siblings m (fuel + 1) (m.child x)).map (subtreeSize m fuel)).sum

/-- Every allocated node belongs to the forest. -/
def LiveIn (h : FibonacciHeap) (N : Finset Ptr) : Prop := ∀ x, Valid h.mem x → x ∈ N

/-! ## Claim C18: the consolidation loop of `pop` ends -/

/-- One pass of the loop `while (!mapped)` of `pop`:
`mapped = 1; curr = _top, end = _top;` followed by the scan `do ... while (curr != end)`. -/
def pop_pass (inner : Nat) (c : Consol) : Res Consol :=
  pop_scan inner { c with mapped := true, curr := c.top, stop := c.top }

/-- The variables of `pop` when it enters the loop `while (!mapped)`: the children of the
old top are spliced into the root list, the old top is unlinked and deleted, `_top` is its
former `next`, the table is empty. -/
def pop_enter (h : FibonacciHeap) : Consol :=
  { mem := popUnlinkMem h.mem h.top
    top := (popJoinMem h.mem h.top).next h.top
    degree_map := fun _ => 0
    curr := (popJoinMem h.mem h.top).next h.top
    stop := (popJoinMem h.mem h.top).next h.top
    mapped := false }

/-- Number of nodes of the root list. -/
def rootCount (fuel : Nat) (c : Consol) : Nat := (siblings c.mem fuel c.top).length

/-- The state at the head of the loop `while (!mapped)`: the nodes `N` form a forest whose
root list starts at `_top`, and every entry of the table is a root of that degree. -/
def LoopInv (N : Finset Ptr) (c : Consol) : Prop :=
  ∃ R kids, Forest c.mem N R kids ∧
    (∀ d, c.degree_map d ≠ 0 → c.degree_map d ∈ R ∧ (kids (c.degree_map d)).length = d) ∧
    R ≠ [] ∧ c.top = R.headI

/-! # Theorems -/

section

theorem eq_nil_or_snoc (l : List Ptr) : l = [] ∨ ∃ l2 z, l = l2 ++ [z] := by
  rcases List.eq_nil_or_concat l with h | ⟨l2, z, h⟩
  · exact Or.inl h
  · exact Or.inr ⟨l2, z, by simpa using h⟩

theorem seg_nil (m : Store) (x y : Ptr) : Seg m x [] y ↔ Linked m x y := by
  simp [Seg]

theorem seg_cons (m : Store) (x c y : Ptr) (l : List Ptr) :
    Seg m x (c :: l) y ↔ Linked m x c ∧ Seg m c l y := by
  simp [Seg]

theorem seg_append (m : Store) (x c y : Ptr) (l1 l2 : List Ptr) :
    Seg m x (l1 ++ c :: l2) y ↔ Seg m x l1 c ∧ Seg m c l2 y := by
  induction l1 generalizing x with
  | nil => simp [seg_cons, seg_nil]
  | cons d l1 ih => simp [seg_cons, ih, and_assoc]

theorem seg_snoc (m : Store) (x z y : Ptr) (l : List Ptr) :
    Seg m x (l ++ [z]) y ↔ Seg m x l z ∧ Linked m z y := by
  rw [seg_append, seg_nil]

theorem seg_frame {m m2 : Store} {x y : Ptr} {l : List Ptr}
    (hn : ∀ z ∈ x :: l, m2.next z = m.next z)
    (hp : ∀ z ∈ l ++ [y], m2.prev z = m.prev z)
    (h : Seg m x l y) : Seg m2 x l y := by
  induction l generalizing x with
  | nil =>
    rw [seg_nil] at *
    obtain ⟨h1, h2⟩ := h
    exact ⟨by rw [hn x (by simp), h1], by rw [hp y (by simp), h2]⟩
  | cons c l ih =>
    rw [seg_cons] at *
    obtain ⟨⟨h1, h2⟩, h3⟩ := h
    refine ⟨⟨by rw [hn x (by simp), h1], by rw [hp c (by simp), h2]⟩, ih ?_ ?_ h3⟩
    · intro z hz; exact hn z (List.mem_cons_of_mem _ hz)
    · intro z hz; exact hp z (by simp at hz ⊢; tauto)

theorem isRing_singleton (m : Store) (a : Ptr) :
    IsRing m [a] ↔ (m.next a = a ∧ m.prev a = a) := by
  simp [IsRing, seg_nil, Linked]

theorem isRing_cons_cons (m : Store) (a b : Ptr) (l : List Ptr) :
    IsRing m (a :: b :: l) ↔ Linked m a b ∧ Seg m b l a := by
  simp [IsRing, seg_cons]

/-- A ring may be read from any of its members. -/
theorem isRing_rotate {m : Store} (A B : List Ptr) (h : IsRing m (A ++ B)) :
    IsRing m (B ++ A) := by
  cases A with
  | nil => simpa using h
  | cons a A =>
    cases B with
    | nil => simpa using h
    | cons b B =>
      simp only [IsRing, List.cons_append] at h ⊢
      rw [seg_append] at h ⊢
      exact ⟨h.2, h.1⟩

theorem isRing_frame {m m2 : Store} {L : List Ptr}
    (hn : ∀ z ∈ L, m2.next z = m.next z) (hp : ∀ z ∈ L, m2.prev z = m.prev z)
    (h : IsRing m L) : IsRing m2 L := by
  cases L with
  | nil => trivial
  | cons a l =>
    refine seg_frame hn ?_ h
    intro z hz
    apply hp
    simp at hz ⊢
    tauto

theorem isRing_next_head {m : Store} {a : Ptr} {l : List Ptr} (h : IsRing m (a :: l)) :
    m.next a = (l ++ [a]).headI := by
  cases l with
  | nil => exact ((isRing_singleton m a).1 h).1
  | cons b l => exact ((isRing_cons_cons m a b l).1 h).1.1

theorem isRing_prev_last {m : Store} {a : Ptr} {l : List Ptr} (h : IsRing m (a :: l)) :
    m.prev a = (a :: l).getLast (by simp) ∧ m.next ((a :: l).getLast (by simp)) = a := by
  rcases eq_nil_or_snoc l with rfl | ⟨l2, z, rfl⟩
  · have := (isRing_singleton m a).1 h
    simpa using ⟨this.2, this.1⟩
  · simp only [IsRing] at h
    rw [seg_snoc] at h
    simpa using ⟨h.2.2, h.2.1⟩

theorem isRing_next_mem {m : Store} {L : List Ptr} (h : IsRing m L) {x : Ptr} (hx : x ∈ L) :
    m.next x ∈ L := by
  obtain ⟨A, B, rfl⟩ := List.append_of_mem hx
  have h2 : IsRing m (x :: B ++ A) := by simpa using isRing_rotate A (x :: B) h
  have := isRing_next_head h2
  rw [this]
  cases B with
  | nil =>
    cases A with
    | nil => simp
    | cons a A => simp
  | cons b B => simp

theorem isRing_prev_mem {m : Store} {L : List Ptr} (h : IsRing m L) {x : Ptr} (hx : x ∈ L) :
    m.prev x ∈ L := by
  obtain ⟨A, B, rfl⟩ := List.append_of_mem hx
  have h2 : IsRing m (x :: (B ++ A)) := by simpa using isRing_rotate A (x :: B) h
  have := (isRing_prev_last h2).1
  rw [this]
  have hm := List.getLast_mem (l := x :: (B ++ A)) (by simp)
  generalize (x :: (B ++ A)).getLast _ = y at hm
  simp at hm ⊢
  tauto

theorem isRing_prev_next {m : Store} {L : List Ptr} (h : IsRing m L) {x : Ptr} (hx : x ∈ L) :
    m.prev (m.next x) = x ∧ m.next (m.prev x) = x := by
  obtain ⟨A, B, rfl⟩ := List.append_of_mem hx
  have h2 : IsRing m (x :: (B ++ A)) := by simpa using isRing_rotate A (x :: B) h
  refine ⟨?_, ?_⟩
  · generalize B ++ A = l at h2
    cases l with
    | nil => have := (isRing_singleton m x).1 h2; rw [this.1, this.2]
    | cons b l => have := ((isRing_cons_cons m x b l).1 h2).1; rw [this.1, this.2]
  · have := isRing_prev_last h2
    rw [this.1, this.2]

/-- Splicing: `a.join(b)` turns the rings `a :: A` and `b :: B` into the ring
`a :: b :: B ++ A`. -/
theorem isRing_join {m : Store} {a b : Ptr} {A B : List Ptr}
    (hA : IsRing m (a :: A)) (hB : IsRing m (b :: B))
    (hnd : (a :: A ++ b :: B).Nodup) :
    IsRing (joinMem m a b) (a :: b :: (B ++ A)) := by
  have hnx := isRing_next_head hA
  have hpv := (isRing_prev_last hB).1
  have hnd2 := hnd
  rw [List.nodup_append] at hnd2
  obtain ⟨ndA, ndB, hdisj⟩ := hnd2
  have hab : a ≠ b := fun h => hdisj (List.mem_cons_self a A) (h ▸ List.mem_cons_self b B)
  rw [isRing_cons_cons]
  refine ⟨⟨by simp [joinMem, upd], by simp [joinMem, upd]⟩, ?_⟩
  -- the last node of the ring of b
  rcases eq_nil_or_snoc B with rfl | ⟨B2, z, rfl⟩
  · -- B = [], last is b
    simp only [List.getLast_singleton] at hpv
    have hbb := (isRing_singleton m b).1 hB
    cases A with
    | nil =>
      have haa := (isRing_singleton m a).1 hA
      simp only [List.nil_append, seg_nil, Linked, joinMem, upd]
      simp [haa.1, hbb.2, hab, hab.symm]
    | cons a1 A =>
      have h2 := (isRing_cons_cons m a a1 A).1 hA
      simp only [List.nil_append, seg_cons]
      have ha1 : a1 ≠ a := by
        intro h; simp [h] at ndA
      have ha1b : a1 ≠ b := by
        intro h; exact hdisj (List.mem_cons_of_mem _ (List.mem_cons_self a1 A)) (h ▸ List.mem_cons_self b [])
      refine ⟨⟨by simp [joinMem, upd, hbb.2, h2.1.1, hab.symm], by simp [joinMem, upd, hbb.2, h2.1.1, ha1b]⟩, ?_⟩
      refine seg_frame ?_ ?_ h2.2
      · intro x hx
        have hxa : x ≠ a := by
          intro h; subst h; simp at hx
          rcases hx with h | h
          · exact ha1 h.symm
          · simp [h] at ndA
        have hxb : x ≠ b := by
          intro h; subst h
          exact hdisj (List.mem_cons_of_mem _ hx) (List.mem_cons_self _ _)
        simp [joinMem, upd, hxa, hbb.2, hxb]
      · intro x hx
        have hxb : x ≠ b := by
          intro h; subst h
          simp at hx
          rcases hx with h | h
          · exact hdisj (List.mem_cons_of_mem _ (List.mem_cons_of_mem _ h)) (List.mem_cons_self _ _)
          · exact hab h.symm
        have hxa1 : x ≠ a1 := by
          intro h; subst h
          simp at hx
          rcases hx with h | h
          · simp [h] at ndA
          · exact ha1 h
        simp [joinMem, upd, hxb, h2.1.1, hxa1]
  · -- B = B2 ++ [z], last is z
    have hz : m.prev b = z := by simpa using hpv
    simp only [IsRing] at hB
    rw [seg_snoc] at hB
    have hzb : z ≠ b := by
      intro h; subst h; simp at ndB
    have hza : z ≠ a := by
      intro h; subst h
      exact hdisj (List.mem_cons_self _ _) (by simp)
    rw [List.append_assoc, List.singleton_append, seg_append]
    constructor
    · refine seg_frame ?_ ?_ hB.1
      · intro x hx
        have hxz : x ≠ z := by
          intro h; subst h
          have : (b :: B2 ++ [x]).Nodup := by simpa using ndB
          rw [List.nodup_append] at this
          exact this.2.2 hx (by simp)
        have hxa : x ≠ a := by
          intro h; subst h
          exact hdisj (List.mem_cons_self _ _) (by simp at hx ⊢; tauto)
        simp [joinMem, upd, hz, hxz, hxa]
      · intro x hx
        have hxb : x ≠ b := by
          intro h; subst h
          simp at ndB hx
          tauto
        have hxa1 : x ≠ m.next a := by
          intro h
          have hm : m.next a ∈ a :: A := isRing_next_mem hA (List.mem_cons_self _ _)
          exact hdisj hm (by rw [← h]; simp at hx ⊢; tauto)
        simp [joinMem, upd, hxb, hxa1]
    · cases A with
      | nil =>
        have haa := (isRing_singleton m a).1 hA
        simp only [seg_nil, Linked, joinMem, upd]
        simp [haa.1, hz, hza, hab]
      | cons a1 A =>
        have h2 := (isRing_cons_cons m a a1 A).1 hA
        have ha1 : a1 ≠ a := by
          intro h; simp [h] at ndA
        have ha1b : a1 ≠ b := by
          intro h; exact hdisj (List.mem_cons_of_mem _ (List.mem_cons_self a1 A)) (h ▸ List.mem_cons_self b _)
        rw [seg_cons]
        refine ⟨⟨by simp [joinMem, upd, hz, h2.1.1, hza], by simp [joinMem, upd, hz, h2.1.1, ha1b]⟩, ?_⟩
        refine seg_frame ?_ ?_ h2.2
        · intro x hx
          have hxa : x ≠ a := by
            intro h; subst h; simp at hx
            rcases hx with h | h
            · exact ha1 h.symm
            · simp [h] at ndA
          have hxz : x ≠ z := by
            intro h; subst h
            exact hdisj (List.mem_cons_of_mem _ hx) (by simp)
          simp [joinMem, upd, hxa, hz, hxz]
        · intro x hx
          have hxb : x ≠ b := by
            intro h; subst h
            simp at hx
            rcases hx with h | h
            · exact hdisj (List.mem_cons_of_mem _ (List.mem_cons_of_mem _ h)) (List.mem_cons_self _ _)
            · exact hab h.symm
          have hxa1 : x ≠ a1 := by
            intro h; subst h
            simp at hx
            rcases hx with h | h
            · simp [h] at ndA
            · exact ha1 h
          simp [joinMem, upd, hxb, h2.1.1, hxa1]

/-- Unlinking: after `u->next->prev = u->prev; u->prev->next = u->next;` the other members
of the ring of `u` form a ring. -/
theorem isRing_unlink {m m2 : Store} {u : Ptr} {R : List Ptr}
    (h : IsRing m (u :: R)) (hnd : (u :: R).Nodup)
    (hn : ∀ x ∈ R, m2.next x = upd m.next (m.prev u) (m.next u) x)
    (hp : ∀ x ∈ R, m2.prev x = upd m.prev (m.next u) (m.prev u) x) :
    IsRing m2 R := by
  cases R with
  | nil => trivial
  | cons r1 R =>
    have h2 := (isRing_cons_cons m u r1 R).1 h
    have hnx : m.next u = r1 := h2.1.1
    rcases eq_nil_or_snoc R with rfl | ⟨R2, z, rfl⟩
    · have h3 := (seg_nil m r1 u).1 h2.2
      have hpv : m.prev u = r1 := h3.2
      rw [isRing_singleton]
      rw [hn r1 (by simp), hp r1 (by simp)]
      simp [upd, hnx, hpv]
    · have h3 := (seg_snoc m r1 z u R2).1 h2.2
      have hpv : m.prev u = z := h3.2.2
      simp only [IsRing]
      rw [seg_snoc]
      have hr1z : r1 ≠ z := by
        intro h; subst h; simp at hnd
      constructor
      · refine seg_frame ?_ ?_ h3.1
        · intro x hx
          have hxz : x ≠ z := by
            intro h; subst h
            have : (r1 :: R2 ++ [x]).Nodup := by simpa using hnd.of_cons
            rw [List.nodup_append] at this
            exact this.2.2 hx (by simp)
          rw [hn x (by simp at hx ⊢; tauto)]
          simp [upd, hpv, hxz]
        · intro x hx
          have hxr : x ≠ r1 := by
            intro h; subst h
            have : (x :: (R2 ++ [z])).Nodup := hnd.of_cons
            simp at this hx
            tauto
          rw [hp x (by simp at hx ⊢; tauto)]
          simp [upd, hnx, hxr]
      · constructor
        · rw [hn z (by simp)]; simp [upd, hpv, hnx]
        · rw [hp r1 (by simp)]; simp [upd, hpv, hnx]

end

section

@[simp] theorem ok_bind {α β : Type} (a : α) (f : α → Res β) :
    (Except.ok a >>= f) = f a := rfl

@[simp] theorem error_bind {α β : Type} (e : Fault) (f : α → Res β) :
    ((Except.error e : Res α) >>= f) = Except.error e := rfl

@[simp] theorem pure_eq_ok {α : Type} (a : α) : (pure a : Res α) = Except.ok a := rfl

theorem deref_ok {m : Store} {p : Ptr} (h : Valid m p) : m.deref p = .ok () := by
  simp [Store.deref, h.1, h.2]

theorem get_ok {α : Type} {m : Store} {p : Ptr} (h : Valid m p) (f : Ptr → α) :
    m.get p f = .ok (f p) := by
  simp [Store.get, deref_ok h]

theorem setPrev_ok {m : Store} {p : Ptr} (h : Valid m p) (v : Ptr) :
    m.setPrev p v = .ok { m with prev := upd m.prev p v } := by
  simp [Store.setPrev, deref_ok h]

theorem setNext_ok {m : Store} {p : Ptr} (h : Valid m p) (v : Ptr) :
    m.setNext p v = .ok { m with next := upd m.next p v } := by
  simp [Store.setNext, deref_ok h]

theorem setParent_ok {m : Store} {p : Ptr} (h : Valid m p) (v : Ptr) :
    m.setParent p v = .ok { m with parent := upd m.parent p v } := by
  simp [Store.setParent, deref_ok h]

theorem setChild_ok {m : Store} {p : Ptr} (h : Valid m p) (v : Ptr) :
    m.setChild p v = .ok { m with child := upd m.child p v } := by
  simp [Store.setChild, deref_ok h]

theorem setDegree_ok {m : Store} {p : Ptr} (h : Valid m p) (v : Int) :
    m.setDegree p v = .ok { m with degree := upd m.degree p v } := by
  simp [Store.setDegree, deref_ok h]

theorem setMarked_ok {m : Store} {p : Ptr} (h : Valid m p) (v : Bool) :
    m.setMarked p v = .ok { m with marked := upd m.marked p v } := by
  simp [Store.setMarked, deref_ok h]

theorem setValue_ok {m : Store} {p : Ptr} (h : Valid m p) (v : Int) :
    m.setValue p v = .ok { m with value := upd m.value p v } := by
  simp [Store.setValue, deref_ok h]

theorem delete_ok {m : Store} {p : Ptr} (h : Valid m p) :
    m.delete p = .ok { m with live := upd m.live p false } := by
  simp [Store.delete, deref_ok h]

@[simp] theorem upd_same {α : Type} (f : Ptr → α) (p : Ptr) (v : α) : upd f p v p = v := by
  simp [upd]

theorem upd_other {α : Type} (f : Ptr → α) {p q : Ptr} (v : α) (h : q ≠ p) :
    upd f p v q = f q := by
  simp [upd, h]

theorem join_null (m : Store) (a : Ptr) : Node.join m a 0 = .ok (a, m) := by
  simp [Node.join]

theorem get_eq {α : Type} {m : Store} {p : Ptr} (h0 : p ≠ 0) (hl : m.live p = true)
    (f : Ptr → α) : m.get p f = .ok (f p) := get_ok ⟨h0, hl⟩ f

theorem setPrev_eq {m : Store} {p : Ptr} (h0 : p ≠ 0) (hl : m.live p = true) (v : Ptr) :
    m.setPrev p v = .ok { m with prev := upd m.prev p v } := setPrev_ok ⟨h0, hl⟩ v

theorem setNext_eq {m : Store} {p : Ptr} (h0 : p ≠ 0) (hl : m.live p = true) (v : Ptr) :
    m.setNext p v = .ok { m with next := upd m.next p v } := setNext_ok ⟨h0, hl⟩ v

theorem setParent_eq {m : Store} {p : Ptr} (h0 : p ≠ 0) (hl : m.live p = true) (v : Ptr) :
    m.setParent p v = .ok { m with parent := upd m.parent p v } := setParent_ok ⟨h0, hl⟩ v

theorem setChild_eq {m : Store} {p : Ptr} (h0 : p ≠ 0) (hl : m.live p = true) (v : Ptr) :
    m.setChild p v = .ok { m with child := upd m.child p v } := setChild_ok ⟨h0, hl⟩ v

theorem setDegree_eq {m : Store} {p : Ptr} (h0 : p ≠ 0) (hl : m.live p = true) (v : Int) :
    m.setDegree p v = .ok { m with degree := upd m.degree p v } := setDegree_ok ⟨h0, hl⟩ v

theorem setMarked_eq {m : Store} {p : Ptr} (h0 : p ≠ 0) (hl : m.live p = true) (v : Bool) :
    m.setMarked p v = .ok { m with marked := upd m.marked p v } := setMarked_ok ⟨h0, hl⟩ v

theorem setValue_eq {m : Store} {p : Ptr} (h0 : p ≠ 0) (hl : m.live p = true) (v : Int) :
    m.setValue p v = .ok { m with value := upd m.value p v } := setValue_ok ⟨h0, hl⟩ v

theorem delete_eq {m : Store} {p : Ptr} (h0 : p ≠ 0) (hl : m.live p = true) :
    m.delete p = .ok { m with live := upd m.live p false } := delete_ok ⟨h0, hl⟩

theorem upd_self_read {α : Type} (f : Ptr → α) (p q : Ptr) : upd f p (f q) q = f q := by
  by_cases h : q = p
  · rw [h]; simp
  · exact upd_other _ _ h

theorem join_ok {m : Store} {a b : Ptr} (hb : b ≠ 0) (va : Valid m a) (vb : Valid m b)
    (vn : Valid m (m.next a)) (vp : Valid m (m.prev b)) :
    Node.join m a b = .ok (joinTop m a b, joinMem m a b) := by
  simp [Node.join, hb, get_eq, setPrev_eq, setNext_eq, va.1, va.2, vb.1, vb.2, vn.1, vn.2,
    vp.1, vp.2, upd_self_read, joinTop, joinMem]

theorem add_child_ok {m : Store} {p u : Ptr} (vp : Valid m p) (vu : Valid m u)
    (vn : Valid m (m.next u)) (vpv : Valid m (m.prev u))
    (vc : m.child p ≠ 0 → Valid m (m.child p) ∧ Valid m (m.prev (m.child p)))
    (hc : m.child p ≠ 0 → m.child p ≠ u ∧ m.child p ≠ m.next u) :
    Node.add_child m p u = .ok (m.degree p + 1, addChildMem m p u) := by
  by_cases h0 : m.child p = 0
  · simp [Node.add_child, get_eq, setPrev_eq, setNext_eq, setParent_eq, setChild_eq,
      setDegree_eq, vp.1, vp.2, vu.1, vu.2, vn.1, vn.2, vpv.1, vpv.2, upd_self_read, h0,
      join_null, addChildMem, isolateMem]
  · obtain ⟨⟨c1, c2⟩, ⟨c3, c4⟩⟩ := vc h0
    obtain ⟨d1, d2⟩ := hc h0
    have hj : Node.join { isolateMem m u with parent := upd m.parent u p } u (m.child p)
        = .ok (joinTop m u (m.child p),
            joinMem { isolateMem m u with parent := upd m.parent u p } u (m.child p)) := by
      rw [join_ok h0]
      · rfl
      · exact vu
      · exact ⟨c1, c2⟩
      · simpa [isolateMem, Valid] using vu
      · simpa [isolateMem, Valid, upd, d1, d2] using And.intro c3 c4
    simp only [isolateMem] at hj
    simp [Node.add_child, get_eq, setPrev_eq, setNext_eq, setParent_eq, setChild_eq,
      setDegree_eq, vp.1, vp.2, vu.1, vu.2, vn.1, vn.2, vpv.1, vpv.2, upd_self_read, h0,
      addChildMem, isolateMem, hj, joinMem]

end

section

namespace Forest

variable {m : Store} {N : Finset Ptr} {roots : List Ptr} {kids : Ptr → List Ptr}

theorem ne_zero (F : Forest m N roots kids) {x : Ptr} (hx : x ∈ N) : x ≠ 0 := by
  intro h; subst h; exact F.nonnull hx

theorem valid (F : Forest m N roots kids) {x : Ptr} (hx : x ∈ N) : Valid m x :=
  ⟨F.ne_zero hx, F.live x hx⟩

theorem kid_not_root (F : Forest m N roots kids) {x y : Ptr} (hx : x ∈ N) (hy : y ∈ kids x) :
    y ∉ roots := by
  intro hr
  have := F.roots_parent y hr
  rw [F.kids_parent x hx y hy] at this
  exact this hx

theorem kids_disjoint (F : Forest m N roots kids) {x x2 y : Ptr} (hx : x ∈ N) (hx2 : x2 ∈ N)
    (hy : y ∈ kids x) (hy2 : y ∈ kids x2) : x = x2 := by
  rw [← F.kids_parent x hx y hy, ← F.kids_parent x2 hx2 y hy2]

theorem child_eq_zero_iff (F : Forest m N roots kids) {x : Ptr} (hx : x ∈ N) :
    m.child x = 0 ↔ kids x = [] := by
  rw [F.child_head x hx]
  cases h : kids x with
  | nil => simp
  | cons c l =>
    have : c ∈ N := F.kids_mem x hx c (by rw [h]; simp)
    simp [F.ne_zero this]

theorem child_mem (F : Forest m N roots kids) {x : Ptr} (hx : x ∈ N) (h : m.child x ≠ 0) :
    ∃ l, kids x = m.child x :: l := by
  have h1 := F.child_head x hx
  cases h2 : kids x with
  | nil => rw [h2] at h1; exact absurd h1 h
  | cons c l => rw [h2] at h1; exact ⟨l, by rw [h1]; rfl⟩

theorem root_next_mem (F : Forest m N roots kids) {r : Ptr} (hr : r ∈ roots) :
    m.next r ∈ roots := isRing_next_mem F.roots_ring hr

theorem root_prev_mem (F : Forest m N roots kids) {r : Ptr} (hr : r ∈ roots) :
    m.prev r ∈ roots := isRing_prev_mem F.roots_ring hr

theorem kid_next_mem (F : Forest m N roots kids) {x y : Ptr} (hx : x ∈ N) (hy : y ∈ kids x) :
    m.next y ∈ kids x := isRing_next_mem (F.kids_ring x hx) hy

theorem kid_prev_mem (F : Forest m N roots kids) {x y : Ptr} (hx : x ∈ N) (hy : y ∈ kids x) :
    m.prev y ∈ kids x := isRing_prev_mem (F.kids_ring x hx) hy

/-- Every child has a strictly smaller degree than its parent. -/
theorem kid_length_lt (F : Forest m N roots kids) {x y : Ptr} (hx : x ∈ N) (hy : y ∈ kids x) :
    (kids y).length < (kids x).length := by
  have h := F.binom x hx
  have h2 : 2 ^ (kids y).length ≤ ((kids x).map (fun y => 2 ^ (kids y).length)).sum :=
    List.single_le_sum (by intro z _; exact Nat.zero_le z) _
      (List.mem_map_of_mem (fun y => 2 ^ (kids y).length) hy)
  have h3 : 2 ^ (kids y).length < 2 ^ (kids x).length := by omega
  exact (Nat.pow_lt_pow_iff_right (by norm_num)).1 h3

/-- A root of degree `d` stands for `2 ^ d` of the nodes. -/
theorem root_pow_le (F : Forest m N roots kids) {r : Ptr} (hr : r ∈ roots) :
    2 ^ (kids r).length ≤ N.card := by
  rw [← F.count]
  exact List.single_le_sum (by intro z _; exact Nat.zero_le z) _
      (List.mem_map_of_mem (fun y => 2 ^ (kids y).length) hr)

theorem kids_length_le (F : Forest m N roots kids) {x : Ptr} (hx : x ∈ N) :
    (kids x).length ≤ N.card := by
  rw [← List.toFinset_card_of_nodup (F.kids_nodup x hx)]
  apply Finset.card_le_card
  intro y hy
  exact F.kids_mem x hx y (List.mem_toFinset.1 hy)

/-- Every node has a root above it whose value is not larger. -/
theorem exists_root_le (F : Forest m N roots kids) {x : Ptr} (hx : x ∈ N) :
    ∃ r ∈ roots, m.value r ≤ m.value x := by
  have key : ∀ k : Nat, ∀ y ∈ N, N.card - (kids y).length ≤ k →
      ∃ r ∈ roots, m.value r ≤ m.value y := by
    intro k
    induction k with
    | zero =>
      intro y hy hk
      rcases F.cover y hy with h | ⟨h1, h2⟩
      · exact ⟨y, h, le_refl _⟩
      · exfalso
        have h3 := F.kid_length_lt h1 h2
        have h4 := F.kids_length_le h1
        omega
    | succ k ih =>
      intro y hy hk
      rcases F.cover y hy with h | ⟨h1, h2⟩
      · exact ⟨y, h, le_refl _⟩
      · have h3 := F.kid_length_lt h1 h2
        obtain ⟨r, hr, hle⟩ := ih (m.parent y) h1 (by omega)
        exact ⟨r, hr, le_trans hle (F.order _ h1 y h2)⟩
  exact key _ x hx (le_refl _)

end Forest

end

section

/-! ## Linking two roots (`parent->add_child(child)`) -/

@[simp] theorem addChild_value (m : Store) (p u : Ptr) : (addChildMem m p u).value = m.value := by
  by_cases h : m.child p = 0 <;> simp [addChildMem, h, joinMem, isolateMem]

@[simp] theorem addChild_live (m : Store) (p u : Ptr) : (addChildMem m p u).live = m.live := by
  by_cases h : m.child p = 0 <;> simp [addChildMem, h, joinMem, isolateMem]

@[simp] theorem addChild_marked (m : Store) (p u : Ptr) :
    (addChildMem m p u).marked = m.marked := by
  by_cases h : m.child p = 0 <;> simp [addChildMem, h, joinMem, isolateMem]

@[simp] theorem addChild_brk (m : Store) (p u : Ptr) : (addChildMem m p u).brk = m.brk := by
  by_cases h : m.child p = 0 <;> simp [addChildMem, h, joinMem, isolateMem]

@[simp] theorem addChild_parent (m : Store) (p u : Ptr) :
    (addChildMem m p u).parent = upd m.parent u p := by
  by_cases h : m.child p = 0 <;> simp [addChildMem, h, joinMem, isolateMem]

@[simp] theorem addChild_degree (m : Store) (p u : Ptr) :
    (addChildMem m p u).degree = upd m.degree p (m.degree p + 1) := by
  by_cases h : m.child p = 0 <;> simp [addChildMem, h, joinMem, isolateMem]

@[simp] theorem addChild_child (m : Store) (p u : Ptr) :
    (addChildMem m p u).child
      = upd m.child p (if m.child p = 0 then u else joinTop m u (m.child p)) := by
  by_cases h : m.child p = 0 <;> simp [addChildMem, h, joinMem, isolateMem]

theorem addChild_next_frame (m : Store) (p u : Ptr) {y : Ptr} (h1 : y ≠ u) (h2 : y ≠ m.prev u)
    (h3 : m.child p ≠ 0 → y ≠ m.prev (m.child p)) :
    (addChildMem m p u).next y = m.next y := by
  by_cases h : m.child p = 0
  · simp [addChildMem, h, isolateMem, upd, h1, h2]
  · have h3 := h3 h
    simp only [addChildMem, h, if_false, joinMem, isolateMem, upd, h1, h2]
    split_ifs <;> simp_all

theorem addChild_prev_frame (m : Store) (p u : Ptr) {y : Ptr} (h1 : y ≠ u) (h2 : y ≠ m.next u)
    (h3 : m.child p ≠ 0 → y ≠ m.child p) : (addChildMem m p u).prev y = m.prev y := by
  by_cases h : m.child p = 0
  · simp [addChildMem, h, isolateMem, upd, h1, h2]
  · have h3 := h3 h
    simp only [addChildMem, h, if_false, joinMem, isolateMem, upd, h1, h2]
    split_ifs <;> simp_all

theorem sum_map_upd {f g : Ptr → Nat} {L : List Ptr} {p : Ptr} (hL : L.Nodup) (hp : p ∈ L)
    (hfg : ∀ x ∈ L, x ≠ p → g x = f x) :
    (L.map g).sum + f p = (L.map f).sum + g p := by
  rw [← List.sum_map_erase g hp, ← List.sum_map_erase f hp]
  have : ((L.erase p).map g) = ((L.erase p).map f) := by
    apply List.map_congr_left
    intro x hx
    have := (hL.mem_erase_iff).1 hx
    exact hfg x this.2 this.1
  rw [this]
  omega

theorem linkKids_perm {m : Store} {N : Finset Ptr} {roots : List Ptr} {kids : Ptr → List Ptr}
    (F : Forest m N roots kids) {p : Ptr} (c : Ptr) (hp : p ∈ N) :
    (linkKids m kids p c).Perm (c :: kids p) := by
  unfold linkKids
  split_ifs with h1 h2
  · rw [(F.child_eq_zero_iff hp).1 h1]
  · exact List.Perm.refl _
  · exact List.perm_append_singleton c (kids p)

/-- Linking preserves the forest: the root `c` becomes a child of the root `p`. -/
theorem forest_link {m : Store} {N : Finset Ptr} {roots : List Ptr} {kids : Ptr → List Ptr}
    (F : Forest m N roots kids) {p c : Ptr} (hp : p ∈ roots) (hc : c ∈ roots) (hpc : p ≠ c)
    (hdeg : (kids p).length = (kids c).length) (hval : m.value p ≤ m.value c) :
    Forest (addChildMem m p c) N (roots.erase c) (upd kids p (linkKids m kids p c)) := by
  have pN : p ∈ N := F.roots_mem p hp
  have cN : c ∈ N := F.roots_mem c hc
  have hperm := linkKids_perm F c pN
  have hmemK : ∀ y, y ∈ linkKids m kids p c ↔ y = c ∨ y ∈ kids p := by
    intro y; rw [hperm.mem_iff]; simp
  have c_notkid : ∀ x ∈ N, c ∉ kids x := fun x hx h => F.kid_not_root hx h hc
  have p_notkid : ∀ x ∈ N, p ∉ kids x := fun x hx h => F.kid_not_root hx h hp
  have hkidsne : ∀ y, y ≠ p → upd kids p (linkKids m kids p c) y = kids y :=
    fun y hy => upd_other _ _ hy
  have hkidsp : upd kids p (linkKids m kids p c) p = linkKids m kids p c := upd_same _ _ _
  -- frame for nodes that are children of some node other than p
  have frame_next : ∀ x ∈ N, ∀ y ∈ kids x, x ≠ p →
      (addChildMem m p c).next y = m.next y := by
    intro x hx y hy hxp
    apply addChild_next_frame
    · intro h; exact c_notkid x hx (h ▸ hy)
    · intro h; exact F.kid_not_root hx hy (h ▸ F.root_prev_mem hc)
    · intro h0 h
      obtain ⟨l, hl⟩ := F.child_mem pN h0
      have : m.prev (m.child p) ∈ kids p := F.kid_prev_mem pN (by rw [hl]; simp)
      exact hxp (F.kids_disjoint hx pN hy (h ▸ this))
  have frame_prev : ∀ x ∈ N, ∀ y ∈ kids x, x ≠ p →
      (addChildMem m p c).prev y = m.prev y := by
    intro x hx y hy hxp
    apply addChild_prev_frame
    · intro h; exact c_notkid x hx (h ▸ hy)
    · intro h; exact F.kid_not_root hx hy (h ▸ F.root_next_mem hc)
    · intro h0 h
      obtain ⟨l, hl⟩ := F.child_mem pN h0
      have : m.child p ∈ kids p := by rw [hl]; simp
      exact hxp (F.kids_disjoint hx pN hy (h ▸ this))
  -- the root ring
  have ring_roots : IsRing (addChildMem m p c) (roots.erase c) := by
    obtain ⟨A, B, hAB⟩ := List.append_of_mem hc
    have hnd := F.roots_nodup
    rw [hAB] at hnd
    have hcA : c ∉ A := by
      intro h
      have := (List.nodup_append.1 hnd).2.2
      exact this h (List.mem_cons_self _ _)
    have herase : roots.erase c = A ++ B := by
      rw [hAB, List.erase_append_right _ hcA]; simp
    rw [herase]
    apply isRing_rotate B A
    have h1 : IsRing m (c :: (B ++ A)) := by
      have := isRing_rotate A (c :: B) (hAB ▸ F.roots_ring)
      simpa using this
    have hnd2 : (c :: (B ++ A)).Nodup := by
      have : (c :: (B ++ A)).Perm (A ++ c :: B) := by
        have h1 : (c :: (B ++ A)).Perm (c :: (A ++ B)) := List.Perm.cons c List.perm_append_comm
        exact h1.trans (List.perm_middle.symm)
      exact this.nodup_iff.2 hnd
    have hroot : ∀ x ∈ B ++ A, x ∈ roots ∧ x ≠ c := by
      intro x hx
      constructor
      · rw [hAB]; simp at hx ⊢; tauto
      · intro h; subst h; exact (List.nodup_cons.1 hnd2).1 hx
    have hkidp : ∀ y ∈ kids p, y ∉ roots := fun y hy => F.kid_not_root pN hy
    refine isRing_unlink h1 hnd2 ?_ ?_
    · intro x hx
      obtain ⟨hxr, hxc⟩ := hroot x hx
      by_cases h0 : m.child p = 0
      · simp [addChildMem, h0, isolateMem, upd, hxc]
      · obtain ⟨l, hl⟩ := F.child_mem pN h0
        have hc0 : m.child p ∈ kids p := by rw [hl]; simp
        have h2 : m.prev (m.child p) ∈ kids p := F.kid_prev_mem pN hc0
        have e1 : m.child p ≠ c := fun h => hkidp _ hc0 (h ▸ hc)
        have e2 : m.child p ≠ m.next c := fun h => hkidp _ hc0 (h ▸ F.root_next_mem hc)
        have e3 : x ≠ m.prev (m.child p) := fun h => hkidp _ h2 (h ▸ hxr)
        simp [addChildMem, h0, joinMem, isolateMem, upd, hxc, e1, e2, e3]
    · intro x hx
      obtain ⟨hxr, hxc⟩ := hroot x hx
      by_cases h0 : m.child p = 0
      · simp [addChildMem, h0, isolateMem, upd, hxc]
      · obtain ⟨l, hl⟩ := F.child_mem pN h0
        have hc0 : m.child p ∈ kids p := by rw [hl]; simp
        have e1 : x ≠ m.child p := fun h => hkidp _ hc0 (h ▸ hxr)
        simp [addChildMem, h0, joinMem, isolateMem, upd, hxc, e1]
  -- the child ring of p
  have ring_kids : IsRing (addChildMem m p c) (linkKids m kids p c) := by
    have hkidp : ∀ y ∈ kids p, y ∉ roots := fun y hy => F.kid_not_root pN hy
    by_cases h0 : m.child p = 0
    · simp only [linkKids, h0, if_true]
      rw [isRing_singleton]
      simp [addChildMem, h0, isolateMem]
    · obtain ⟨l, hl⟩ := F.child_mem pN h0
      have hc0 : m.child p ∈ kids p := by rw [hl]; simp
      -- the store before the join
      have hA : IsRing ({ isolateMem m c with parent := upd m.parent c p } : Store) [c] := by
        rw [isRing_singleton]; simp [isolateMem]
      have hB : IsRing ({ isolateMem m c with parent := upd m.parent c p } : Store)
          (m.child p :: l) := by
        rw [← hl]
        refine isRing_frame ?_ ?_ (F.kids_ring p pN)
        · intro z hz
          have e1 : z ≠ c := fun h => hkidp z hz (h ▸ hc)
          have e2 : z ≠ m.prev c := fun h => hkidp z hz (h ▸ F.root_prev_mem hc)
          simp [isolateMem, upd, e1, e2]
        · intro z hz
          have e1 : z ≠ c := fun h => hkidp z hz (h ▸ hc)
          have e2 : z ≠ m.next c := fun h => hkidp z hz (h ▸ F.root_next_mem hc)
          simp [isolateMem, upd, e1, e2]
      have hnd : (c :: [] ++ m.child p :: l).Nodup := by
        rw [← hl]
        simp only [List.cons_append, List.nil_append, List.nodup_cons]
        exact ⟨c_notkid p pN, F.kids_nodup p pN⟩
      have hj := isRing_join hA hB hnd
      rw [List.append_nil] at hj
      have hring : IsRing (addChildMem m p c) (c :: kids p) := by
        rw [hl]
        refine isRing_frame ?_ ?_ hj
        · intro z _; simp [addChildMem, h0]
        · intro z _; simp [addChildMem, h0]
        
      simp only [linkKids, h0, if_false]
      split_ifs
      · exact hring
      · exact isRing_rotate [c] (kids p) hring
  have hmem_erase : ∀ r, r ∈ roots.erase c ↔ r ≠ c ∧ r ∈ roots :=
    fun r => F.roots_nodup.mem_erase_iff
  have kids_of : ∀ x, x ≠ p → ∀ y ∈ kids x, x ∈ N → y ≠ c ∧ y ≠ p := by
    intro x _ y hy hx
    exact ⟨fun h => c_notkid x hx (h ▸ hy), fun h => p_notkid x hx (h ▸ hy)⟩
  have hlen : (linkKids m kids p c).length = (kids p).length + 1 := by
    rw [hperm.length_eq]; simp
  have hKne : ∀ y ∈ linkKids m kids p c, y ≠ p := by
    intro y hy h
    rcases (hmemK y).1 hy with h1 | h1
    · exact hpc (h.symm.trans h1)
    · exact p_notkid p pN (h ▸ h1)
  refine
    { nonnull := F.nonnull
      live := by intro x hx; simpa using F.live x hx
      roots_nodup := F.roots_nodup.erase c
      roots_mem := fun r hr => F.roots_mem r ((hmem_erase r).1 hr).2
      roots_ring := ring_roots
      roots_parent := ?_
      kids_nodup := ?_
      kids_ring := ?_
      kids_mem := ?_
      kids_parent := ?_
      child_head := ?_
      degree_eq := ?_
      cover := ?_
      order := ?_
      binom := ?_
      count := ?_ }
  · intro r hr
    obtain ⟨h1, h2⟩ := (hmem_erase r).1 hr
    simpa [upd, h1] using F.roots_parent r h2
  · intro x hx
    by_cases hxp : x = p
    · subst hxp
      rw [hkidsp, hperm.nodup_iff, List.nodup_cons]
      exact ⟨c_notkid x pN, F.kids_nodup x pN⟩
    · rw [hkidsne x hxp]; exact F.kids_nodup x hx
  · intro x hx
    by_cases hxp : x = p
    · subst hxp; rw [hkidsp]; exact ring_kids
    · rw [hkidsne x hxp]
      exact isRing_frame (fun z hz => frame_next x hx z hz hxp)
        (fun z hz => frame_prev x hx z hz hxp) (F.kids_ring x hx)
  · intro x hx y hy
    by_cases hxp : x = p
    · subst hxp
      rw [hkidsp] at hy
      rcases (hmemK y).1 hy with h | h
      · exact h ▸ cN
      · exact F.kids_mem x pN y h
    · rw [hkidsne x hxp] at hy; exact F.kids_mem x hx y hy
  · intro x hx y hy
    by_cases hxp : x = p
    · subst hxp
      rw [hkidsp] at hy
      rcases (hmemK y).1 hy with h | h
      · subst h; simp
      · have : y ≠ c := fun e => c_notkid x pN (e ▸ h)
        simpa [upd, this] using F.kids_parent x pN y h
    · rw [hkidsne x hxp] at hy
      have : y ≠ c := fun e => c_notkid x hx (e ▸ hy)
      simpa [upd, this] using F.kids_parent x hx y hy
  · intro x hx
    by_cases hxp : x = p
    · subst hxp
      rw [hkidsp]
      simp only [addChild_child, upd_same, linkKids]
      by_cases h0 : m.child x = 0
      · simp [h0]
      · obtain ⟨l, hl⟩ := F.child_mem pN h0
        simp only [h0, if_false, joinTop]
        split_ifs
        · rfl
        · rw [hl]; rfl
    · rw [hkidsne x hxp]
      simpa [upd, hxp] using F.child_head x hx
  · intro x hx
    by_cases hxp : x = p
    · subst hxp
      rw [hkidsp, hlen]
      simp [F.degree_eq x pN]
    · rw [hkidsne x hxp]
      simpa [upd, hxp] using F.degree_eq x hx
  · intro y hy
    by_cases hyc : y = c
    · right
      rw [hyc]
      simp only [addChild_parent, upd_same]
      exact ⟨pN, (hmemK c).2 (Or.inl rfl)⟩
    · rcases F.cover y hy with h | ⟨h1, h2⟩
      · left; exact (hmem_erase y).2 ⟨hyc, h⟩
      · right
        simp only [addChild_parent, upd_other _ _ hyc]
        refine ⟨h1, ?_⟩
        by_cases hpp : m.parent y = p
        · rw [hpp, hkidsp]; rw [hpp] at h2; exact (hmemK y).2 (Or.inr h2)
        · rw [hkidsne _ hpp]; exact h2
  · intro x hx y hy
    simp only [addChild_value]
    by_cases hxp : x = p
    · subst hxp
      rw [hkidsp] at hy
      rcases (hmemK y).1 hy with h | h
      · exact h ▸ hval
      · exact F.order x pN y h
    · rw [hkidsne x hxp] at hy; exact F.order x hx y hy
  · intro x hx
    by_cases hxp : x = p
    · subst hxp
      rw [hkidsp, hlen]
      have e1 : (linkKids m kids x c).map (fun y => 2 ^ (upd kids x (linkKids m kids x c) y).length)
          = (linkKids m kids x c).map (fun y => 2 ^ (kids y).length) := by
        apply List.map_congr_left
        intro y hy
        rw [hkidsne y (hKne y hy)]
      rw [e1, (hperm.map _).sum_eq]
      have := F.binom x pN
      simp only [List.map_cons, List.sum_cons]
      rw [← hdeg, pow_succ]
      omega
    · rw [hkidsne x hxp]
      have e1 : (kids x).map (fun y => 2 ^ (upd kids p (linkKids m kids p c) y).length)
          = (kids x).map (fun y => 2 ^ (kids y).length) := by
        apply List.map_congr_left
        intro y hy
        rw [hkidsne y (kids_of x hxp y hy hx).2]
      rw [e1]
      exact F.binom x hx
  · have h1 := List.sum_map_erase (fun r => 2 ^ (kids r).length) hc
    have hp2 : p ∈ roots.erase c := (hmem_erase p).2 ⟨hpc, hp⟩
    have h2 := sum_map_upd (f := fun r => 2 ^ (kids r).length)
      (g := fun r => 2 ^ (upd kids p (linkKids m kids p c) r).length)
      (F.roots_nodup.erase c) hp2 (by
        intro x _ hxp
        show 2 ^ (upd kids p (linkKids m kids p c) x).length = 2 ^ (kids x).length
        rw [hkidsne x hxp])
    have h3 := F.count
    simp only [hkidsp, hlen, pow_succ] at h2
    simp only [← hdeg] at h1
    omega

/-- On a forest, `p.add_child(c)` for two roots runs without fault. -/
theorem link_ok {m : Store} {N : Finset Ptr} {roots : List Ptr} {kids : Ptr → List Ptr}
    (F : Forest m N roots kids) {p c : Ptr} (hp : p ∈ roots) (hc : c ∈ roots) :
    Node.add_child m p c = .ok (m.degree p + 1, addChildMem m p c) := by
  have pN : p ∈ N := F.roots_mem p hp
  apply add_child_ok (F.valid pN) (F.valid (F.roots_mem c hc))
    (F.valid (F.roots_mem _ (F.root_next_mem hc))) (F.valid (F.roots_mem _ (F.root_prev_mem hc)))
  · intro h0
    obtain ⟨l, hl⟩ := F.child_mem pN h0
    have hc0 : m.child p ∈ kids p := by rw [hl]; simp
    exact ⟨F.valid (F.kids_mem p pN _ hc0), F.valid (F.kids_mem p pN _ (F.kid_prev_mem pN hc0))⟩
  · intro h0
    obtain ⟨l, hl⟩ := F.child_mem pN h0
    have hc0 : m.child p ∈ kids p := by rw [hl]; simp
    exact ⟨fun h => F.kid_not_root pN hc0 (h ▸ hc),
      fun h => F.kid_not_root pN hc0 (h ▸ F.root_next_mem hc)⟩

end

section

/-! ## One step of the scan over the root list -/

theorem slot_ok {d : Nat} (h : d < max_degree) : slot (d : Int) = .ok d := by
  have h2 : (d : Int) < (max_degree : Int) := by exact_mod_cast h
  simp [slot, h2]

theorem slot_bad {d : Nat} (h : max_degree ≤ d) : slot (d : Int) = .error .outOfBounds := by
  have h2 : ¬ ((d : Int) < (max_degree : Int)) := by
    intro h3
    have : d < max_degree := by exact_mod_cast h3
    omega
  simp [slot, h2]

theorem Forest.rotate {m : Store} {N : Finset Ptr} {kids : Ptr → List Ptr} (A B : List Ptr)
    (F : Forest m N (A ++ B) kids) : Forest m N (B ++ A) kids :=
  { nonnull := F.nonnull
    live := F.live
    roots_nodup := (List.perm_append_comm.nodup_iff).1 F.roots_nodup
    roots_mem := fun r hr => F.roots_mem r (by simp at hr ⊢; tauto)
    roots_ring := isRing_rotate A B F.roots_ring
    roots_parent := fun r hr => F.roots_parent r (by simp at hr ⊢; tauto)
    kids_nodup := F.kids_nodup
    kids_ring := F.kids_ring
    kids_mem := F.kids_mem
    kids_parent := F.kids_parent
    child_head := F.child_head
    degree_eq := F.degree_eq
    cover := fun y hy => by
      rcases F.cover y hy with h | h
      · left; simp at h ⊢; tauto
      · right; exact h
    order := F.order
    binom := F.binom
    count := by
      rw [← F.count]
      exact ((List.perm_append_comm : (B ++ A).Perm (A ++ B)).map _).sum_eq }

/-- The loop body when the slot of the degree of `curr` is empty or holds `curr`. -/
theorem scan_body_skip {c : Consol} {N : Finset Ptr} {U V : List Ptr} {kids : Ptr → List Ptr}
    (I : ScanInv c N U V kids) (hd : (kids c.curr).length < max_degree)
    (he : c.degree_map (kids c.curr).length = 0 ∨ c.degree_map (kids c.curr).length = c.curr) :
    ∃ c2 U2 V2, pop_scan_body c = .ok c2 ∧ ScanPost c c2 N U V U2 V2 kids := by
  obtain ⟨U1, hU⟩ := I.curr_eq
  have hcr : c.curr ∈ U ++ V := by rw [hU]; simp
  have cN : c.curr ∈ N := I.forest.roots_mem _ hcr
  have vc := I.forest.valid cN
  have hdeg := I.forest.degree_eq _ cN
  have hF : Forest c.mem N (U1 ++ (V ++ [c.curr])) kids := by
    have := Forest.rotate [c.curr] (U1 ++ V) (by simpa [hU] using I.forest)
    simpa using this
  have hnext : c.mem.next c.curr = (U1 ++ (V ++ [c.curr])).headI := by
    have h := isRing_next_head (a := c.curr) (l := U1 ++ V) (by simpa [hU] using I.forest.roots_ring)
    simpa using h
  have hstop : c.stop = (V ++ [c.curr]).headI := by
    rw [I.stop_eq, hU]
    cases V <;> simp
  have hmeas : U1.length + (U1 ++ (V ++ [c.curr])).length ^ 2
      < U.length + (U ++ V).length ^ 2 := by
    rw [hU]; simp only [List.length_append, List.length_cons, List.length_nil]
    have : U1.length + (V.length + (0 + 1)) = U1.length + 1 + V.length := by omega
    rw [this]; omega
  have hlen : (U1 ++ (V ++ [c.curr])).length = (U ++ V).length := by
    rw [hU]; simp only [List.length_append, List.length_cons, List.length_nil]; omega
  rcases he with he | he
  · refine ⟨{ c with degree_map := upd c.degree_map (kids c.curr).length c.curr,
                      curr := c.mem.next c.curr }, U1, V ++ [c.curr], ?_, ?_⟩
    · simp [pop_scan_body, get_ok vc, hdeg, slot_ok hd, he]
    · refine
        { forest := hF
          map_ok := ?_
          v_ne := by simp
          stop_eq := hstop
          top_eq := I.top_eq
          curr_eq := hnext
          measure := hmeas
          len_le := le_of_eq hlen
          seen := ?_
          linked := fun h => Or.inl h
          value_eq := rfl
          brk_eq := rfl }
      · intro d hdm
        simp only [upd] at hdm ⊢
        split_ifs with h1
        · subst h1; exact ⟨by simp, rfl⟩
        · rw [if_neg h1] at hdm
          have := I.map_ok d hdm
          refine ⟨?_, this.2⟩
          have h2 := this.1
          rw [hU] at h2
          simp at h2 ⊢; tauto
      · intro hm
        refine ⟨hm, ?_⟩
        intro x hx
        simp only [List.mem_append, List.mem_singleton] at hx
        rcases hx with hx | hx
        · obtain ⟨h1, h2⟩ := I.seen hm x hx
          refine ⟨h1, ?_⟩
          simp only [upd]
          split_ifs with h3
          · rw [h3, he] at h2
            have : x ∈ N := I.forest.roots_mem x (by simp [hx])
            exact absurd h2.symm (I.forest.ne_zero this)
          · exact h2
        · subst hx
          exact ⟨hd, by simp⟩
  · refine ⟨{ c with curr := c.mem.next c.curr }, U1, V ++ [c.curr], ?_, ?_⟩
    · have h0 : c.degree_map (kids c.curr).length ≠ 0 := by rw [he]; exact vc.1
      simp [pop_scan_body, get_ok vc, hdeg, slot_ok hd, he, vc.1]
    · refine
        { forest := hF
          map_ok := ?_
          v_ne := by simp
          stop_eq := hstop
          top_eq := I.top_eq
          curr_eq := hnext
          measure := hmeas
          len_le := le_of_eq hlen
          seen := ?_
          linked := fun h => Or.inl h
          value_eq := rfl
          brk_eq := rfl }
      · intro d hdm
        have := I.map_ok d hdm
        refine ⟨?_, this.2⟩
        have h2 := this.1
        rw [hU] at h2
        simp at h2 ⊢; tauto
      · intro hm
        refine ⟨hm, ?_⟩
        intro x hx
        simp only [List.mem_append, List.mem_singleton] at hx
        rcases hx with hx | hx
        · exact I.seen hm x hx
        · subst hx
          exact ⟨hd, he⟩

theorem scan_body_link_eq {c : Consol} {N : Finset Ptr} {U V : List Ptr}
    {kids : Ptr → List Ptr} (I : ScanInv c N U V kids)
    (hd : (kids c.curr).length < max_degree)
    (he0 : c.degree_map (kids c.curr).length ≠ 0)
    (hec : c.degree_map (kids c.curr).length ≠ c.curr) :
    pop_scan_body c = .ok (linkState c (kids c.curr).length) := by
  obtain ⟨U1, hU⟩ := I.curr_eq
  have hcr : c.curr ∈ U ++ V := by rw [hU]; simp
  have cN : c.curr ∈ N := I.forest.roots_mem _ hcr
  have vc := I.forest.valid cN
  have hdeg := I.forest.degree_eq _ cN
  have her := (I.map_ok _ he0).1
  have ve := I.forest.valid (I.forest.roots_mem _ her)
  have vn := I.forest.valid (I.forest.roots_mem _ (I.forest.root_next_mem hcr))
  by_cases hlt : c.mem.value c.curr < c.mem.value (c.degree_map (kids c.curr).length)
  · have hl := link_ok I.forest hcr her
    by_cases h1 : c.mem.next c.curr = c.degree_map (kids c.curr).length
    · simp [pop_scan_body, get_ok vc, get_ok ve, hdeg, slot_ok hd, he0, hec, hlt, linkState,
        hl, h1]
    · simp [pop_scan_body, get_ok vc, get_ok ve, hdeg, slot_ok hd, he0, hec, hlt, linkState,
        hl, h1]
  · have hl := link_ok I.forest her hcr
    by_cases h1 : c.mem.next c.curr = c.curr
    · simp [pop_scan_body, get_ok vc, get_ok ve, hdeg, slot_ok hd, he0, hec, hlt, linkState,
        hl, h1]
    · simp [pop_scan_body, get_ok vc, get_ok ve, hdeg, slot_ok hd, he0, hec, hlt, linkState,
        hl, h1]

theorem measure_link {u r u2 r2 : Nat} (h1 : r2 + 1 = r) (h2 : u2 ≤ r2) :
    u2 + r2 ^ 2 < u + r ^ 2 := by
  subst h1
  have : (r2 + 1) ^ 2 = r2 ^ 2 + 2 * r2 + 1 := by ring
  omega

/-- The part of the link step that does not depend on where the two roots stand. -/
theorem scan_link_post {c c2 : Consol} {N : Finset Ptr} {U V : List Ptr}
    {kids : Ptr → List Ptr} (I : ScanInv c N U V kids) {p q : Ptr} {U2 V2 P Q : List Ptr}
    (he0 : c.degree_map (kids c.curr).length ≠ 0)
    (hec : c.degree_map (kids c.curr).length ≠ c.curr)
    (hpch : (p = c.curr ∧ q = c.degree_map (kids c.curr).length) ∨
            (p = c.degree_map (kids c.curr).length ∧ q = c.curr))
    (hval : c.mem.value p ≤ c.mem.value q)
    (hmem : c2.mem = addChildMem c.mem p q)
    (hdm : c2.degree_map = upd c.degree_map (kids c.curr).length 0)
    (hmapped : c2.mapped = false) (htop : c2.top = c2.stop)
    (hPQ : (U ++ V).erase q = P ++ Q) (hUV : U2 ++ V2 = Q ++ P) (hV2 : V2 ≠ [])
    (hstop : c2.stop = V2.headI) (hcurr : c2.curr = (U2 ++ V2).headI) :
    ScanPost c c2 N U V U2 V2 (upd kids p (linkKids c.mem kids p q)) := by
  obtain ⟨U1, hU⟩ := I.curr_eq
  have hcr : c.curr ∈ U ++ V := by rw [hU]; simp
  have her := (I.map_ok _ he0).1
  have hlen_e := (I.map_ok _ he0).2
  have hp : p ∈ U ++ V := by rcases hpch with ⟨h, _⟩ | ⟨h, _⟩ <;> rw [h] <;> assumption
  have hc : q ∈ U ++ V := by rcases hpch with ⟨_, h⟩ | ⟨_, h⟩ <;> rw [h] <;> assumption
  have hpc : p ≠ q := by
    rcases hpch with ⟨h1, h2⟩ | ⟨h1, h2⟩ <;> rw [h1, h2]
    · exact fun h => hec h.symm
    · exact hec
  have hdeg : (kids p).length = (kids q).length := by
    rcases hpch with ⟨h1, h2⟩ | ⟨h1, h2⟩ <;> rw [h1, h2, hlen_e]
  have F2 := forest_link I.forest hp hc hpc hdeg hval
  rw [hPQ] at F2
  have F3 := Forest.rotate P Q F2
  rw [← hUV, ← hmem] at F3
  have hmemUV : ∀ x, x ∈ U2 ++ V2 ↔ (x ≠ q ∧ x ∈ U ++ V) := by
    intro x
    rw [hUV, ← I.forest.roots_nodup.mem_erase_iff, hPQ]
    simp only [List.mem_append]; tauto
  have hlen : (U2 ++ V2).length + 1 = (U ++ V).length := by
    have h1 : (U2 ++ V2).length = ((U ++ V).erase q).length := by
      rw [hUV, hPQ]; simp only [List.length_append]; omega
    rw [h1, List.length_erase_of_mem hc]
    have : 0 < (U ++ V).length := List.length_pos_of_mem hc
    omega
  refine
    { forest := F3
      map_ok := ?_
      v_ne := hV2
      stop_eq := hstop
      top_eq := htop
      curr_eq := hcurr
      measure := measure_link hlen (by simp)
      len_le := by omega
      seen := fun h => by rw [hmapped] at h; exact absurd h (by simp)
      linked := fun _ => Or.inr (by omega)
      value_eq := by rw [hmem]; simp
      brk_eq := by rw [hmem]; simp }
  intro d hd
  rw [hdm] at hd ⊢
  have hdd : d ≠ (kids c.curr).length := by
    intro h; rw [h] at hd; simp at hd
  rw [upd_other _ _ hdd] at hd ⊢
  obtain ⟨h1, h2⟩ := I.map_ok d hd
  have hx1 : c.degree_map d ≠ c.curr := by
    intro h; rw [h] at h2; exact hdd h2.symm
  have hx2 : c.degree_map d ≠ c.degree_map (kids c.curr).length := by
    intro h; rw [h, hlen_e] at h2; exact hdd h2.symm
  have hxp : c.degree_map d ≠ p := by
    rcases hpch with ⟨h, _⟩ | ⟨h, _⟩ <;> rw [h] <;> assumption
  have hxc : c.degree_map d ≠ q := by
    rcases hpch with ⟨_, h⟩ | ⟨_, h⟩ <;> rw [h] <;> assumption
  exact ⟨(hmemUV _).2 ⟨hxc, h1⟩, by rw [upd_other _ _ hxp]; exact h2⟩

theorem erase_mid {A B : List Ptr} {e : Ptr} (h : e ∉ A) : (A ++ e :: B).erase e = A ++ B := by
  rw [List.erase_append_right _ h]; simp

theorem nodup_mid {X Y : List Ptr} {e : Ptr} (h : (X ++ e :: Y).Nodup) : e ∉ X ∧ e ∉ Y := by
  rw [List.nodup_middle, List.nodup_cons] at h
  simpa [not_or] using h.1

/-- The loop body when the slot holds another root: the two roots are linked. -/
theorem scan_body_link {c : Consol} {N : Finset Ptr} {U V : List Ptr}
    {kids : Ptr → List Ptr} (I : ScanInv c N U V kids)
    (he0 : c.degree_map (kids c.curr).length ≠ 0)
    (hec : c.degree_map (kids c.curr).length ≠ c.curr) :
    ∃ U2 V2 kids2, ScanPost c (linkState c (kids c.curr).length) N U V U2 V2 kids2 := by
  obtain ⟨U1, hU⟩ := I.curr_eq
  subst hU
  have her := (I.map_ok _ he0).1
  have hnd := I.forest.roots_nodup
  have hring := I.forest.roots_ring
  have hstop := I.stop_eq
  have htop := I.top_eq
  have htop2 : (linkState c (kids c.curr).length).top
      = (linkState c (kids c.curr).length).stop := by
    simp [linkState, htop]
  rcases c with ⟨mem, top, dm, c0, stop, mapped⟩
  dsimp only at *
  generalize he : dm (kids c0).length = e at *
  by_cases hlt : mem.value c0 < mem.value e
  · -- parent = curr, child = e
    have key : ∀ U2 V2 P Q, (c0 :: U1 ++ V).erase e = P ++ Q → U2 ++ V2 = Q ++ P → V2 ≠ [] →
        (if stop = e then c0 else stop) = V2.headI →
        (if mem.next c0 = e then mem.next (mem.next c0) else mem.next c0)
          = (U2 ++ V2).headI →
        ∃ U2 V2 kids2, ScanPost ⟨mem, top, dm, c0, stop, mapped⟩
          (linkState ⟨mem, top, dm, c0, stop, mapped⟩ (kids c0).length) N
          (c0 :: U1) V U2 V2 kids2 := by
      intro U2 V2 P Q h1 h2 h3 h4 h5
      refine ⟨U2, V2, upd kids c0 (linkKids mem kids c0 e), ?_⟩
      refine scan_link_post I (p := c0) (q := e) (P := P) (Q := Q)
        (by dsimp only; rw [he]; exact he0) (by dsimp only; rw [he]; exact hec)
        (Or.inl ⟨rfl, he.symm⟩) (le_of_lt hlt) ?_ rfl rfl htop2 h1 h2 h3 ?_ ?_
      · simp [linkState, he, hlt]
      · simp only [linkState, he, hlt, if_true]; exact h4
      · simp only [linkState, he, hlt, if_true]; exact h5
    simp only [List.cons_append, List.mem_cons, List.mem_append] at her
    rcases her with her | her | her
    · exact absurd her hec
    · -- e among the roots still to visit
      obtain ⟨A, B, rfl⟩ := List.append_of_mem her
      have hnd2 : ((c0 :: A) ++ e :: (B ++ V)).Nodup := by simpa using hnd
      have hnm := nodup_mid hnd2
      have heA : e ∉ A := fun h => hnm.1 (List.mem_cons_of_mem _ h)
      have hne : e ≠ c0 := fun h => hnm.1 (h ▸ List.mem_cons_self _ _)
      have heV : e ∉ V := fun h => hnm.2 (List.mem_append_right _ h)
      refine key (A ++ B) (V ++ [c0]) [c0] (A ++ B ++ V) ?_ (by simp) (by simp) ?_ ?_
      · have : (c0 :: (A ++ e :: B) ++ V) = (c0 :: A) ++ e :: (B ++ V) := by simp
        rw [this, erase_mid (by simp [hne, heA])]; simp
      · have hse : stop ≠ e := by
          rw [hstop]
          cases V with
          | nil => simpa using hne.symm
          | cons v V =>
            simp only [List.cons_append, List.headI_cons]
            intro h; subst h
            exact heV (List.mem_cons_self _ _)
        rw [if_neg hse, hstop]
        cases V <;> simp
      · have hn := isRing_next_head (a := c0) (l := (A ++ e :: B) ++ V) hring
        cases A with
        | nil =>
          simp only [List.nil_append, List.cons_append, List.headI_cons] at hn
          rw [if_pos hn, hn]
          have h2 : IsRing mem (e :: (B ++ V ++ [c0])) := by
            have := isRing_rotate [c0] (e :: (B ++ V)) (by simpa using hring)
            simpa using this
          have h3 := isRing_next_head h2
          rw [h3]
          cases B <;> cases V <;> simp
        | cons a A =>
          simp only [List.cons_append, List.headI_cons] at hn
          have hae : a ≠ e := by
            intro h; subst h; simp at heA
          rw [hn, if_neg hae]; simp
    · -- e among the roots already visited
      obtain ⟨A, B, rfl⟩ := List.append_of_mem her
      have hnd2 : ((c0 :: U1 ++ A) ++ e :: B).Nodup := by simpa using hnd
      have hnm := nodup_mid hnd2
      have heA : e ∉ A := fun h => hnm.1 (by simp [h])
      have heU : e ∉ U1 := fun h => hnm.1 (by simp [h])
      have hne : e ≠ c0 := fun h => hnm.1 (by simp [h])
      have hn := isRing_next_head (a := c0) (l := U1 ++ (A ++ e :: B)) hring
      cases A with
      | nil =>
        refine key (U1 ++ B) [c0] [c0] (U1 ++ B) ?_ (by simp) (by simp) ?_ ?_
        · have : (c0 :: U1 ++ ([] ++ e :: B)) = (c0 :: U1) ++ e :: B := by simp
          rw [this, erase_mid (by simp [hne, heU])]; simp
        · have : stop = e := by rw [hstop]; simp
          rw [if_pos this]; simp
        · cases U1 with
          | nil =>
            simp only [List.nil_append, List.cons_append, List.headI_cons] at hn
            rw [if_pos hn, hn]
            have h2 : IsRing mem (e :: (B ++ [c0])) := by
              have := isRing_rotate [c0] (e :: B) (by simpa using hring)
              simpa using this
            have h3 := isRing_next_head h2
            rw [h3]
            cases B <;> simp
          | cons u U1 =>
            simp only [List.cons_append, List.headI_cons] at hn
            have hue : u ≠ e := by
              intro h; subst h; simp at heU
            rw [hn, if_neg hue]; simp
      | cons a A =>
        have hae : a ≠ e := by
          intro h; subst h; simp at heA
        refine key U1 (a :: A ++ B ++ [c0]) [c0] (U1 ++ (a :: A ++ B)) ?_ (by simp) (by simp)
          ?_ ?_
        · have : (c0 :: U1 ++ (a :: A ++ e :: B)) = (c0 :: U1 ++ a :: A) ++ e :: B := by simp
          rw [this, erase_mid (by simp [hne, heU, hae.symm, heA])]; simp
        · have : stop = a := by rw [hstop]; simp
          rw [this, if_neg hae]; simp
        · cases U1 with
          | nil =>
            simp only [List.nil_append, List.cons_append, List.headI_cons] at hn
            rw [hn, if_neg hae]; simp
          | cons u U1 =>
            simp only [List.cons_append, List.headI_cons] at hn
            have hue : u ≠ e := by
              intro h; subst h; simp at heU
            rw [hn, if_neg hue]; simp
  · -- parent = e, child = curr
    have hne : e ≠ c0 := hec
    have hnc : c0 ∉ U1 ++ V := by
      have := (List.nodup_cons.1 (by simpa using hnd : (c0 :: (U1 ++ V)).Nodup)).1
      exact this
    have heUV : e ∈ U1 ++ V := by
      simp only [List.cons_append, List.mem_cons, List.mem_append] at her
      simp only [List.mem_append]
      rcases her with her | her | her
      · exact absurd her hec
      · exact Or.inl her
      · exact Or.inr her
    have hn := isRing_next_head (a := c0) (l := U1 ++ V) hring
    have hn2 : mem.next c0 = (U1 ++ V).headI := by
      rw [hn]
      cases hl : U1 ++ V with
      | nil => rw [hl] at heUV; simp at heUV
      | cons x l => simp
    have hn3 : mem.next c0 ≠ c0 := by
      rw [hn2]
      intro h
      cases hl : U1 ++ V with
      | nil => rw [hl] at heUV; simp at heUV
      | cons x l =>
        rw [hl] at h hnc
        simp at h hnc
        exact hnc.1 h.symm
    have key : ∀ U2 V2, U2 ++ V2 = U1 ++ V → V2 ≠ [] →
        (if stop = c0 then e else stop) = V2.headI →
        ∃ U2 V2 kids2, ScanPost ⟨mem, top, dm, c0, stop, mapped⟩
          (linkState ⟨mem, top, dm, c0, stop, mapped⟩ (kids c0).length) N
          (c0 :: U1) V U2 V2 kids2 := by
      intro U2 V2 h2 h3 h4
      refine ⟨U2, V2, upd kids e (linkKids mem kids e c0), ?_⟩
      refine scan_link_post I (p := e) (q := c0) (P := []) (Q := U1 ++ V)
        (by dsimp only; rw [he]; exact he0) (by dsimp only; rw [he]; exact hec)
        (Or.inr ⟨he.symm, rfl⟩) (le_of_not_lt hlt) ?_ rfl rfl htop2 ?_ (by simpa using h2) h3
        ?_ ?_
      · simp [linkState, he, hlt]
      · simp
      · simp only [linkState, he, hlt, if_false]; exact h4
      · simp only [linkState, he, hlt, if_false, if_neg hn3]
        rw [h2]; exact hn2
    cases V with
    | nil =>
      simp only [List.append_nil] at heUV hstop
      obtain ⟨A, B, rfl⟩ := List.append_of_mem heUV
      refine key A (e :: B) (by simp) (by simp) ?_
      have : stop = c0 := by rw [hstop]; simp
      rw [if_pos this]; simp
    | cons v V =>
      refine key U1 (v :: V) rfl (by simp) ?_
      have : stop = v := by rw [hstop]; simp
      have hvc : v ≠ c0 := by
        intro h; subst h; simp at hnc
      rw [this, if_neg hvc]; simp

end

section

/-! ## The consolidation loops -/

theorem scan_body_oob {c : Consol} {N : Finset Ptr} {U V : List Ptr} {kids : Ptr → List Ptr}
    (I : ScanInv c N U V kids) (hd : max_degree ≤ (kids c.curr).length) :
    pop_scan_body c = .error .outOfBounds ∧ 2 ^ max_degree ≤ N.card := by
  obtain ⟨U1, hU⟩ := I.curr_eq
  have hcr : c.curr ∈ U ++ V := by rw [hU]; simp
  have cN : c.curr ∈ N := I.forest.roots_mem _ hcr
  have vc := I.forest.valid cN
  have hdeg := I.forest.degree_eq _ cN
  constructor
  · simp [pop_scan_body, get_ok vc, hdeg, slot_bad hd]
  · exact le_trans (Nat.pow_le_pow_right (by norm_num) hd) (I.forest.root_pow_le hcr)

/-- One iteration of the loop body, whatever branch it takes. -/
theorem scan_body_spec {c : Consol} {N : Finset Ptr} {U V : List Ptr} {kids : Ptr → List Ptr}
    (I : ScanInv c N U V kids) :
    (pop_scan_body c = .error .outOfBounds ∧ 2 ^ max_degree ≤ N.card) ∨
    ∃ c2 U2 V2 kids2, pop_scan_body c = .ok c2 ∧ ScanPost c c2 N U V U2 V2 kids2 := by
  by_cases hd : (kids c.curr).length < max_degree
  · right
    by_cases he0 : c.degree_map (kids c.curr).length = 0
    · obtain ⟨c2, U2, V2, h1, h2⟩ := scan_body_skip I hd (Or.inl he0)
      exact ⟨c2, U2, V2, kids, h1, h2⟩
    · by_cases hec : c.degree_map (kids c.curr).length = c.curr
      · obtain ⟨c2, U2, V2, h1, h2⟩ := scan_body_skip I hd (Or.inr hec)
        exact ⟨c2, U2, V2, kids, h1, h2⟩
      · obtain ⟨U2, V2, kids2, h⟩ := scan_body_link I he0 hec
        exact ⟨_, U2, V2, kids2, scan_body_link_eq I hd he0 hec, h⟩
  · left
    exact scan_body_oob I (by omega)

theorem scan_loop (fuel : Nat) : ∀ (c : Consol) (N : Finset Ptr) (U V : List Ptr)
    (kids : Ptr → List Ptr), ScanInv c N U V kids →
    U.length + (U ++ V).length ^ 2 < fuel →
    (pop_scan fuel c = .error .outOfBounds ∧ 2 ^ max_degree ≤ N.card) ∨
    ∃ c2 R2 kids2, pop_scan fuel c = .ok c2 ∧ PassPost c c2 N (U ++ V).length R2 kids2 := by
  induction fuel with
  | zero => intro c N U V kids _ h; omega
  | succ fuel ih =>
    intro c N U V kids I hfuel
    rcases scan_body_spec I with ⟨h1, h2⟩ | ⟨c1, U2, V2, kids2, h1, P⟩
    · left
      exact ⟨by simp [pop_scan, h1], h2⟩
    · by_cases hcs : c1.curr = c1.stop
      · -- the scan is back at its end marker
        right
        have hU2 : U2 = [] := by
          cases U2 with
          | nil => rfl
          | cons u U2 =>
            exfalso
            have hnd := P.forest.roots_nodup
            have h3 := P.curr_eq
            have h4 := P.stop_eq
            rw [hcs, h4] at h3
            cases V2 with
            | nil => exact P.v_ne rfl
            | cons v V2 =>
              simp at h3
              subst h3
              simp at hnd
        subst hU2
        refine ⟨c1, V2, kids2, by simp [pop_scan, h1, hcs], ?_⟩
        exact
          { forest := by simpa using P.forest
            map_ok := by simpa using P.map_ok
            ne := P.v_ne
            top_head := by rw [P.top_eq, P.stop_eq]
            len_le := by simpa using P.len_le
            seen := P.seen
            linked := by simpa using P.linked
            value_eq := P.value_eq
            brk_eq := P.brk_eq }
      · -- continue with the next root
        have hU2 : ∃ U3, U2 = c1.curr :: U3 := by
          cases U2 with
          | nil =>
            exfalso
            apply hcs
            rw [P.curr_eq, P.stop_eq]; simp
          | cons u U2 => exact ⟨U2, by rw [P.curr_eq]; simp⟩
        have I2 : ScanInv c1 N U2 V2 kids2 :=
          { forest := P.forest
            map_ok := P.map_ok
            curr_eq := hU2
            stop_eq := by
              rw [P.stop_eq]
              cases hV : V2 with
              | nil => exact absurd hV P.v_ne
              | cons v V2 => simp
            top_eq := P.top_eq
            seen := fun h => (P.seen h).2 }
        have hm := P.measure
        rcases ih c1 N U2 V2 kids2 I2 (by omega) with ⟨h3, h4⟩ | ⟨c2, R2, kids3, h3, Q⟩
        · left
          exact ⟨by simp [pop_scan, h1, hcs, h3], h4⟩
        · right
          refine ⟨c2, R2, kids3, by simp [pop_scan, h1, hcs, h3], ?_⟩
          have hl := P.len_le
          exact
            { forest := Q.forest
              map_ok := Q.map_ok
              ne := Q.ne
              top_head := Q.top_head
              len_le := le_trans Q.len_le hl
              seen := fun h => ⟨(P.seen (Q.seen h).1).1, (Q.seen h).2⟩
              linked := fun h => by
                rcases Q.linked h with h5 | h5
                · rcases P.linked h5 with h6 | h6
                  · exact Or.inl h6
                  · exact Or.inr (lt_of_le_of_lt Q.len_le h6)
                · exact Or.inr (lt_of_lt_of_le h5 hl)
              value_eq := Q.value_eq.trans P.value_eq
              brk_eq := Q.brk_eq.trans P.brk_eq }

/-- The loop `while (!mapped)`: on a forest it ends, unless a root of degree `max_degree`
or more is met, with every root entered in the table under its own degree. -/
theorem consolidate_loop (inner : Nat) (fuel : Nat) : ∀ (c : Consol) (N : Finset Ptr)
    (R : List Ptr) (kids : Ptr → List Ptr), Forest c.mem N R kids →
    (∀ d, c.degree_map d ≠ 0 → c.degree_map d ∈ R ∧ (kids (c.degree_map d)).length = d) →
    R ≠ [] → c.top = R.headI →
    (c.mapped = true →
      ∀ x ∈ R, (kids x).length < max_degree ∧ c.degree_map (kids x).length = x) →
    R.length + (if c.mapped then 0 else 1) ≤ fuel →
    R.length + R.length ^ 2 < inner →
    (pop_consolidate inner fuel c = .error .outOfBounds ∧ 2 ^ max_degree ≤ N.card) ∨
    ∃ c2 R2 kids2, pop_consolidate inner fuel c = .ok c2 ∧ Forest c2.mem N R2 kids2 ∧
      R2 ≠ [] ∧ c2.top = R2.headI ∧ c2.mem.value = c.mem.value ∧ c2.mem.brk = c.mem.brk ∧
      ∀ x ∈ R2, (kids2 x).length < max_degree ∧ c2.degree_map (kids2 x).length = x := by
  induction fuel with
  | zero =>
    intro c N R kids _ _ hne _ _ hf _
    have : 0 < R.length := List.length_pos.2 hne
    omega
  | succ fuel ih =>
    intro c N R kids F hmap hne htop hseen hf hinner
    by_cases hm : c.mapped = true
    · right
      exact ⟨c, R, kids, by simp [pop_consolidate, hm], F, hne, htop, rfl, rfl, hseen hm⟩
    · have hm2 : c.mapped = false := by simpa using hm
      obtain ⟨r, R1, rfl⟩ := List.exists_cons_of_ne_nil hne
      have I : ScanInv { c with mapped := true, curr := c.top, stop := c.top } N (r :: R1) []
          kids :=
        { forest := by simpa using F
          map_ok := by simpa using hmap
          curr_eq := ⟨R1, by simp [htop]⟩
          stop_eq := by simp [htop]
          top_eq := rfl
          seen := by intro _ x hx; simp at hx }
      rcases scan_loop inner _ N (r :: R1) [] kids I (by simpa using hinner) with
        ⟨h1, h2⟩ | ⟨c1, R2, kids2, h1, P⟩
      · left
        exact ⟨by simp [pop_consolidate, hm2, h1], h2⟩
      · have hlen : R2.length ≤ (r :: R1).length := by simpa using P.len_le
        have hf2 : R2.length + (if c1.mapped then 0 else 1) ≤ fuel := by
          rw [hm2] at hf
          simp only [Bool.false_eq_true, if_false] at hf
          by_cases hm1 : c1.mapped = true
          · simp only [hm1, if_true]; omega
          · have hm1f : c1.mapped = false := by simpa using hm1
            simp only [hm1f, Bool.false_eq_true, if_false]
            rcases P.linked hm1f with h | h
            · simp at h
            · simp only [List.append_nil] at h; omega
        have hinner2 : R2.length + R2.length ^ 2 < inner := by
          have := Nat.pow_le_pow_left hlen 2
          omega
        rcases ih c1 N R2 kids2 P.forest P.map_ok P.ne P.top_head (fun h => (P.seen h).2)
          hf2 hinner2 with ⟨h3, h4⟩ | ⟨c2, R3, kids3, h3, h4⟩
        · left
          exact ⟨by simp [pop_consolidate, hm2, h1, h3], h4⟩
        · right
          obtain ⟨g1, g2, g3, g4, g5, g6⟩ := h4
          exact ⟨c2, R3, kids3, by simp [pop_consolidate, hm2, h1, h3], g1, g2, g3,
            g4.trans P.value_eq, g5.trans P.brk_eq, g6⟩

end

section

theorem popJoin_ring {m : Store} {N : Finset Ptr} {t : Ptr} {R : List Ptr}
    {kids : Ptr → List Ptr} (F : Forest m N (t :: R) kids) :
    IsRing (popJoinMem m t) (t :: (kids t ++ R)) := by
  have tN : t ∈ N := F.roots_mem t (by simp)
  unfold popJoinMem
  by_cases h0 : m.child t = 0
  · rw [if_pos h0, (F.child_eq_zero_iff tN).1 h0]
    exact F.roots_ring
  · rw [if_neg h0]
    obtain ⟨l, hl⟩ := F.child_mem tN h0
    rw [hl]
    have hB : IsRing m (m.child t :: l) := hl ▸ F.kids_ring t tN
    have hnd : (t :: R ++ m.child t :: l).Nodup := by
      rw [← hl, List.nodup_append]
      refine ⟨F.roots_nodup, F.kids_nodup t tN, ?_⟩
      intro x hx hx2
      exact F.kid_not_root tN hx2 hx
    exact isRing_join F.roots_ring hB hnd

theorem popJoin_frame {m : Store} {N : Finset Ptr} {t : Ptr} {R : List Ptr}
    {kids : Ptr → List Ptr} (F : Forest m N (t :: R) kids) {y : Ptr}
    (hy : y ∉ t :: (kids t ++ R)) :
    (popJoinMem m t).next y = m.next y ∧ (popJoinMem m t).prev y = m.prev y := by
  have tN : t ∈ N := F.roots_mem t (by simp)
  unfold popJoinMem
  by_cases h0 : m.child t = 0
  · rw [if_pos h0]; exact ⟨rfl, rfl⟩
  · rw [if_neg h0]
    obtain ⟨l, hl⟩ := F.child_mem tN h0
    have hc0 : m.child t ∈ kids t := by rw [hl]; simp
    have h1 : m.prev (m.child t) ∈ kids t := F.kid_prev_mem tN hc0
    have h2 : m.next t ∈ t :: R := F.root_next_mem (by simp)
    simp only [List.mem_cons, List.mem_append, not_or] at hy
    have e1 : y ≠ t := hy.1
    have e2 : y ≠ m.child t := fun h => hy.2.1 (h ▸ hc0)
    have e3 : y ≠ m.prev (m.child t) := fun h => hy.2.1 (h ▸ h1)
    have e4 : y ≠ m.next t := by
      intro h
      rw [← h] at h2
      simp only [List.mem_cons] at h2
      rcases h2 with h2 | h2
      · exact e1 h2
      · exact hy.2.2 h2
    simp [joinMem, upd, e1, e2, e3, e4]

theorem kids_append_roots_nodup {m : Store} {N : Finset Ptr} {t : Ptr} {R : List Ptr}
    {kids : Ptr → List Ptr} (F : Forest m N (t :: R) kids) :
    (t :: (kids t ++ R)).Nodup := by
  have tN : t ∈ N := F.roots_mem t (by simp)
  have hnd := F.roots_nodup
  rw [List.nodup_cons] at hnd ⊢
  refine ⟨?_, ?_⟩
  · simp only [List.mem_append, not_or]
    exact ⟨fun h => F.kid_not_root tN h (by simp), hnd.1⟩
  · rw [List.nodup_append]
    refine ⟨F.kids_nodup t tN, hnd.2, ?_⟩
    intro x hx hx2
    exact F.kid_not_root tN hx (List.mem_cons_of_mem _ hx2)

/-- After the top node is unlinked and deleted, the remaining nodes form a forest whose
root list is the former child list of the top followed by the other former roots. -/
theorem forest_popUnlink {m : Store} {N : Finset Ptr} {t : Ptr} {R : List Ptr}
    {kids : Ptr → List Ptr} (F : Forest m N (t :: R) kids) (hne : kids t ++ R ≠ []) :
    Forest (popUnlinkMem m t) (N.erase t) (kids t ++ R) kids := by
  have tN : t ∈ N := F.roots_mem t (by simp)
  have hnd := kids_append_roots_nodup F
  have hring := popJoin_ring F
  have hnt : t ∉ kids t ++ R := (List.nodup_cons.1 hnd).1
  -- fields other than next and prev
  have hval : (popUnlinkMem m t).value = m.value := by
    unfold popUnlinkMem popJoinMem; split_ifs <;> rfl
  have hpar : (popUnlinkMem m t).parent = m.parent := by
    unfold popUnlinkMem popJoinMem; split_ifs <;> rfl
  have hdeg : (popUnlinkMem m t).degree = m.degree := by
    unfold popUnlinkMem popJoinMem; split_ifs <;> rfl
  have hchild : (popUnlinkMem m t).child = upd m.child t 0 := by
    unfold popUnlinkMem popJoinMem; split_ifs <;> rfl
  have hlive : (popUnlinkMem m t).live = upd m.live t false := by
    unfold popUnlinkMem popJoinMem; split_ifs <;> rfl
  have hnt2 : (popJoinMem m t).next t ≠ t := by
    rw [isRing_next_head hring]
    intro h
    apply hnt
    cases hl : kids t ++ R with
    | nil => exact absurd hl hne
    | cons x l => rw [hl] at h; simp at h; simp [h]
  have hnext : (popUnlinkMem m t).next
      = upd (popJoinMem m t).next ((popJoinMem m t).prev t) ((popJoinMem m t).next t) := by
    simp only [popUnlinkMem]
    rw [upd_other _ _ (Ne.symm hnt2)]
  have hprev : (popUnlinkMem m t).prev
      = upd (popJoinMem m t).prev ((popJoinMem m t).next t) ((popJoinMem m t).prev t) := by
    simp only [popUnlinkMem]
  have hmemN : ∀ x, x ∈ N.erase t ↔ x ≠ t ∧ x ∈ N := fun x => Finset.mem_erase
  have hrootN : ∀ x ∈ kids t ++ R, x ∈ N ∧ x ≠ t := by
    intro x hx
    refine ⟨?_, fun h => hnt (h ▸ hx)⟩
    rcases List.mem_append.1 hx with h | h
    · exact F.kids_mem t tN x h
    · exact F.roots_mem x (List.mem_cons_of_mem _ h)
  have hkid_out : ∀ x ∈ N, x ≠ t → ∀ y ∈ kids x, y ∉ t :: (kids t ++ R) := by
    intro x hx hxt y hy h
    simp only [List.mem_cons, List.mem_append] at h
    rcases h with h | h | h
    · exact F.kid_not_root hx hy (h ▸ List.mem_cons_self _ _)
    · exact hxt (F.kids_disjoint hx tN hy h)
    · exact F.kid_not_root hx hy (List.mem_cons_of_mem _ h)
  refine
    { nonnull := fun h => F.nonnull ((hmemN 0).1 h).2
      live := ?_
      roots_nodup := (List.nodup_cons.1 hnd).2
      roots_mem := fun r hr => (hmemN r).2 ⟨(hrootN r hr).2, (hrootN r hr).1⟩
      roots_ring := ?_
      roots_parent := ?_
      kids_nodup := fun x hx => F.kids_nodup x ((hmemN x).1 hx).2
      kids_ring := ?_
      kids_mem := ?_
      kids_parent := ?_
      child_head := ?_
      degree_eq := ?_
      cover := ?_
      order := ?_
      binom := fun x hx => F.binom x ((hmemN x).1 hx).2
      count := ?_ }
  · intro x hx
    obtain ⟨h1, h2⟩ := (hmemN x).1 hx
    rw [hlive, upd_other _ _ h1]; exact F.live x h2
  · refine isRing_unlink hring hnd ?_ ?_
    · intro x _; rw [hnext]
    · intro x _; rw [hprev]
  · intro r hr
    rw [hpar]
    rcases List.mem_append.1 hr with h | h
    · rw [F.kids_parent t tN r h]; simp
    · intro h2
      exact F.roots_parent r (List.mem_cons_of_mem _ h) ((hmemN _).1 h2).2
  · intro x hx
    obtain ⟨h1, h2⟩ := (hmemN x).1 hx
    refine isRing_frame ?_ ?_ (F.kids_ring x h2)
    · intro y hy
      have hout := hkid_out x h2 h1 y hy
      have h3 : y ≠ (popJoinMem m t).prev t := by
        intro h
        exact hout (h ▸ isRing_prev_mem hring (List.mem_cons_self _ _))
      rw [hnext, upd_other _ _ h3]
      exact (popJoin_frame F hout).1
    · intro y hy
      have hout := hkid_out x h2 h1 y hy
      have h3 : y ≠ (popJoinMem m t).next t := by
        intro h
        exact hout (h ▸ isRing_next_mem hring (List.mem_cons_self _ _))
      rw [hprev, upd_other _ _ h3]
      exact (popJoin_frame F hout).2
  · intro x hx y hy
    obtain ⟨h1, h2⟩ := (hmemN x).1 hx
    refine (hmemN y).2 ⟨?_, F.kids_mem x h2 y hy⟩
    intro h
    exact hkid_out x h2 h1 y hy (h ▸ List.mem_cons_self _ _)
  · intro x hx y hy
    rw [hpar]; exact F.kids_parent x ((hmemN x).1 hx).2 y hy
  · intro x hx
    obtain ⟨h1, h2⟩ := (hmemN x).1 hx
    rw [hchild, upd_other _ _ h1]; exact F.child_head x h2
  · intro x hx
    rw [hdeg]; exact F.degree_eq x ((hmemN x).1 hx).2
  · intro y hy
    obtain ⟨h1, h2⟩ := (hmemN y).1 hy
    rw [hpar]
    rcases F.cover y h2 with h | ⟨h3, h4⟩
    · left
      simp only [List.mem_cons] at h
      rcases h with h | h
      · exact absurd h h1
      · exact List.mem_append_right _ h
    · by_cases hpt : m.parent y = t
      · left; rw [hpt] at h4; exact List.mem_append_left _ h4
      · right; exact ⟨(hmemN _).2 ⟨hpt, h3⟩, h4⟩
  · intro x hx y hy
    rw [hval]; exact F.order x ((hmemN x).1 hx).2 y hy
  · have h1 := F.binom t tN
    have h2 := F.count
    simp only [List.map_cons, List.sum_cons] at h2
    rw [List.map_append, List.sum_append, Finset.card_erase_of_mem tN]
    omega

end

section

/-! ## The final loop of `pop` -/

/-- Clearing `parent` and `marked` of a root keeps the forest. -/
theorem forest_unparent {m : Store} {N : Finset Ptr} {R : List Ptr} {kids : Ptr → List Ptr}
    (F : Forest m N R kids) {r : Ptr} (hr : r ∈ R) :
    Forest { m with parent := upd m.parent r 0, marked := upd m.marked r false } N R kids :=
  { nonnull := F.nonnull
    live := F.live
    roots_nodup := F.roots_nodup
    roots_mem := F.roots_mem
    roots_ring := isRing_frame (fun _ _ => rfl) (fun _ _ => rfl) F.roots_ring
    roots_parent := by
      intro x hx
      by_cases h : x = r
      · simp only [h, upd_same]; exact F.nonnull
      · simp only [upd_other _ _ h]; exact F.roots_parent x hx
    kids_nodup := F.kids_nodup
    kids_ring := fun x hx => isRing_frame (fun _ _ => rfl) (fun _ _ => rfl) (F.kids_ring x hx)
    kids_mem := F.kids_mem
    kids_parent := by
      intro x hx y hy
      have h : y ≠ r := fun h => F.kid_not_root hx hy (h ▸ hr)
      simp only [upd_other _ _ h]; exact F.kids_parent x hx y hy
    child_head := F.child_head
    degree_eq := F.degree_eq
    cover := by
      intro y hy
      rcases F.cover y hy with h | ⟨h1, h2⟩
      · exact Or.inl h
      · have h : y ≠ r := fun h => F.kid_not_root h1 h2 (h ▸ hr)
        right
        simp only [upd_other _ _ h]; exact ⟨h1, h2⟩
    order := F.order
    binom := F.binom
    count := F.count }

theorem newtop_loop (stop : Ptr) (fuel : Nat) : ∀ (m : Store) (top curr : Ptr)
    (N : Finset Ptr) (U V : List Ptr) (kids : Ptr → List Ptr),
    NewtopInv m top curr stop N U V kids → U.length ≤ fuel →
    ∃ m2 top2 R, pop_newtop stop fuel m top curr = .ok (m2, top2) ∧
      NewtopPost m m2 top2 N R kids ∧ R.length = (U ++ V).length := by
  induction fuel with
  | zero =>
    intro m top curr N U V kids I h
    obtain ⟨U1, hU⟩ := I.curr_eq
    rw [hU] at h; simp at h
  | succ fuel ih =>
    intro m top curr N U V kids I hfuel
    obtain ⟨U1, hU⟩ := I.curr_eq
    subst hU
    have hcr : curr ∈ curr :: U1 ++ V := by simp
    have vc := I.forest.valid (I.forest.roots_mem _ hcr)
    have vt := I.forest.valid (I.forest.roots_mem _ I.top_mem)
    -- the state after the body
    let m1 : Store := { m with parent := upd m.parent curr 0, marked := upd m.marked curr false }
    let top1 : Ptr := if m.value curr < m.value top then curr else top
    have F1 : Forest m1 N (U1 ++ (V ++ [curr])) kids := by
      have := Forest.rotate [curr] (U1 ++ V) (by simpa using forest_unparent I.forest hcr)
      simpa using this
    have hnext : m.next curr = (U1 ++ (V ++ [curr])).headI := by
      have h := isRing_next_head (a := curr) (l := U1 ++ V) (by simpa using I.forest.roots_ring)
      simpa using h
    have hstop : stop = (V ++ [curr]).headI := by
      rw [I.stop_eq]
      cases V <;> simp
    have htop1 : top1 ∈ U1 ++ (V ++ [curr]) := by
      have h := I.top_mem
      simp only [top1]
      split_ifs
      · simp
      · simp at h ⊢; tauto
    have hle1 : ∀ x ∈ V ++ [curr], m1.value top1 ≤ m1.value x := by
      intro x hx
      show m.value top1 ≤ m.value x
      have h1 : m.value top1 ≤ m.value curr := by
        simp only [top1]; split_ifs with h
        · exact le_refl _
        · exact le_of_not_lt h
      have h2 : m.value top1 ≤ m.value top := by
        simp only [top1]; split_ifs with h
        · exact le_of_lt h
        · exact le_refl _
      simp only [List.mem_append, List.mem_singleton] at hx
      rcases hx with hx | hx
      · exact le_trans h2 (I.top_le x hx)
      · rw [hx]; exact h1
    have hnd : (curr :: (U1 ++ V)).Nodup := by simpa using I.forest.roots_nodup
    have hcl1 : ∀ x ∈ V ++ [curr], m1.parent x = 0 ∧ m1.marked x = false := by
      intro x hx
      simp only [List.mem_append, List.mem_singleton] at hx
      rcases hx with hx | hx
      · have hxc : x ≠ curr := by
          intro h; subst h
          exact (List.nodup_cons.1 hnd).1 (List.mem_append_right _ hx)
        simp only [m1, upd_other _ _ hxc]
        exact I.cleared x hx
      · subst hx; simp [m1]
    have hcomp : pop_newtop stop (fuel + 1) m top curr
        = if m.next curr ≠ stop then pop_newtop stop fuel m1 top1 (m.next curr)
          else .ok (m1, top1) := by
      have vc1 : Valid ({ m with parent := upd m.parent curr 0 } : Store) curr := vc
      have vc2 : Valid m1 curr := vc
      simp only [pop_newtop, get_ok vc, get_ok vt, ok_bind, setParent_ok vc, setMarked_ok vc1,
        get_ok vc2]
      rfl
    rw [hcomp]
    by_cases hcs : m.next curr = stop
    · -- back at the end marker
      have hU1 : U1 = [] := by
        cases U1 with
        | nil => rfl
        | cons u U1 =>
          exfalso
          rw [hnext, hstop] at hcs
          cases V with
          | nil =>
            simp at hcs; subst hcs; simp at hnd
          | cons v V =>
            simp at hcs; subst hcs; simp at hnd
      subst hU1
      refine ⟨m1, top1, V ++ [curr], by simp [hcs], ?_, by simp⟩
      exact
        { forest := by simpa using F1
          top_mem := by simpa using htop1
          top_le := hle1
          cleared := hcl1
          value_eq := rfl
          brk_eq := rfl }
    · have hU2 : ∃ U3, U1 = m.next curr :: U3 := by
        cases U1 with
        | nil =>
          exfalso
          apply hcs
          rw [hnext, hstop]; simp
        | cons u U1 => exact ⟨U1, by rw [hnext]; simp⟩
      have I2 : NewtopInv m1 top1 (m.next curr) stop N U1 (V ++ [curr]) kids :=
        { forest := F1
          curr_eq := hU2
          stop_eq := by
            rw [hstop]
            cases V <;> simp
          top_mem := htop1
          top_le := hle1
          cleared := hcl1 }
      obtain ⟨m2, top2, R, h1, P, hlen⟩ := ih m1 top1 (m.next curr) N U1 (V ++ [curr]) kids I2
        (by simpa using hfuel)
      refine ⟨m2, top2, R, by simp [hcs, h1], ?_, ?_⟩
      · exact
          { forest := P.forest
            top_mem := P.top_mem
            top_le := P.top_le
            cleared := P.cleared
            value_eq := P.value_eq
            brk_eq := P.brk_eq }
      · rw [hlen]; simp only [List.length_append, List.length_cons, List.length_nil]; omega

end

section

/-! ## The heap invariant between operations -/

/-- When every root is entered in the degree table under its own degree, the roots have
pairwise different degrees below `max_degree`, so fewer than `2 ^ max_degree` nodes exist. -/
theorem card_lt_of_mapped {m : Store} {N : Finset Ptr} {R : List Ptr} {kids : Ptr → List Ptr}
    (F : Forest m N R kids) (dm : Nat → Ptr)
    (h : ∀ x ∈ R, (kids x).length < max_degree ∧ dm (kids x).length = x) :
    N.card < 2 ^ max_degree := by
  have hinj : (R.map (fun r => (kids r).length)).Nodup := by
    apply List.Nodup.map_on _ F.roots_nodup
    intro x hx y hy hxy
    rw [← (h x hx).2, ← (h y hy).2, hxy]
  have e1 : R.map (fun r => 2 ^ (kids r).length)
      = (R.map (fun r => (kids r).length)).map (fun d => 2 ^ d) := by
    rw [List.map_map]; rfl
  rw [← F.count, e1, ← List.sum_toFinset _ hinj]
  apply Nat.geomSum_lt (le_refl 2)
  intro k hk
  rw [List.mem_toFinset, List.mem_map] at hk
  obtain ⟨x, hx, rfl⟩ := hk
  exact (h x hx).1

namespace HeapInv

variable {h : FibonacciHeap} {N : Finset Ptr} {roots : List Ptr} {kids : Ptr → List Ptr}

theorem roots_nil_iff (I : HeapInv h N roots kids) : roots = [] ↔ N = ∅ := by
  constructor
  · intro hr
    have := I.forest.count
    rw [hr] at this
    simp only [List.map_nil, List.sum_nil] at this
    exact Finset.card_eq_zero.1 this.symm
  · intro hN
    cases hr : roots with
    | nil => rfl
    | cons r R =>
      have := I.forest.roots_mem r (by rw [hr]; simp)
      rw [hN] at this
      simp at this

theorem empty_iff (I : HeapInv h N roots kids) : h.empty = true ↔ N = ∅ := by
  rw [← I.roots_nil_iff]
  simp only [FibonacciHeap.empty, decide_eq_true_eq, I.top_head]
  cases hr : roots with
  | nil => simp
  | cons r R =>
    have := I.forest.ne_zero (I.forest.roots_mem r (by rw [hr]; simp))
    simp [this]

theorem top_mem (I : HeapInv h N roots kids) (hN : N.Nonempty) : h.top ∈ roots := by
  rw [I.top_head]
  cases hr : roots with
  | nil =>
    have := I.roots_nil_iff.1 hr
    rw [this] at hN
    simp at hN
  | cons r R => simp

theorem top_min (I : HeapInv h N roots kids) {x : Ptr} (hx : x ∈ N) :
    h.mem.value h.top ≤ h.mem.value x := by
  obtain ⟨r, hr, hle⟩ := I.forest.exists_root_le hx
  exact le_trans (I.top_le r hr) hle

end HeapInv

theorem Forest.roots_length_le {m : Store} {N : Finset Ptr} {R : List Ptr}
    {kids : Ptr → List Ptr} (F : Forest m N R kids) : R.length ≤ N.card := by
  rw [← List.toFinset_card_of_nodup F.roots_nodup]
  apply Finset.card_le_card
  intro y hy
  exact F.roots_mem y (List.mem_toFinset.1 hy)

/-- The empty heap is well formed. -/
theorem heapInv_init : HeapInv FibonacciHeap.init ∅ [] (fun _ => []) :=
  { forest :=
      { nonnull := by simp
        live := by simp
        roots_nodup := List.nodup_nil
        roots_mem := by simp
        roots_ring := trivial
        roots_parent := by simp
        kids_nodup := by simp
        kids_ring := by simp
        kids_mem := by simp
        kids_parent := by simp
        child_head := by simp
        degree_eq := by simp
        cover := by simp
        order := by simp
        binom := by simp
        count := by simp }
    top_head := rfl
    top_le := by simp
    cleared := by simp
    fresh := by simp
    brk_pos := by simp [FibonacciHeap.init, Store.init] }

end

section

/-! ## `pop` on a well-formed heap -/

/-- The branch of `pop` that deletes the only node. -/
theorem pop_single_eq {m : Store} {t : Ptr} (fuel : Nat) (vt : Valid m t)
    (h1 : m.next t = t) (h2 : m.child t = 0) :
    FibonacciHeap.pop fuel { mem := m, top := t }
      = .ok (m.value t, { mem := { m with live := upd m.live t false }, top := 0 }) := by
  simp [FibonacciHeap.pop, get_ok vt, h1, h2, delete_ok vt]

/-- The other branch of `pop`, up to the consolidation loop. -/
theorem pop_prelude_eq {m : Store} {N : Finset Ptr} {t : Ptr} {R : List Ptr}
    {kids : Ptr → List Ptr} (fuel : Nat) (F : Forest m N (t :: R) kids)
    (hne : kids t ++ R ≠ []) :
    FibonacciHeap.pop fuel { mem := m, top := t }
      = (do
          let c ← pop_consolidate fuel fuel
            { mem := popUnlinkMem m t, top := (kids t ++ R).headI,
              degree_map := fun _ => 0, curr := (kids t ++ R).headI,
              stop := (kids t ++ R).headI, mapped := false }
          let (m2, t2) ← pop_newtop c.top fuel c.mem c.top c.top
          pure (m.value t, { mem := m2, top := t2 })) := by
  have tN : t ∈ N := F.roots_mem t (by simp)
  have vt := F.valid tN
  have hring := popJoin_ring F
  have hnd := kids_append_roots_nodup F
  have hnt : t ∉ kids t ++ R := (List.nodup_cons.1 hnd).1
  have hsub : ∀ x ∈ t :: (kids t ++ R), x ∈ N := by
    intro x hx
    simp only [List.mem_cons, List.mem_append] at hx
    rcases hx with h | h | h
    · exact h ▸ tN
    · exact F.kids_mem t tN x h
    · exact F.roots_mem x (List.mem_cons_of_mem _ h)
  have hnx : (popJoinMem m t).next t = (kids t ++ R).headI := by
    rw [isRing_next_head hring]
    cases hl : kids t ++ R with
    | nil => exact absurd hl hne
    | cons x l => simp
  have hnt2 : (popJoinMem m t).next t ≠ t := by
    rw [hnx]
    intro h
    apply hnt
    cases hl : kids t ++ R with
    | nil => exact absurd hl hne
    | cons x l => rw [hl] at h; simp at h; simp [h]
  have vnx : Valid m ((popJoinMem m t).next t) :=
    F.valid (hsub _ (isRing_next_mem hring (List.mem_cons_self _ _)))
  have vpv : Valid m ((popJoinMem m t).prev t) :=
    F.valid (hsub _ (isRing_prev_mem hring (List.mem_cons_self _ _)))
  have hcond : ¬ (t = m.next t ∧ m.child t = 0) := by
    rintro ⟨h1, h2⟩
    have hk := (F.child_eq_zero_iff tN).1 h2
    have h3 := isRing_next_head F.roots_ring
    rw [hk] at hne
    cases R with
    | nil => simp at hne
    | cons r R =>
      simp at h3
      rw [← h1] at h3
      have := F.roots_nodup
      rw [h3] at this
      simp at this
  have hjoin : Node.join m t (m.child t) = .ok
      (if m.child t = 0 then t else joinTop m t (m.child t), popJoinMem m t) := by
    by_cases h0 : m.child t = 0
    · rw [h0, join_null]; simp [popJoinMem, h0]
    · obtain ⟨l, hl⟩ := F.child_mem tN h0
      have hc0 : m.child t ∈ kids t := by rw [hl]; simp
      rw [join_ok h0 vt (F.valid (F.kids_mem t tN _ hc0))
        (F.valid (F.roots_mem _ (F.root_next_mem (List.mem_cons_self _ _))))
        (F.valid (F.kids_mem t tN _ (F.kid_prev_mem tN hc0)))]
      simp [popJoinMem, h0]
  have hlive : (popJoinMem m t).live = m.live := by
    unfold popJoinMem; split_ifs <;> rfl
  have hvalue : (popJoinMem m t).value = m.value := by
    unfold popJoinMem; split_ifs <;> rfl
  have e1 : upd (popJoinMem m t).prev ((popJoinMem m t).next t) ((popJoinMem m t).prev t) t
      = (popJoinMem m t).prev t := upd_other _ _ (Ne.symm hnt2)
  simp only [FibonacciHeap.pop, get_ok vt, ok_bind, hcond, if_false, hjoin]
  simp only [get_eq, setChild_eq, setPrev_eq, setNext_eq, delete_eq, vt.1, vt.2, vnx.1, vnx.2,
    vpv.1, vpv.2, hlive, ok_bind, ne_eq, not_false_eq_true, e1]
  rw [hnx] at e1
  simp only [popUnlinkMem, hnx, e1, hlive]

theorem forest_empty (m : Store) (kids : Ptr → List Ptr) : Forest m ∅ [] kids :=
  { nonnull := by simp
    live := by simp
    roots_nodup := List.nodup_nil
    roots_mem := by simp
    roots_ring := trivial
    roots_parent := by simp
    kids_nodup := by simp
    kids_ring := by simp
    kids_mem := by simp
    kids_parent := by simp
    child_head := by simp
    degree_eq := by simp
    cover := by simp
    order := by simp
    binom := by simp
    count := by simp }

theorem popUnlink_value (m : Store) (t : Ptr) : (popUnlinkMem m t).value = m.value := by
  unfold popUnlinkMem popJoinMem; split_ifs <;> rfl

theorem popUnlink_brk (m : Store) (t : Ptr) : (popUnlinkMem m t).brk = m.brk := by
  unfold popUnlinkMem popJoinMem; split_ifs <;> rfl

/-- `pop` on a well-formed non-empty heap: with at most `2 ^ max_degree` nodes it returns
the value of the top node, which is removed, and leaves a well-formed heap; with more
nodes the consolidation loop indexes `degree_map` out of bounds. -/
theorem pop_spec {h : FibonacciHeap} {N : Finset Ptr} {roots : List Ptr}
    {kids : Ptr → List Ptr} (I : HeapInv h N roots kids) (hN : N.Nonempty) {fuel : Nat}
    (hfuel : N.card ^ 2 ≤ fuel) :
    (N.card ≤ 2 ^ max_degree ∧ ∃ h2 roots2 kids2,
        h.pop fuel = .ok (h.mem.value h.top, h2) ∧ HeapInv h2 (N.erase h.top) roots2 kids2 ∧
        h2.mem.value = h.mem.value) ∨
    (2 ^ max_degree < N.card ∧ h.pop fuel = .error .outOfBounds) := by
  have htm := I.top_mem hN
  have hth := I.top_head
  rcases h with ⟨m, t⟩
  dsimp only at *
  cases hr : roots with
  | nil => rw [hr] at htm; simp at htm
  | cons r R =>
    rw [hr] at hth
    simp only [List.headI_cons] at hth
    subst hth
    subst hr
    have F := I.forest
    have tN : t ∈ N := F.roots_mem t (by simp)
    have hcard_pos : 0 < N.card := Finset.card_pos.2 hN
    by_cases hsingle : kids t ++ R = []
    · -- the only node
      left
      have hk : kids t = [] := (List.append_eq_nil.1 hsingle).1
      have hR : R = [] := (List.append_eq_nil.1 hsingle).2
      subst hR
      have hcard : N.card = 1 := by
        have := F.count
        simp [hk] at this
        exact this.symm
      have hring := (isRing_singleton m t).1 F.roots_ring
      have hchild := (F.child_eq_zero_iff tN).2 hk
      have hNe : N.erase t = ∅ := by
        apply Finset.card_eq_zero.1
        rw [Finset.card_erase_of_mem tN, hcard]
      refine ⟨by rw [hcard]; exact Nat.one_le_two_pow, _, [], kids,
        pop_single_eq fuel (F.valid tN) hring.1 hchild, ?_, rfl⟩
      rw [hNe]
      exact
        { forest := forest_empty _ _
          top_head := rfl
          top_le := by simp
          cleared := by simp
          fresh := by simp
          brk_pos := I.brk_pos }
    · rw [pop_prelude_eq fuel F hsingle]
      have F1 := forest_popUnlink F hsingle
      have hc1 : (N.erase t).card = N.card - 1 := Finset.card_erase_of_mem tN
      have hlen := F1.roots_length_le
      have hsq : (kids t ++ R).length + (kids t ++ R).length ^ 2 < fuel := by
        have h1 : (kids t ++ R).length ≤ N.card - 1 := by omega
        have h2 : (kids t ++ R).length ^ 2 ≤ (N.card - 1) ^ 2 := Nat.pow_le_pow_left h1 2
        have h3 : (N.card - 1) + (N.card - 1) ^ 2 < N.card ^ 2 := by
          obtain ⟨k, hk⟩ : ∃ k, N.card = k + 1 := ⟨N.card - 1, by omega⟩
          rw [hk]; simp only [Nat.add_sub_cancel]
          have : (k + 1) ^ 2 = k ^ 2 + 2 * k + 1 := by ring
          omega
        omega
      have hsq2 : N.card ≤ N.card ^ 2 := by
        have := Nat.pow_le_pow_right hcard_pos (show 1 ≤ 2 by norm_num)
        simpa using this
      rcases consolidate_loop fuel fuel
        { mem := popUnlinkMem m t, top := (kids t ++ R).headI,
          degree_map := fun _ => 0, curr := (kids t ++ R).headI,
          stop := (kids t ++ R).headI, mapped := false } (N.erase t) (kids t ++ R) kids
        F1 (by simp) hsingle rfl (by simp) (by simp only [Bool.false_eq_true, if_false]; omega)
        hsq with ⟨h1, h2⟩ | ⟨c2, R2, kids2, h1, F2, hne2, htop2, hv2, hb2, hmapped⟩
      · right
        refine ⟨by omega, ?_⟩
        rw [h1]; rfl
      · left
        have hlt := card_lt_of_mapped F2 c2.degree_map hmapped
        refine ⟨by omega, ?_⟩
        obtain ⟨r2, R2b, rfl⟩ := List.exists_cons_of_ne_nil hne2
        simp only [List.headI_cons] at htop2
        have I0 : NewtopInv c2.mem c2.top c2.top c2.top (N.erase t) (r2 :: R2b) [] kids2 :=
          { forest := by simpa using F2
            curr_eq := ⟨R2b, by rw [htop2]⟩
            stop_eq := by simp [htop2]
            top_mem := by simp [htop2]
            top_le := by simp
            cleared := by simp }
        have hlen2 := F2.roots_length_le
        obtain ⟨m3, top3, R3, h3, P, _⟩ := newtop_loop c2.top fuel c2.mem c2.top c2.top
          (N.erase t) (r2 :: R2b) [] kids2 I0 (by omega)
        obtain ⟨A, B, hAB⟩ := List.append_of_mem P.top_mem
        refine ⟨{ mem := m3, top := top3 }, top3 :: B ++ A, kids2, ?_, ?_, ?_⟩
        · rw [h1, ok_bind, h3]; rfl
        · have hmemR : ∀ x, x ∈ top3 :: B ++ A → x ∈ R3 := by
            intro x hx; rw [hAB]; simp at hx ⊢; tauto
          exact
            { forest := by
                have := Forest.rotate A (top3 :: B) (hAB ▸ P.forest)
                simpa using this
              top_head := by simp
              top_le := fun x hx => P.top_le x (hmemR x hx)
              cleared := fun x hx => P.cleared x (hmemR x hx)
              fresh := by
                intro x hx
                show x < m3.brk
                rw [P.brk_eq, hb2]
                show x < (popUnlinkMem m t).brk
                rw [popUnlink_brk]
                exact I.fresh x (Finset.mem_of_mem_erase hx)
              brk_pos := by
                show 0 < m3.brk
                rw [P.brk_eq, hb2]
                show 0 < (popUnlinkMem m t).brk
                rw [popUnlink_brk]
                exact I.brk_pos }
        · show m3.value = m.value
          rw [P.value_eq, hv2]
          exact popUnlink_value m t

end

section

/-! ## `push` on a well-formed heap -/

/-- The forest only depends on the fields of its own nodes. -/
theorem Forest.congr {m m2 : Store} {N : Finset Ptr} {R : List Ptr} {kids : Ptr → List Ptr}
    (F : Forest m N R kids)
    (h : ∀ x ∈ N, m2.value x = m.value x ∧ m2.prev x = m.prev x ∧ m2.next x = m.next x ∧
      m2.parent x = m.parent x ∧ m2.child x = m.child x ∧ m2.degree x = m.degree x ∧
      m2.live x = m.live x) :
    Forest m2 N R kids :=
  { nonnull := F.nonnull
    live := fun x hx => by rw [(h x hx).2.2.2.2.2.2]; exact F.live x hx
    roots_nodup := F.roots_nodup
    roots_mem := F.roots_mem
    roots_ring := isRing_frame (fun z hz => (h z (F.roots_mem z hz)).2.2.1)
      (fun z hz => (h z (F.roots_mem z hz)).2.1) F.roots_ring
    roots_parent := fun r hr => by
      rw [(h r (F.roots_mem r hr)).2.2.2.1]; exact F.roots_parent r hr
    kids_nodup := F.kids_nodup
    kids_ring := fun x hx => isRing_frame (fun z hz => (h z (F.kids_mem x hx z hz)).2.2.1)
      (fun z hz => (h z (F.kids_mem x hx z hz)).2.1) (F.kids_ring x hx)
    kids_mem := F.kids_mem
    kids_parent := fun x hx y hy => by
      rw [(h y (F.kids_mem x hx y hy)).2.2.2.1]; exact F.kids_parent x hx y hy
    child_head := fun x hx => by rw [(h x hx).2.2.2.2.1]; exact F.child_head x hx
    degree_eq := fun x hx => by rw [(h x hx).2.2.2.2.2.1]; exact F.degree_eq x hx
    cover := fun y hy => by rw [(h y hy).2.2.2.1]; exact F.cover y hy
    order := fun x hx y hy => by
      rw [(h x hx).1, (h y (F.kids_mem x hx y hy)).1]; exact F.order x hx y hy
    binom := F.binom
    count := F.count }

/-- A fresh one-element cycle is a forest of its own. -/
theorem forest_single {m : Store} {node : Ptr} (kids : Ptr → List Ptr) (h0 : node ≠ 0)
    (hl : m.live node = true) (hn : m.next node = node) (hp : m.prev node = node)
    (hpar : m.parent node = 0) (hc : m.child node = 0) (hd : m.degree node = 0) :
    Forest m {node} [node] (upd kids node []) :=
  { nonnull := by simpa using h0.symm
    live := by simpa using hl
    roots_nodup := by simp
    roots_mem := by simp
    roots_ring := (isRing_singleton m node).2 ⟨hn, hp⟩
    roots_parent := by simpa [hpar] using h0.symm
    kids_nodup := by simp
    kids_ring := by simp [IsRing]
    kids_mem := by simp
    kids_parent := by simp
    child_head := by simpa using hc
    degree_eq := by simpa using hd
    cover := by simp
    order := by simp
    binom := by simp
    count := by simp }

/-- Splicing a fresh one-element cycle into the root list adds one tree to the forest. -/
theorem forest_add_root {m : Store} {N : Finset Ptr} {t : Ptr} {R : List Ptr}
    {kids : Ptr → List Ptr} (F : Forest m N (t :: R) kids) {node : Ptr} (hN : node ∉ N)
    (h0 : node ≠ 0) (hl : m.live node = true) (hn : m.next node = node)
    (hp : m.prev node = node) (hpar : m.parent node = 0) (hc : m.child node = 0)
    (hd : m.degree node = 0) (hrp : ∀ r ∈ t :: R, m.parent r ≠ node) :
    Forest (joinMem m node t) (insert node N) (node :: t :: R) (upd kids node []) := by
  have tN : t ∈ N := F.roots_mem t (by simp)
  have hne : ∀ x ∈ N, x ≠ node := fun x hx h => hN (h ▸ hx)
  have hkids : ∀ x ∈ N, upd kids node [] x = kids x := fun x hx => upd_other _ _ (hne x hx)
  have hkn : upd kids node [] node = [] := upd_same _ _ _
  have hmemN : ∀ x, x ∈ insert node N ↔ x = node ∨ x ∈ N := fun x => Finset.mem_insert
  have hnr : node ∉ t :: R := fun h => hN (F.roots_mem node h)
  have hring : IsRing (joinMem m node t) (node :: t :: R) := by
    have hA : IsRing m [node] := (isRing_singleton m node).2 ⟨hn, hp⟩
    have hnd : (node :: [] ++ t :: R).Nodup := by
      simp only [List.cons_append, List.nil_append, List.nodup_cons]
      exact ⟨hnr, List.nodup_cons.1 F.roots_nodup⟩
    have := isRing_join hA F.roots_ring hnd
    simpa using this
  have frame : ∀ x ∈ N, ∀ y ∈ kids x,
      (joinMem m node t).next y = m.next y ∧ (joinMem m node t).prev y = m.prev y := by
    intro x hx y hy
    have yN := F.kids_mem x hx y hy
    have e1 : y ≠ node := hne y yN
    have e2 : y ≠ t := fun h => F.kid_not_root hx hy (h ▸ List.mem_cons_self _ _)
    have e3 : y ≠ m.prev t := fun h =>
      F.kid_not_root hx hy (h ▸ F.root_prev_mem (List.mem_cons_self _ _))
    simp [joinMem, upd, e1, e2, e3, hn]
  refine
    { nonnull := by
        intro h
        rcases (hmemN 0).1 h with h | h
        · exact h0 h.symm
        · exact F.nonnull h
      live := by
        intro x hx
        rcases (hmemN x).1 hx with h | h
        · rw [h]; exact hl
        · exact F.live x h
      roots_nodup := List.nodup_cons.2 ⟨hnr, F.roots_nodup⟩
      roots_mem := by
        intro r hr
        rcases List.mem_cons.1 hr with h | h
        · rw [h]; exact Finset.mem_insert_self _ _
        · exact Finset.mem_insert_of_mem (F.roots_mem r h)
      roots_ring := hring
      roots_parent := by
        intro r hr h
        have e : (joinMem m node t).parent r = m.parent r := rfl
        rw [e] at h
        rcases List.mem_cons.1 hr with h1 | h1
        · rw [h1, hpar] at h
          rcases (hmemN 0).1 h with h2 | h2
          · exact h0 h2.symm
          · exact F.nonnull h2
        · rcases (hmemN _).1 h with h2 | h2
          · exact hrp r h1 h2
          · exact F.roots_parent r h1 h2
      kids_nodup := by
        intro x hx
        rcases (hmemN x).1 hx with h | h
        · rw [h, hkn]; exact List.nodup_nil
        · rw [hkids x h]; exact F.kids_nodup x h
      kids_ring := by
        intro x hx
        rcases (hmemN x).1 hx with h | h
        · rw [h, hkn]; trivial
        · rw [hkids x h]
          exact isRing_frame (fun z hz => (frame x h z hz).1) (fun z hz => (frame x h z hz).2)
            (F.kids_ring x h)
      kids_mem := by
        intro x hx y hy
        rcases (hmemN x).1 hx with h | h
        · rw [h, hkn] at hy; simp at hy
        · rw [hkids x h] at hy
          exact Finset.mem_insert_of_mem (F.kids_mem x h y hy)
      kids_parent := by
        intro x hx y hy
        rcases (hmemN x).1 hx with h | h
        · rw [h, hkn] at hy; simp at hy
        · rw [hkids x h] at hy
          exact F.kids_parent x h y hy
      child_head := by
        intro x hx
        rcases (hmemN x).1 hx with h | h
        · rw [h, hkn]; exact hc
        · rw [hkids x h]; exact F.child_head x h
      degree_eq := by
        intro x hx
        rcases (hmemN x).1 hx with h | h
        · rw [h, hkn]; simpa using hd
        · rw [hkids x h]; exact F.degree_eq x h
      cover := by
        intro y hy
        rcases (hmemN y).1 hy with h | h
        · left; rw [h]; simp
        · rcases F.cover y h with h1 | ⟨h1, h2⟩
          · left; exact List.mem_cons_of_mem _ h1
          · right
            show m.parent y ∈ insert node N ∧ y ∈ upd kids node [] (m.parent y)
            rw [hkids _ h1]
            exact ⟨Finset.mem_insert_of_mem h1, h2⟩
      order := by
        intro x hx y hy
        rcases (hmemN x).1 hx with h | h
        · rw [h, hkn] at hy; simp at hy
        · rw [hkids x h] at hy
          exact F.order x h y hy
      binom := by
        intro x hx
        rcases (hmemN x).1 hx with h | h
        · rw [h, hkn]; simp
        · rw [hkids x h]
          have e1 : (kids x).map (fun y => 2 ^ (upd kids node [] y).length)
              = (kids x).map (fun y => 2 ^ (kids y).length) := by
            apply List.map_congr_left
            intro y hy
            rw [hkids y (F.kids_mem x h y hy)]
          rw [e1]; exact F.binom x h
      count := by
        rw [Finset.card_insert_of_not_mem hN, ← F.count]
        have e1 : (t :: R).map (fun y => 2 ^ (upd kids node [] y).length)
            = (t :: R).map (fun y => 2 ^ (kids y).length) := by
          apply List.map_congr_left
          intro y hy
          rw [hkids y (F.roots_mem y hy)]
        rw [List.map_cons, List.sum_cons, e1, hkn]
        simp only [List.length_nil, pow_zero]
        omega }

/-- `push` on a well-formed heap: a new node holding `v` is added; it becomes the top
exactly when the heap was empty or `v` is smaller than the value of the old top. -/
theorem push_spec {h : FibonacciHeap} {N : Finset Ptr} {roots : List Ptr}
    {kids : Ptr → List Ptr} (I : HeapInv h N roots kids) (v : Int) :
    ∃ h2 roots2 kids2, h.push v = .ok (h.mem.brk, h2) ∧
      HeapInv h2 (insert h.mem.brk N) roots2 kids2 ∧ h.mem.brk ∉ N ∧
      h2.mem.value = upd h.mem.value h.mem.brk v ∧
      h2.top = (if h.top = 0 then h.mem.brk
                else if v < h.mem.value h.top then h.mem.brk else h.top) ∧
      (∀ x, x ∈ roots2 ↔ x = h.mem.brk ∨ x ∈ roots) := by
  have hth := I.top_head
  have hfresh := I.fresh
  have hbp := I.brk_pos
  have F := I.forest
  rcases h with ⟨m, t⟩
  dsimp only at *
  have hN : m.brk ∉ N := fun h => lt_irrefl _ (hfresh _ h)
  have hne : ∀ x ∈ N, x ≠ m.brk := fun x hx h => hN (h ▸ hx)
  have hb0 : m.brk ≠ 0 := Nat.pos_iff_ne_zero.1 hbp
  have F1 : Forest (m.alloc v).2 N roots kids := by
    apply F.congr
    intro x hx
    simp [Store.alloc, upd, hne x hx]
  cases hr : roots with
  | nil =>
    rw [hr] at hth
    simp only [List.headI_nil] at hth
    have hNe : N = ∅ := I.roots_nil_iff.1 hr
    subst hth
    refine ⟨{ mem := (m.alloc v).2, top := m.brk }, [m.brk], upd kids m.brk [], ?_, ?_, hN,
      rfl, by simp, by simp⟩
    · simp [FibonacciHeap.push, Store.alloc, join_null]
    · rw [hNe]
      exact
        { forest := by
            have := @forest_single (m.alloc v).2 m.brk kids hb0
              (by simp [Store.alloc]) (by simp [Store.alloc]) (by simp [Store.alloc])
              (by simp [Store.alloc]) (by simp [Store.alloc]) (by simp [Store.alloc])
            simpa using this
          top_head := rfl
          top_le := by simp
          cleared := by simp [Store.alloc]
          fresh := by simp [Store.alloc]
          brk_pos := by simp [Store.alloc] }
  | cons r R =>
    rw [hr] at hth
    simp only [List.headI_cons] at hth
    subst hth
    subst hr
    have tN : t ∈ N := F.roots_mem t (by simp)
    have ht0 : t ≠ 0 := F.ne_zero tN
    have htb : t ≠ m.brk := hne t tN
    have vn : Valid (m.alloc v).2 m.brk := ⟨hb0, by simp [Store.alloc]⟩
    have hj : Node.join (m.alloc v).2 m.brk t
        = .ok (joinTop (m.alloc v).2 m.brk t, joinMem (m.alloc v).2 m.brk t) := by
      apply join_ok ht0 vn (F1.valid tN)
      · simpa [Store.alloc] using vn
      · exact F1.valid (F1.roots_mem _ (F1.root_prev_mem (List.mem_cons_self _ _)))
    have F2 := forest_add_root F1 hN hb0 (by simp [Store.alloc]) (by simp [Store.alloc])
      (by simp [Store.alloc]) (by simp [Store.alloc]) (by simp [Store.alloc])
      (by simp [Store.alloc]) (by
        intro x hx
        have e : (m.alloc v).2.parent x = m.parent x := by
          simp [Store.alloc, upd, hne x (F.roots_mem x hx)]
        rw [e, (I.cleared x hx).1]
        exact hb0.symm)
    have hjt : joinTop (m.alloc v).2 m.brk t = if v < m.value t then m.brk else t := by
      simp [joinTop, Store.alloc, upd, htb]
    have hval : (joinMem (m.alloc v).2 m.brk t).value = upd m.value m.brk v := rfl
    have hcl : ∀ x ∈ m.brk :: t :: R, (joinMem (m.alloc v).2 m.brk t).parent x = 0 ∧
        (joinMem (m.alloc v).2 m.brk t).marked x = false := by
      intro x hx
      rcases List.mem_cons.1 hx with h | h
      · subst h; simp [joinMem, Store.alloc]
      · have := I.cleared x h
        simpa [joinMem, Store.alloc, upd, hne x (F.roots_mem x h)] using this
    have hfr : ∀ x ∈ insert m.brk N, x < (joinMem (m.alloc v).2 m.brk t).brk := by
      intro x hx
      show x < m.brk + 1
      rcases Finset.mem_insert.1 hx with h | h
      · rw [h]; exact Nat.lt_succ_self _
      · exact Nat.lt_succ_of_lt (hfresh x h)
    by_cases hlt : v < m.value t
    · refine ⟨{ mem := joinMem (m.alloc v).2 m.brk t, top := m.brk }, m.brk :: t :: R,
        upd kids m.brk [], ?_, ?_, hN, hval, by simp [ht0, hlt]⟩
      · have e : (m.alloc v).1 = m.brk := rfl
        simp only [FibonacciHeap.push, e, hj, hjt, hlt, if_true, if_false, ok_bind, pure_eq_ok]
      · exact
          { forest := F2
            top_head := rfl
            top_le := by
              intro x hx
              show upd m.value m.brk v m.brk ≤ upd m.value m.brk v x
              rcases List.mem_cons.1 hx with h | h
              · rw [h]
              · rw [upd_same, upd_other _ _ (hne x (F.roots_mem x h))]
                exact le_trans (le_of_lt hlt) (I.top_le x h)
            cleared := hcl
            fresh := hfr
            brk_pos := Nat.succ_pos _ }
    · refine ⟨{ mem := joinMem (m.alloc v).2 m.brk t, top := t }, t :: R ++ [m.brk],
        upd kids m.brk [], ?_, ?_, hN, hval, by simp [ht0, hlt], fun x => by
          simp only [List.cons_append, List.mem_cons, List.mem_append, List.mem_singleton,
            List.not_mem_nil, or_false]
          constructor <;> intro h <;> rcases h with h | h | h <;> simp [h]⟩
      · have e : (m.alloc v).1 = m.brk := rfl
        simp only [FibonacciHeap.push, e, hj, hjt, hlt, if_true, if_false, ok_bind, pure_eq_ok]
      · exact
          { forest := by
              have := Forest.rotate [m.brk] (t :: R) (by simpa using F2)
              simpa using this
            top_head := rfl
            top_le := by
              intro x hx
              show upd m.value m.brk v t ≤ upd m.value m.brk v x
              rw [upd_other _ _ htb]
              simp only [List.cons_append, List.mem_cons, List.mem_append,
                List.mem_singleton, List.not_mem_nil, or_false] at hx
              have hx2 : x ∈ t :: R ∨ x = m.brk := by
                rcases hx with h | h | h
                · left; rw [h]; simp
                · left; simp [h]
                · right; exact h
              rcases hx2 with h | h
              · rw [upd_other _ _ (hne x (F.roots_mem x h))]
                exact I.top_le x h
              · rw [h, upd_same]; exact le_of_not_lt hlt
            cleared := by
              intro x hx
              apply hcl
              simp at hx ⊢; tauto
            fresh := hfr
            brk_pos := Nat.succ_pos _ }

end

section

theorem contents_insert {h h2 : FibonacciHeap} {N : Finset Ptr} {p : Ptr} {v : Int}
    (hp : p ∉ N) (hv : h2.mem.value = upd h.mem.value p v) :
    contents h2 (insert p N) = v ::ₘ contents h N := by
  unfold contents
  rw [Finset.insert_val_of_not_mem hp, Multiset.map_cons, hv, upd_same]
  congr 1
  apply Multiset.map_congr rfl
  intro x hx
  have : x ≠ p := fun h => hp (h ▸ hx)
  exact upd_other _ _ this

theorem contents_erase {h h2 : FibonacciHeap} {N : Finset Ptr} {t : Ptr}
    (ht : t ∈ N) (hv : h2.mem.value = h.mem.value) :
    contents h N = h.mem.value t ::ₘ contents h2 (N.erase t) := by
  unfold contents
  rw [hv, ← Multiset.map_cons, Finset.erase_val, Multiset.cons_erase ht]

theorem card_contents (h : FibonacciHeap) (N : Finset Ptr) :
    Multiset.card (contents h N) = N.card := by
  simp [contents]

theorem sort_cons_min {v : Int} {M : Multiset Int} (hv : ∀ x ∈ M, v ≤ x) :
    (v ::ₘ M).sort (· ≤ ·) = v :: M.sort (· ≤ ·) := by
  apply List.eq_of_perm_of_sorted (r := (· ≤ ·))
  · rw [← Multiset.coe_eq_coe, Multiset.sort_eq, ← Multiset.cons_coe, Multiset.sort_eq]
  · exact Multiset.sort_sorted _ _
  · rw [List.sorted_cons]
    refine ⟨?_, Multiset.sort_sorted _ _⟩
    intro b hb
    exact hv b ((Multiset.mem_sort _).1 hb)

/-- Popping a well-formed heap of at most `2 ^ max_degree` nodes until it is empty
returns its values in non-decreasing order. -/
theorem drain_spec (fuel : Nat) (k : Nat) : ∀ (h : FibonacciHeap) (N : Finset Ptr),
    WF h N → N.card ≤ 2 ^ max_degree → N.card ≤ k → N.card ^ 2 ≤ fuel →
    drain fuel k h = .ok ((contents h N).sort (· ≤ ·)) := by
  induction k with
  | zero =>
    intro h N ⟨roots, kids, I⟩ _ hk _
    have hN : N = ∅ := Finset.card_eq_zero.1 (by omega)
    have he := I.empty_iff.2 hN
    simp [drain, he, hN, contents]
  | succ k ih =>
    intro h N ⟨roots, kids, I⟩ hcard hk hfuel
    by_cases hN : N = ∅
    · have he := I.empty_iff.2 hN
      simp [drain, he, hN, contents]
    · have hne : N.Nonempty := Finset.nonempty_iff_ne_empty.2 hN
      have he : h.empty = false := by
        cases hb : h.empty
        · rfl
        · exact absurd (I.empty_iff.1 hb) hN
      have htN : h.top ∈ N := I.forest.roots_mem _ (I.top_mem hne)
      rcases pop_spec I hne hfuel with ⟨_, h2, roots2, kids2, hp, I2, hv⟩ | ⟨hbig, _⟩
      · have hc : (N.erase h.top).card = N.card - 1 := Finset.card_erase_of_mem htN
        have hpos : 0 < N.card := Finset.card_pos.2 hne
        have hsq : (N.erase h.top).card ^ 2 ≤ fuel :=
          le_trans (Nat.pow_le_pow_left (by omega) 2) hfuel
        have := ih h2 (N.erase h.top) ⟨roots2, kids2, I2⟩ (by omega) (by omega) hsq
        simp only [drain, he, Bool.false_eq_true, if_false, hp, ok_bind, this, pure_eq_ok]
        rw [contents_erase htN hv, sort_cons_min]
        intro x hx
        unfold contents at hx
        rw [Multiset.mem_map] at hx
        obtain ⟨y, hy, rfl⟩ := hx
        rw [hv]
        exact I.top_min (Finset.mem_of_mem_erase hy)
      · omega

end

section

theorem pushAll_spec (l : List Int) : ∀ (h : FibonacciHeap) (N : Finset Ptr)
    (roots : List Ptr) (kids : Ptr → List Ptr), HeapInv h N roots kids →
    ∃ hs h2 N2 roots2 kids2, pushAll l h = .ok (hs, h2) ∧
      PushedPost l h N roots hs h2 N2 roots2 kids2 := by
  induction l with
  | nil =>
    intro h N roots kids I
    refine ⟨[], h, N, roots, kids, rfl, ?_⟩
    exact
      { inv := I
        nodup := List.nodup_nil
        new := by simp
        nodes := by simp
        roots := by simp
        values := rfl
        old_values := fun _ _ => rfl
        contents := by simp
        card := by simp }
  | cons v l ih =>
    intro h N roots kids I
    obtain ⟨h1, roots1, kids1, hp, I1, hnew, hval, _, hroots⟩ := push_spec I v
    obtain ⟨hs, h2, N2, roots2, kids2, hq, P⟩ := ih h1 (insert h.mem.brk N) roots1 kids1 I1
    refine ⟨h.mem.brk :: hs, h2, N2, roots2, kids2, ?_, ?_⟩
    · simp [pushAll, hp, hq]
    · have hb : h.mem.brk ∉ hs := fun hx => P.new _ hx (Finset.mem_insert_self _ _)
      have hvb : h2.mem.value h.mem.brk = v := by
        rw [P.old_values _ (Finset.mem_insert_self _ _), hval, upd_same]
      exact
        { inv := P.inv
          nodup := List.nodup_cons.2 ⟨hb, P.nodup⟩
          new := by
            intro x hx
            rcases List.mem_cons.1 hx with h3 | h3
            · rw [h3]; exact hnew
            · exact fun h4 => P.new x h3 (Finset.mem_insert_of_mem h4)
          nodes := by
            intro x
            rw [P.nodes, Finset.mem_insert, List.mem_cons]
            tauto
          roots := by
            intro x
            rw [P.roots, hroots, List.mem_cons]
            tauto
          values := by
            rw [List.map_cons, hvb, P.values]
          old_values := by
            intro x hx
            rw [P.old_values x (Finset.mem_insert_of_mem hx), hval]
            exact upd_other _ _ (fun h3 => hnew (h3 ▸ hx))
          contents := by
            rw [P.contents, contents_insert hnew hval]
            rw [← Multiset.cons_coe, Multiset.cons_add, Multiset.add_cons]
          card := by
            rw [P.card, Finset.card_insert_of_not_mem hnew, List.length_cons]
            omega }

/-- After pushes onto the empty heap every node is a root and the heap holds the pushed
values. -/
theorem pushAll_init (l : List Int) :
    ∃ hs h N roots kids, pushAll l FibonacciHeap.init = .ok (hs, h) ∧
      HeapInv h N roots kids ∧ hs.Nodup ∧ (∀ x, x ∈ N ↔ x ∈ hs) ∧ (∀ x, x ∈ roots ↔ x ∈ hs) ∧
      hs.map h.mem.value = l ∧ contents h N = (l : Multiset Int) ∧ N.card = l.length := by
  obtain ⟨hs, h2, N2, roots2, kids2, hq, P⟩ := pushAll_spec l _ _ _ _ heapInv_init
  refine ⟨hs, h2, N2, roots2, kids2, hq, P.inv, P.nodup, ?_, ?_, P.values, ?_, ?_⟩
  · intro x; rw [P.nodes]; simp
  · intro x; rw [P.roots]; simp
  · rw [P.contents]; simp [contents]
  · rw [P.card]; simp

end

section

/-! ## `decrease_key` on a root -/

theorem forest_set_value_root {m : Store} {N : Finset Ptr} {R : List Ptr}
    {kids : Ptr → List Ptr} (F : Forest m N R kids) {r : Ptr} (hr : r ∈ R) {key : Int}
    (hk : key ≤ m.value r) :
    Forest { m with value := upd m.value r key } N R kids :=
  { nonnull := F.nonnull
    live := F.live
    roots_nodup := F.roots_nodup
    roots_mem := F.roots_mem
    roots_ring := isRing_frame (fun _ _ => rfl) (fun _ _ => rfl) F.roots_ring
    roots_parent := F.roots_parent
    kids_nodup := F.kids_nodup
    kids_ring := fun x hx => isRing_frame (fun _ _ => rfl) (fun _ _ => rfl) (F.kids_ring x hx)
    kids_mem := F.kids_mem
    kids_parent := F.kids_parent
    child_head := F.child_head
    degree_eq := F.degree_eq
    cover := F.cover
    order := by
      intro x hx y hy
      have hy2 : y ≠ r := fun h => F.kid_not_root hx hy (h ▸ hr)
      show upd m.value r key x ≤ upd m.value r key y
      rw [upd_other _ _ hy2]
      by_cases hxr : x = r
      · rw [hxr, upd_same]
        exact le_trans hk (F.order r (hxr ▸ hx) y (hxr ▸ hy))
      · rw [upd_other _ _ hxr]; exact F.order x hx y hy
    binom := F.binom
    count := F.count }

/-- `decrease_key` on a root of a well-formed heap only lowers the value of that node
and makes it the top when its new value is smaller than the value of the top. -/
theorem decrease_key_root_spec {h : FibonacciHeap} {N : Finset Ptr} {roots : List Ptr}
    {kids : Ptr → List Ptr} (I : HeapInv h N roots kids) {node : Ptr} (hn : node ∈ roots)
    {key : Int} (hk : key ≤ h.mem.value node) (fuel : Nat) :
    ∃ h2 roots2, h.decrease_key fuel node key = .ok h2 ∧ HeapInv h2 N roots2 kids ∧
      h2.mem.value = upd h.mem.value node key ∧ (∀ x, x ∈ roots2 ↔ x ∈ roots) := by
  have hne : N.Nonempty := ⟨node, I.forest.roots_mem node hn⟩
  have htm := I.top_mem hne
  have F := I.forest
  have hcl := I.cleared
  have htl := I.top_le
  rcases h with ⟨m, t⟩
  dsimp only at *
  have vn := F.valid (F.roots_mem node hn)
  have vt := F.valid (F.roots_mem t htm)
  have F2 := forest_set_value_root F hn hk
  let m2 : Store := { m with value := upd m.value node key }
  have vn2 : Valid m2 node := vn
  have vt2 : Valid m2 t := vt
  have hcomp : FibonacciHeap.decrease_key fuel { mem := m, top := t } node key
      = .ok (if key < m2.value t then { mem := m2, top := node } else { mem := m2, top := t }) := by
    simp only [FibonacciHeap.decrease_key, setValue_ok vn, ok_bind, get_ok vn2, (hcl node hn).1,
      ne_eq, not_true_eq_false, if_false, pure_eq_ok, get_ok vt2]
    split_ifs <;> rfl
  have hfr : ∀ x ∈ N, x < m2.brk := I.fresh
  have hcl2 : ∀ r ∈ roots, m2.parent r = 0 ∧ m2.marked r = false := hcl
  by_cases hlt : key < m2.value t
  · -- the node becomes the top
    obtain ⟨A, B, hAB⟩ := List.append_of_mem hn
    have hnt : node ≠ t := by
      intro h
      have : m2.value t = key := by rw [← h]; exact upd_same _ _ _
      rw [this] at hlt
      exact lt_irrefl _ hlt
    have hvt : m2.value t = m.value t := upd_other _ _ (Ne.symm hnt)
    refine ⟨{ mem := m2, top := node }, node :: B ++ A, ?_, ?_, rfl, ?_⟩
    · rw [hcomp, if_pos hlt]
    · have hmemR : ∀ x, x ∈ node :: B ++ A → x ∈ roots := by
        intro x hx; rw [hAB]; simp at hx ⊢; tauto
      exact
        { forest := by
            have := Forest.rotate A (node :: B) (hAB ▸ F2)
            simpa using this
          top_head := by simp
          top_le := by
            intro x hx
            show upd m.value node key node ≤ upd m.value node key x
            rw [upd_same]
            by_cases hxn : x = node
            · rw [hxn, upd_same]
            · rw [upd_other _ _ hxn]
              rw [hvt] at hlt
              exact le_trans (le_of_lt hlt) (htl x (hmemR x hx))
          cleared := fun x hx => hcl2 x (hmemR x hx)
          fresh := hfr
          brk_pos := I.brk_pos }
    · intro x; rw [hAB]; simp; tauto
  · refine ⟨{ mem := m2, top := t }, roots, ?_, ?_, rfl, fun _ => Iff.rfl⟩
    · rw [hcomp, if_neg hlt]
    · exact
        { forest := F2
          top_head := I.top_head
          top_le := by
            intro x hx
            show upd m.value node key t ≤ upd m.value node key x
            by_cases hxn : x = node
            · rw [hxn, upd_same]
              exact le_of_not_lt hlt
            · rw [upd_other _ _ hxn]
              by_cases htn : t = node
              · rw [htn, upd_same]
                exact le_trans hk (htn ▸ htl x hx)
              · rw [upd_other _ _ htn]; exact htl x hx
          cleared := hcl2
          fresh := hfr
          brk_pos := I.brk_pos }

end

section

theorem Extends.refl {α : Type} (a : Res α) : Extends a a := fun _ h => h

theorem Extends.bind {α β : Type} {a b : Res α} {f g : α → Res β} (h1 : Extends a b)
    (h2 : ∀ x, Extends (f x) (g x)) : Extends (a >>= f) (b >>= g) := by
  intro r hr
  cases ha : a with
  | error e => rw [ha] at hr; simp at hr
  | ok x =>
    rw [ha] at hr
    rw [h1 x ha]
    exact h2 x r hr

theorem Extends.ite {α : Type} {c : Prop} [Decidable c] {a b a2 b2 : Res α}
    (h1 : Extends a a2) (h2 : Extends b b2) :
    Extends (if c then a else b) (if c then a2 else b2) := by
  split_ifs
  · exact h1
  · exact h2

theorem pop_scan_mono (fuel : Nat) : ∀ (fuel2 : Nat) (c : Consol), fuel ≤ fuel2 →
    Extends (pop_scan fuel c) (pop_scan fuel2 c) := by
  induction fuel with
  | zero => intro fuel2 c _ r h; simp [pop_scan] at h
  | succ fuel ih =>
    intro fuel2 c hle
    obtain ⟨k, rfl⟩ : ∃ k, fuel2 = k + 1 := ⟨fuel2 - 1, by omega⟩
    simp only [pop_scan]
    apply Extends.bind (Extends.refl _)
    intro c1
    apply Extends.ite (ih k c1 (by omega)) (Extends.refl _)

theorem pop_consolidate_mono (inner inner2 : Nat) (hi : inner ≤ inner2) (fuel : Nat) :
    ∀ (fuel2 : Nat) (c : Consol), fuel ≤ fuel2 →
    Extends (pop_consolidate inner fuel c) (pop_consolidate inner2 fuel2 c) := by
  induction fuel with
  | zero => intro fuel2 c _ r h; simp [pop_consolidate] at h
  | succ fuel ih =>
    intro fuel2 c hle
    obtain ⟨k, rfl⟩ : ∃ k, fuel2 = k + 1 := ⟨fuel2 - 1, by omega⟩
    simp only [pop_consolidate]
    apply Extends.ite (Extends.refl _)
    apply Extends.bind (pop_scan_mono inner inner2 _ hi)
    intro c1
    exact ih k c1 (by omega)

theorem pop_newtop_mono (stop : Ptr) (fuel : Nat) : ∀ (fuel2 : Nat) (m : Store)
    (top curr : Ptr), fuel ≤ fuel2 →
    Extends (pop_newtop stop fuel m top curr) (pop_newtop stop fuel2 m top curr) := by
  induction fuel with
  | zero => intro fuel2 m top curr _ r h; simp [pop_newtop] at h
  | succ fuel ih =>
    intro fuel2 m top curr hle
    obtain ⟨k, rfl⟩ : ∃ k, fuel2 = k + 1 := ⟨fuel2 - 1, by omega⟩
    simp only [pop_newtop]
    apply Extends.bind (Extends.refl _); intro a
    apply Extends.bind (Extends.refl _); intro b
    apply Extends.bind (Extends.refl _); intro m1
    apply Extends.bind (Extends.refl _); intro m2
    apply Extends.bind (Extends.refl _); intro c1
    apply Extends.ite (ih k _ _ _ (by omega)) (Extends.refl _)

theorem pop_mono {fuel fuel2 : Nat} (hle : fuel ≤ fuel2) (h : FibonacciHeap) :
    Extends (h.pop fuel) (h.pop fuel2) := by
  simp only [FibonacciHeap.pop]
  apply Extends.bind (Extends.refl _); intro v
  apply Extends.bind (Extends.refl _); intro n
  apply Extends.bind (Extends.refl _); intro c
  apply Extends.ite (Extends.refl _)
  apply Extends.bind (Extends.refl _); intro c2
  apply Extends.bind (Extends.refl _); intro j
  apply Extends.bind (Extends.refl _); intro m1
  apply Extends.bind (Extends.refl _); intro temp
  apply Extends.bind (Extends.refl _); intro x1
  apply Extends.bind (Extends.refl _); intro x2
  apply Extends.bind (Extends.refl _); intro m2
  apply Extends.bind (Extends.refl _); intro x3
  apply Extends.bind (Extends.refl _); intro x4
  apply Extends.bind (Extends.refl _); intro m3
  apply Extends.bind (Extends.refl _); intro m4
  apply Extends.bind (pop_consolidate_mono _ _ hle _ _ _ hle); intro c3
  apply Extends.bind (pop_newtop_mono _ _ _ _ _ _ hle); intro p
  exact Extends.refl _

theorem drain_mono {fuel fuel2 : Nat} (hle : fuel ≤ fuel2) (k : Nat) :
    ∀ (k2 : Nat) (h : FibonacciHeap), k ≤ k2 →
    Extends (drain fuel k h) (drain fuel2 k2 h) := by
  induction k with
  | zero =>
    intro k2 h _ r hr
    cases k2 with
    | zero =>
      simp only [drain] at hr ⊢
      exact hr
    | succ k2 =>
      simp only [drain] at hr ⊢
      split_ifs at hr ⊢ with he
      exact hr
  | succ k ih =>
    intro k2 h hk
    obtain ⟨j, rfl⟩ : ∃ j, k2 = j + 1 := ⟨k2 - 1, by omega⟩
    simp only [drain]
    apply Extends.ite (Extends.refl _)
    apply Extends.bind (pop_mono hle h); intro p
    apply Extends.bind (ih j _ (by omega)); intro vs
    exact Extends.refl _

end

section

/-- With at most `2 ^ max_degree` values the pops return exactly the sorted values. -/
theorem pushThenDrain_eq (l : List Int) (hl : l.length ≤ 2 ^ max_degree) (fuel k : Nat)
    (hf : l.length ^ 2 ≤ fuel) (hk : l.length ≤ k) :
    pushThenDrain fuel k l = .ok ((l : Multiset Int).sort (· ≤ ·)) := by
  obtain ⟨hs, h, N, roots, kids, hp, I, _, _, _, _, hc, hcard⟩ := pushAll_init l
  have := drain_spec fuel k h N ⟨roots, kids, I⟩ (by omega) (by omega) (by rw [hcard]; exact hf)
  simp only [pushThenDrain, hp, ok_bind, this, hc]

/-- With more than `2 ^ max_degree` values the first pop indexes `degree_map` out of
bounds, whatever the budget. -/
theorem pushThenDrain_overflow (l : List Int) (hl : 2 ^ max_degree < l.length) (fuel k : Nat) :
    ∀ out, pushThenDrain fuel k l ≠ .ok out := by
  intro out hout
  obtain ⟨hs, h, N, roots, kids, hp, I, _, _, _, _, hc, hcard⟩ := pushAll_init l
  simp only [pushThenDrain, hp, ok_bind] at hout
  -- run again with a budget that is large enough
  have h2 := drain_mono (Nat.le_max_left fuel (N.card ^ 2)) k (max k 1) h (Nat.le_max_left _ _)
    out hout
  have hpos : 0 < 2 ^ max_degree := Nat.two_pow_pos _
  have hne : N.Nonempty := Finset.card_pos.1 (by omega)
  have he : h.empty = false := by
    cases hb : h.empty
    · rfl
    · have := I.empty_iff.1 hb
      rw [this] at hne
      simp at hne
  obtain ⟨j, hj⟩ : ∃ j, max k 1 = j + 1 := ⟨max k 1 - 1, by omega⟩
  rw [hj] at h2
  rcases pop_spec I hne (Nat.le_max_right fuel (N.card ^ 2)) with ⟨hle, _⟩ | ⟨_, hp2⟩
  · omega
  · simp [drain, he, hp2] at h2

theorem sorted_of_sort (M : Multiset Int) : (M.sort (· ≤ ·)).Sorted (· ≤ ·) :=
  Multiset.sort_sorted _ _

theorem perm_of_sort (l : List Int) : ((l : Multiset Int).sort (· ≤ ·)).Perm l := by
  rw [← Multiset.coe_eq_coe, Multiset.sort_eq]

/-- C1, amended: for every list of at most `2 ^ 32` values pushed onto an empty heap,
calling `pop` until `empty()` is true returns values in non-decreasing order
(the budgets `fuel` and `k` only have to be large enough). -/
theorem sorted_extraction (l : List Int) (hl : l.length ≤ 2 ^ max_degree) (fuel k : Nat)
    (hf : l.length ^ 2 ≤ fuel) (hk : l.length ≤ k) :
    ∃ out, pushThenDrain fuel k l = .ok out ∧ out.Sorted (· ≤ ·) :=
  ⟨_, pushThenDrain_eq l hl fuel k hf hk, sorted_of_sort _⟩

/-- C1, witness: the hypotheses hold for the values 5, 3, 8, 1. -/
theorem sorted_extraction_witness :
    [5, 3, 8, 1].length ≤ 2 ^ max_degree ∧ [5, 3, 8, 1].length ^ 2 ≤ 16 ∧
    [5, 3, 8, 1].length ≤ 4 ∧
    ∃ out, pushThenDrain 16 4 [5, 3, 8, 1] = .ok out ∧ out.Sorted (· ≤ ·) :=
  ⟨by norm_num [max_degree], by norm_num, by norm_num,
    sorted_extraction [5, 3, 8, 1] (by norm_num [max_degree]) 16 4 (by norm_num)
      (by norm_num)⟩

/-- The scenario of the specification: push 5, 3, 8, 1; the pops give 1, 3, 5, 8. -/
theorem basic_ordering_scenario : pushThenDrain 16 4 [5, 3, 8, 1] = .ok [1, 3, 5, 8] := by
  rfl

/-- C1, counterexample: with `2 ^ 32 + 1` pushed values no budget makes the pops return
a list, sorted or not. -/
theorem sorted_extraction_fails_above_capacity :
    ¬ ∃ fuel k out, pushThenDrain fuel k (List.replicate (2 ^ 32 + 1) 0) = .ok out ∧
      out.Sorted (· ≤ ·) := by
  rintro ⟨fuel, k, out, h, _⟩
  exact pushThenDrain_overflow _ (by rw [List.length_replicate]; norm_num [max_degree])
    fuel k out h

/-- C8, amended: for every list of at most `2 ^ 32` values pushed onto an empty heap, the
values returned by popping until `empty()` is true are a permutation of the pushed list. -/
theorem nothing_lost_or_duplicated (l : List Int) (hl : l.length ≤ 2 ^ max_degree)
    (fuel k : Nat) (hf : l.length ^ 2 ≤ fuel) (hk : l.length ≤ k) :
    ∃ out, pushThenDrain fuel k l = .ok out ∧ out.Perm l :=
  ⟨_, pushThenDrain_eq l hl fuel k hf hk, perm_of_sort l⟩

/-- C8, witness: the hypotheses hold for the values 2, 7, 2, 1, 7. -/
theorem nothing_lost_or_duplicated_witness :
    [2, 7, 2, 1, 7].length ≤ 2 ^ max_degree ∧ [2, 7, 2, 1, 7].length ^ 2 ≤ 25 ∧
    [2, 7, 2, 1, 7].length ≤ 5 ∧
    ∃ out, pushThenDrain 25 5 [2, 7, 2, 1, 7] = .ok out ∧ out.Perm [2, 7, 2, 1, 7] :=
  ⟨by norm_num [max_degree], by norm_num, by norm_num,
    nothing_lost_or_duplicated [2, 7, 2, 1, 7] (by norm_num [max_degree]) 25 5 (by norm_num)
      (by norm_num)⟩

/-- C8, counterexample: with `2 ^ 32 + 1` pushed values (all equal to 1) no budget makes
the pops return a permutation of the pushed list. -/
theorem nothing_lost_fails_above_capacity :
    ¬ ∃ fuel k out, pushThenDrain fuel k (List.replicate (2 ^ 32 + 1) 1) = .ok out ∧
      out.Perm (List.replicate (2 ^ 32 + 1) 1) := by
  rintro ⟨fuel, k, out, h, _⟩
  exact pushThenDrain_overflow _ (by rw [List.length_replicate]; norm_num [max_degree])
    fuel k out h

end

section

/-! ## Claim C3: `top()` after pushes -/

/-- C3: for every non-empty list of values pushed onto an empty heap, `top()` returns a
pushed value `v` such that no pushed value compares smaller than `v`; and a further
`push(w)` changes `_top` exactly when `w` compares strictly smaller than `v`, the key of
the current top. -/
theorem top_is_minimum (l : List Int) (hl : l ≠ []) :
    ∃ hs h v, pushAll l FibonacciHeap.init = .ok (hs, h) ∧ h.topValue = .ok v ∧ v ∈ l ∧
      (∀ x ∈ l, ¬ x < v) ∧
      ∀ w, ∃ p h2, h.push w = .ok (p, h2) ∧ (h2.top ≠ h.top ↔ w < v) := by
  obtain ⟨hs, h, N, roots, kids, hp, I, _, hN, _, hv, _, hcard⟩ := pushAll_init l
  have hne : N.Nonempty := by
    apply Finset.card_pos.1
    rw [hcard]
    exact List.length_pos.2 hl
  have htr := I.top_mem hne
  have htN : h.top ∈ N := I.forest.roots_mem _ htr
  have vt := I.forest.valid htN
  have hmem : h.mem.value h.top ∈ l := by
    rw [← hv]
    exact List.mem_map_of_mem _ ((hN _).1 htN)
  refine ⟨hs, h, h.mem.value h.top, hp, get_ok vt _, hmem, ?_, ?_⟩
  · intro x hx
    rw [← hv, List.mem_map] at hx
    obtain ⟨y, hy, rfl⟩ := hx
    exact not_lt.2 (I.top_min ((hN y).2 hy))
  · intro w
    obtain ⟨h2, roots2, kids2, hpush, _, hnew, _, htop2, _⟩ := push_spec I w
    refine ⟨h.mem.brk, h2, hpush, ?_⟩
    have ht0 : h.top ≠ 0 := vt.1
    have hbt : h.mem.brk ≠ h.top := fun e => hnew (e ▸ htN)
    rw [htop2, if_neg ht0]
    split_ifs with hlt
    · exact ⟨fun _ => hlt, fun _ => hbt⟩
    · exact ⟨fun hc => absurd rfl hc, fun hc => absurd hc hlt⟩

/-- C3, witness: the values 5, 3, 8, 1. -/
theorem top_is_minimum_witness :
    ([5, 3, 8, 1] : List Int) ≠ [] ∧
    ∃ hs h v, pushAll [5, 3, 8, 1] FibonacciHeap.init = .ok (hs, h) ∧ h.topValue = .ok v ∧
      v ∈ ([5, 3, 8, 1] : List Int) ∧ (∀ x ∈ ([5, 3, 8, 1] : List Int), ¬ x < v) ∧
      ∀ w, ∃ p h2, h.push w = .ok (p, h2) ∧ (h2.top ≠ h.top ↔ w < v) :=
  ⟨by simp, top_is_minimum [5, 3, 8, 1] (by simp)⟩

/-- The scenario of the specification: after pushing 5, 3, 8, 1, `top()` returns 1. -/
theorem basic_top_scenario :
    (pushAll [5, 3, 8, 1] FibonacciHeap.init >>= fun r => r.2.topValue) = .ok 1 := by
  rfl

end

section

/-! ## Claim C5: `decrease_key` after pushes -/

theorem map_upd_set (f : Ptr → Int) (k : Int) : ∀ (hs : List Ptr) (i : Nat) (p : Ptr),
    hs.Nodup → hs[i]? = some p → hs.map (upd f p k) = (hs.map f).set i k := by
  intro hs
  induction hs with
  | nil => intro i p _ h; simp at h
  | cons a hs ih =>
    intro i p hnd h
    rw [List.nodup_cons] at hnd
    cases i with
    | zero =>
      simp only [List.getElem?_cons_zero, Option.some.injEq] at h
      subst h
      simp only [List.map_cons, List.set_cons_zero, upd_same, List.cons.injEq, true_and]
      apply List.map_congr_left
      intro x hx
      exact upd_other _ _ (fun e => hnd.1 (e ▸ hx))
    | succ i =>
      simp only [List.getElem?_cons_succ] at h
      have hp : p ∈ hs := List.getElem?_mem h
      have hap : a ≠ p := fun e => hnd.1 (e ▸ hp)
      simp only [List.map_cons, List.set_cons_succ, upd_other _ _ hap, List.cons.injEq, true_and]
      exact ih i p hnd.2 h

theorem contents_eq_map {h : FibonacciHeap} {N : Finset Ptr} {hs : List Ptr} (hnd : hs.Nodup)
    (hN : ∀ x, x ∈ N ↔ x ∈ hs) : contents h N = ((hs.map h.mem.value : List Int) : Multiset Int) := by
  have : N.val = (hs : Multiset Ptr) := by
    apply Multiset.Nodup.ext N.nodup (Multiset.coe_nodup.2 hnd) |>.2
    intro x
    rw [Finset.mem_val, Multiset.mem_coe]
    exact hN x
  unfold contents
  rw [this, Multiset.map_coe]

/-- C5, amended: for every list of at most `2 ^ 32` values pushed onto an empty heap, every
handle `p` returned by one of those pushes (the `i`-th) and every key `k` strictly smaller
than the current key of `p`: after `decrease_key(p, k)`, `top()` returns the minimum of
the updated collection, and popping until `empty()` returns the updated collection in
non-decreasing order. -/
theorem decrease_key_promotes (l : List Int) (i : Nat) (k : Int) (hi : i < l.length)
    (hk : k < l[i]) (hl : l.length ≤ 2 ^ max_degree) (fuel n : Nat)
    (hf : l.length ^ 2 ≤ fuel) (hn : l.length ≤ n) :
    ∃ hs h p h2 v out, pushAll l FibonacciHeap.init = .ok (hs, h) ∧ hs[i]? = some p ∧
      h.decrease_key fuel p k = .ok h2 ∧
      h2.topValue = .ok v ∧ v ∈ l.set i k ∧ (∀ x ∈ l.set i k, ¬ x < v) ∧
      drain fuel n h2 = .ok out ∧ out.Sorted (· ≤ ·) ∧ out.Perm (l.set i k) := by
  obtain ⟨hs, h, N, roots, kids, hp, I, hnd, hN, hroots, hv, _, hcard⟩ := pushAll_init l
  have hlen : hs.length = l.length := by rw [← hv, List.length_map]
  have hi2 : i < hs.length := by omega
  have hget : hs[i]? = some hs[i] := List.getElem?_eq_getElem hi2
  have hpr : hs[i] ∈ roots := (hroots _).2 (List.getElem_mem hi2)
  have hval : h.mem.value hs[i] = l[i] := by
    have : (hs.map h.mem.value)[i]? = l[i]? := by rw [hv]
    rw [List.getElem?_map, hget, List.getElem?_eq_getElem hi] at this
    simpa using this
  obtain ⟨h2, roots2, hd, I2, hv2, _⟩ :=
    @decrease_key_root_spec _ _ _ _ I _ hpr k (by rw [hval]; exact le_of_lt hk) fuel
  have hc2 : contents h2 N = ((l.set i k : List Int) : Multiset Int) := by
    rw [contents_eq_map hnd hN, hv2, map_upd_set _ _ hs i _ hnd hget, hv]
  have hne : N.Nonempty := by
    apply Finset.card_pos.1
    omega
  have htN : h2.top ∈ N := I2.forest.roots_mem _ (I2.top_mem hne)
  have hdr := drain_spec fuel n h2 N ⟨roots2, kids, I2⟩ (by omega) (by omega)
    (by rw [hcard]; exact hf)
  have hmemc : ∀ x, x ∈ l.set i k ↔ x ∈ contents h2 N := by
    intro x; rw [hc2, Multiset.mem_coe]
  refine ⟨hs, h, hs[i], h2, h2.mem.value h2.top, _, hp, hget, hd,
    get_ok (I2.forest.valid htN) _, ?_, ?_, hdr, sorted_of_sort _, ?_⟩
  · rw [hmemc]
    exact Multiset.mem_map_of_mem _ htN
  · intro x hx
    rw [hmemc] at hx
    unfold contents at hx
    rw [Multiset.mem_map] at hx
    obtain ⟨y, hy, rfl⟩ := hx
    exact not_lt.2 (I2.top_min hy)
  · rw [hc2]
    exact perm_of_sort _

/-- C5, witness: push 10, 20, 30, then `decrease_key` of the third handle to 5. -/
theorem decrease_key_promotes_witness :
    (5 : Int) < ([10, 20, 30] : List Int)[2] ∧ [10, 20, 30].length ≤ 2 ^ max_degree ∧
    [10, 20, 30].length ^ 2 ≤ 9 ∧ [10, 20, 30].length ≤ 3 ∧
    ∃ hs h p h2 v out, pushAll [10, 20, 30] FibonacciHeap.init = .ok (hs, h) ∧
      hs[2]? = some p ∧ h.decrease_key 9 p 5 = .ok h2 ∧
      h2.topValue = .ok v ∧ v ∈ ([10, 20, 30] : List Int).set 2 5 ∧
      (∀ x ∈ ([10, 20, 30] : List Int).set 2 5, ¬ x < v) ∧
      drain 9 3 h2 = .ok out ∧ out.Sorted (· ≤ ·) ∧
      out.Perm (([10, 20, 30] : List Int).set 2 5) :=
  ⟨by decide, by norm_num [max_degree], by norm_num, by norm_num,
    decrease_key_promotes [10, 20, 30] 2 5 (by norm_num) (by decide)
      (by norm_num [max_degree]) 9 3 (by norm_num) (by norm_num)⟩

/-- The scenario of the specification: push 10, 20, 30; `decrease_key(h3, 5)`; `top()`
returns 5 and the pops return 5, 10, 20. -/
theorem decrease_key_scenario :
    (do
      let (hs, h) ← pushAll [10, 20, 30] FibonacciHeap.init
      let h ← h.decrease_key 9 (hs.getD 2 0) 5
      let t ← h.topValue
      let out ← drain 9 3 h
      pure (t, out) : Res (Int × List Int)) = .ok (5, [5, 10, 20]) := by
  rfl

/-- C5, counterexample: after `2 ^ 32 + 1` pushes of 0 and `decrease_key` of the first
handle to -1, no budget makes the pops return the updated collection. -/
theorem decrease_key_fails_above_capacity :
    ¬ ∃ fuel n hs h p h2 out,
      pushAll (List.replicate (2 ^ 32 + 1) 0) FibonacciHeap.init = .ok (hs, h) ∧
      hs[0]? = some p ∧ h.decrease_key fuel p (-1) = .ok h2 ∧
      drain fuel n h2 = .ok out ∧ out.Sorted (· ≤ ·) ∧
      out.Perm ((List.replicate (2 ^ 32 + 1) (0 : Int)).set 0 (-1)) := by
  rintro ⟨fuel, n, hs, h, p, h2, out, hp, hget, hd, hdr, _, _⟩
  obtain ⟨hs', h', N, roots, kids, hp', I, hnd, hN, hroots, hv, _, hcard⟩ :=
    pushAll_init (List.replicate (2 ^ 32 + 1) 0)
  rw [hp] at hp'
  simp only [Except.ok.injEq, Prod.mk.injEq] at hp'
  obtain ⟨rfl, rfl⟩ := hp'
  have hpm : p ∈ hs := List.getElem?_mem hget
  have hpr : p ∈ roots := (hroots _).2 hpm
  have hval : h.mem.value p = 0 := by
    have : h.mem.value p ∈ hs.map h.mem.value := List.mem_map_of_mem _ hpm
    rw [hv] at this
    exact (List.mem_replicate.1 this).2
  obtain ⟨h3, roots3, hd3, I3, _, _⟩ :=
    @decrease_key_root_spec _ _ _ _ I _ hpr (-1) (by rw [hval]; norm_num) fuel
  rw [hd] at hd3
  simp only [Except.ok.injEq] at hd3
  subst hd3
  rw [List.length_replicate] at hcard
  -- run again with a budget that is large enough
  have hdr2 := drain_mono (Nat.le_max_left fuel (N.card ^ 2)) n (max n 1) h2
    (Nat.le_max_left _ _) out hdr
  have hne : N.Nonempty := Finset.card_pos.1 (by omega)
  have he : h2.empty = false := by
    cases hb : h2.empty
    · rfl
    · have := I3.empty_iff.1 hb
      rw [this] at hne
      simp at hne
  obtain ⟨j, hj⟩ : ∃ j, max n 1 = j + 1 := ⟨max n 1 - 1, by omega⟩
  rw [hj] at hdr2
  rcases pop_spec I3 hne (Nat.le_max_right fuel (N.card ^ 2)) with ⟨hle, _⟩ | ⟨_, hp2⟩
  · rw [hcard] at hle
    norm_num [max_degree] at hle
  · simp [drain, he, hp2] at hdr2

end

section

theorem runOps_spec (fuel : Nat) (ops : List Op) : ∀ (h : FibonacciHeap) (N : Finset Ptr),
    WF h N → guarded fuel ops h = true → N.card + pushes ops ≤ 2 ^ max_degree →
    (N.card + pushes ops) ^ 2 ≤ fuel →
    ∃ h2 N2, runOps fuel ops h = .ok h2 ∧ WF h2 N2 ∧ N2.card + pops ops = N.card + pushes ops := by
  induction ops with
  | nil => intro h N W _ _ _; exact ⟨h, N, rfl, W, rfl⟩
  | cons op ops ih =>
    intro h N ⟨roots, kids, I⟩ G hcap hfuel
    cases op with
    | push v =>
      obtain ⟨h1, roots1, kids1, hp, I1, hnew, _, _, _⟩ := push_spec I v
      have hc : (insert h.mem.brk N).card = N.card + 1 := Finset.card_insert_of_not_mem hnew
      simp only [pushes] at hcap hfuel
      have G1 : guarded fuel ops h1 = true := by simpa [guarded, hp] using G
      obtain ⟨h2, N2, hr, W2, hcard⟩ := ih h1 _ ⟨roots1, kids1, I1⟩ G1
        (by rw [hc]; omega) (by rw [hc]; rw [show N.card + 1 + pushes ops
          = N.card + (pushes ops + 1) by omega]; exact hfuel)
      refine ⟨h2, N2, by simp [runOps, hp, hr], W2, ?_⟩
      simp only [pushes, pops]
      rw [hcard, hc]; omega
    | pop =>
      have he : h.empty = false := by
        simp only [guarded, Bool.and_eq_true, Bool.not_eq_true'] at G
        exact G.1
      have hN : N ≠ ∅ := fun e => by
        have := I.empty_iff.2 e
        rw [he] at this
        exact absurd this (by simp)
      have hne := Finset.nonempty_iff_ne_empty.2 hN
      have htN : h.top ∈ N := I.forest.roots_mem _ (I.top_mem hne)
      simp only [pushes] at hcap hfuel
      have hf1 : N.card ^ 2 ≤ fuel :=
        le_trans (Nat.pow_le_pow_left (Nat.le_add_right _ _) 2) hfuel
      rcases pop_spec I hne hf1 with ⟨_, h1, roots1, kids1, hp, I1, _⟩ | ⟨hbig, _⟩
      · have hc : (N.erase h.top).card = N.card - 1 := Finset.card_erase_of_mem htN
        have hpos : 0 < N.card := Finset.card_pos.2 hne
        have G1 : guarded fuel ops h1 = true := by
          simp only [guarded, hp, Bool.and_eq_true] at G
          exact G.2
        obtain ⟨h2, N2, hr, W2, hcard⟩ := ih h1 _ ⟨roots1, kids1, I1⟩ G1
          (by rw [hc]; omega)
          (le_trans (Nat.pow_le_pow_left (by rw [hc]; omega) 2) hfuel)
        refine ⟨h2, N2, by simp [runOps, hp, hr], W2, ?_⟩
        simp only [pushes, pops]
        rw [hc] at hcard
        omega
      · omega
    | top =>
      have he : h.empty = false := by
        simp only [guarded, Bool.and_eq_true, Bool.not_eq_true'] at G
        exact G.1
      have G2 : guarded fuel ops h = true := by
        simp only [guarded, Bool.and_eq_true] at G
        exact G.2
      have hN : N ≠ ∅ := fun e => by
        have := I.empty_iff.2 e
        rw [he] at this
        exact absurd this (by simp)
      have hne := Finset.nonempty_iff_ne_empty.2 hN
      have htN : h.top ∈ N := I.forest.roots_mem _ (I.top_mem hne)
      simp only [pushes] at hcap hfuel
      obtain ⟨h2, N2, hr, W2, hcard⟩ := ih h N ⟨roots, kids, I⟩ G2 hcap hfuel
      refine ⟨h2, N2, ?_, W2, ?_⟩
      · simp [runOps, FibonacciHeap.topValue, get_ok (I.forest.valid htN), hr]
      · simp only [pushes, pops]; exact hcard

theorem le_maxHeld (ops : List Op) : ∀ n : Nat, n ≤ maxHeld n ops := by
  induction ops with
  | nil => intro n; exact Nat.le_refl n
  | cons op ops ih =>
    intro n
    cases op with
    | push v => exact le_trans (Nat.le_succ n) (ih (n + 1))
    | pop => exact Nat.le_max_left _ _
    | top => exact ih n

/-- A guarded sequence runs to its end when the heap never holds more than
`2 ^ max_degree` elements. -/
theorem runOps_held (fuel : Nat) (ops : List Op) : ∀ (h : FibonacciHeap) (N : Finset Ptr),
    WF h N → guarded fuel ops h = true → maxHeld N.card ops ≤ 2 ^ max_degree →
    maxHeld N.card ops ^ 2 ≤ fuel →
    ∃ h2 N2, runOps fuel ops h = .ok h2 ∧ WF h2 N2 ∧
      N2.card + pops ops = N.card + pushes ops ∧ N2.card ≤ maxHeld N.card ops := by
  induction ops with
  | nil => intro h N W _ _ _; exact ⟨h, N, rfl, W, rfl, Nat.le_refl _⟩
  | cons op ops ih =>
    intro h N ⟨roots, kids, I⟩ G hcap hfuel
    cases op with
    | push v =>
      obtain ⟨h1, roots1, kids1, hp, I1, hnew, _, _, _⟩ := push_spec I v
      have hc : (insert h.mem.brk N).card = N.card + 1 := Finset.card_insert_of_not_mem hnew
      simp only [maxHeld] at hcap hfuel
      have G1 : guarded fuel ops h1 = true := by simpa [guarded, hp] using G
      obtain ⟨h2, N2, hr, W2, hcard, hle⟩ := ih h1 _ ⟨roots1, kids1, I1⟩ G1
        (by rw [hc]; exact hcap) (by rw [hc]; exact hfuel)
      refine ⟨h2, N2, by simp [runOps, hp, hr], W2, ?_, ?_⟩
      · simp only [pushes, pops]
        rw [hcard, hc]; omega
      · simp only [maxHeld]
        rw [hc] at hle
        exact hle
    | pop =>
      have he : h.empty = false := by
        simp only [guarded, Bool.and_eq_true, Bool.not_eq_true'] at G
        exact G.1
      have hN : N ≠ ∅ := fun e => by
        have := I.empty_iff.2 e
        rw [he] at this
        exact absurd this (by simp)
      have hne := Finset.nonempty_iff_ne_empty.2 hN
      have htN : h.top ∈ N := I.forest.roots_mem _ (I.top_mem hne)
      simp only [maxHeld] at hcap hfuel
      have hl := Nat.le_max_left N.card (maxHeld (N.card - 1) ops)
      have hr2 := Nat.le_max_right N.card (maxHeld (N.card - 1) ops)
      have hf1 : N.card ^ 2 ≤ fuel := le_trans (Nat.pow_le_pow_left hl 2) hfuel
      rcases pop_spec I hne hf1 with ⟨_, h1, roots1, kids1, hp, I1, _⟩ | ⟨hbig, _⟩
      · have hc : (N.erase h.top).card = N.card - 1 := Finset.card_erase_of_mem htN
        have hpos : 0 < N.card := Finset.card_pos.2 hne
        have G1 : guarded fuel ops h1 = true := by
          simp only [guarded, hp, Bool.and_eq_true] at G
          exact G.2
        obtain ⟨h2, N2, hr, W2, hcard, hle⟩ := ih h1 _ ⟨roots1, kids1, I1⟩ G1
          (by rw [hc]; exact le_trans hr2 hcap)
          (by rw [hc]; exact le_trans (Nat.pow_le_pow_left hr2 2) hfuel)
        refine ⟨h2, N2, by simp [runOps, hp, hr], W2, ?_, ?_⟩
        · simp only [pushes, pops]
          rw [hc] at hcard
          omega
        · simp only [maxHeld]
          rw [hc] at hle
          exact le_trans hle hr2
      · exact absurd (le_trans hl hcap) (Nat.not_le.2 hbig)
    | top =>
      have he : h.empty = false := by
        simp only [guarded, Bool.and_eq_true, Bool.not_eq_true'] at G
        exact G.1
      have G2 : guarded fuel ops h = true := by
        simp only [guarded, Bool.and_eq_true] at G
        exact G.2
      have hN : N ≠ ∅ := fun e => by
        have := I.empty_iff.2 e
        rw [he] at this
        exact absurd this (by simp)
      have hne := Finset.nonempty_iff_ne_empty.2 hN
      have htN : h.top ∈ N := I.forest.roots_mem _ (I.top_mem hne)
      simp only [maxHeld] at hcap hfuel
      obtain ⟨h2, N2, hr, W2, hcard, hle⟩ := ih h N ⟨roots, kids, I⟩ G2 hcap hfuel
      refine ⟨h2, N2, ?_, W2, ?_, ?_⟩
      · simp [runOps, FibonacciHeap.topValue, get_ok (I.forest.valid htN), hr]
      · simp only [pushes, pops]; exact hcard
      · simp only [maxHeld]; exact hle

/-- C4, amended: for every sequence of pushes and pops (and `top` calls) applied to an
empty heap, `pop` and `top` only called when `empty()` is false, during which the heap
never holds more than `2 ^ 32` elements: `empty()` is true after the sequence if and
only if the number of pushes equals the number of pops, and exactly pushes minus pops
further pops are possible before `empty()` becomes true. -/
theorem size_conservation (ops : List Op) (fuel k : Nat)
    (hg : guarded fuel ops FibonacciHeap.init = true)
    (hcap : maxHeld 0 ops ≤ 2 ^ max_degree)
    (hf : maxHeld 0 ops ^ 2 ≤ fuel) (hk : pushes ops - pops ops ≤ k) :
    ∃ h, runOps fuel ops FibonacciHeap.init = .ok h ∧ pops ops ≤ pushes ops ∧
      (h.empty = true ↔ pushes ops = pops ops) ∧
      ∃ out, drain fuel k h = .ok out ∧ out.length = pushes ops - pops ops := by
  obtain ⟨h, N, hr, ⟨roots, kids, I⟩, hcard, hle⟩ := runOps_held fuel ops FibonacciHeap.init ∅
    ⟨_, _, heapInv_init⟩ hg (by simpa using hcap) (by simpa using hf)
  simp only [Finset.card_empty, zero_add] at hcard hle
  have hd := drain_spec fuel k h N ⟨roots, kids, I⟩ (le_trans hle hcap) (by omega)
    (le_trans (Nat.pow_le_pow_left hle 2) hf)
  refine ⟨h, hr, by omega, ?_, _, hd, ?_⟩
  · rw [I.empty_iff, ← Finset.card_eq_zero]
    omega
  · rw [Multiset.length_sort, card_contents]
    omega

/-- C4, witness: push 4, push 2, pop, push 9, pop, push 1, pop: four pushes, never
more than two elements in the heap, one element left. -/
theorem size_conservation_witness :
    guarded 4 [.push 4, .push 2, .pop, .push 9, .pop, .push 1, .pop]
      FibonacciHeap.init = true ∧
    maxHeld 0 [.push 4, .push 2, .pop, .push 9, .pop, .push 1, .pop] ≤ 2 ^ max_degree ∧
    maxHeld 0 [.push 4, .push 2, .pop, .push 9, .pop, .push 1, .pop] ^ 2 ≤ 4 ∧
    pushes [.push 4, .push 2, .pop, .push 9, .pop, .push 1, .pop]
      - pops [.push 4, .push 2, .pop, .push 9, .pop, .push 1, .pop] ≤ 1 ∧
    ∃ h, runOps 4 [.push 4, .push 2, .pop, .push 9, .pop, .push 1, .pop]
        FibonacciHeap.init = .ok h ∧
      pops [.push 4, .push 2, .pop, .push 9, .pop, .push 1, .pop]
        ≤ pushes [.push 4, .push 2, .pop, .push 9, .pop, .push 1, .pop] ∧
      (h.empty = true ↔ pushes [.push 4, .push 2, .pop, .push 9, .pop, .push 1, .pop]
        = pops [.push 4, .push 2, .pop, .push 9, .pop, .push 1, .pop]) ∧
      ∃ out, drain 4 1 h = .ok out ∧
        out.length = pushes [.push 4, .push 2, .pop, .push 9, .pop, .push 1, .pop]
          - pops [.push 4, .push 2, .pop, .push 9, .pop, .push 1, .pop] := by
  have hg : guarded 4 [.push 4, .push 2, .pop, .push 9, .pop, .push 1, .pop]
      FibonacciHeap.init = true := rfl
  exact ⟨hg, by norm_num [maxHeld, max_degree], by norm_num [maxHeld], by decide,
    size_conservation _ 4 1 hg (by norm_num [maxHeld, max_degree]) (by norm_num [maxHeld])
      (by decide)⟩

theorem runOps_pushes (fuel : Nat) (l : List Int) : ∀ h : FibonacciHeap,
    runOps fuel (l.map Op.push) h = (pushAll l h >>= fun r => pure r.2) := by
  induction l with
  | nil => intro h; rfl
  | cons v l ih =>
    intro h
    simp only [List.map_cons, runOps, pushAll, bind_assoc]
    cases hp : h.push v with
    | error e => rfl
    | ok r =>
      simp only [ok_bind, ih]
      cases pushAll l r.2 <;> rfl

/-- C4, counterexample: after `2 ^ 32 + 1` pushes no budget makes `2 ^ 32 + 1` further
pops possible. -/
theorem size_conservation_fails_above_capacity :
    ¬ ∃ fuel k h out,
      runOps fuel (List.replicate (2 ^ 32 + 1) (Op.push 0)) FibonacciHeap.init = .ok h ∧
      drain fuel k h = .ok out ∧
      out.length = pushes (List.replicate (2 ^ 32 + 1) (Op.push 0))
        - pops (List.replicate (2 ^ 32 + 1) (Op.push 0)) := by
  rintro ⟨fuel, k, h, out, hr, hd, _⟩
  have hl : 2 ^ max_degree < (List.replicate (2 ^ 32 + 1) (0 : Int)).length := by
    rw [List.length_replicate]; norm_num [max_degree]
  apply pushThenDrain_overflow _ hl fuel k out
  rw [← List.map_replicate, runOps_pushes] at hr
  cases hp : pushAll (List.replicate (2 ^ 32 + 1) 0) FibonacciHeap.init with
  | error e => rw [hp] at hr; simp at hr
  | ok r =>
    rw [hp] at hr
    simp only [ok_bind, pure_eq_ok, Except.ok.injEq] at hr
    simp only [pushThenDrain, hp, ok_bind, hr, hd]

end

section

/-! ## Claim C7: `top()` and `pop()` on an empty heap -/

/-- C7, amended: calling `top()` or `pop()` on a heap for which `empty()` is true reports
nothing: both calls dereference the null `_top` (undefined behaviour). -/
theorem empty_heap_not_reported (h : FibonacciHeap) (he : h.empty = true) :
    h.topValue = .error .nullDeref ∧ ∀ fuel, h.pop fuel = .error .nullDeref := by
  have h0 : h.top = 0 := by simpa [FibonacciHeap.empty] using he
  constructor
  · simp [FibonacciHeap.topValue, Store.get, Store.deref, h0]
  · intro fuel
    simp [FibonacciHeap.pop, Store.get, Store.deref, h0]

/-- C7, witness: the freshly constructed heap. -/
theorem empty_heap_not_reported_witness :
    FibonacciHeap.init.empty = true ∧ FibonacciHeap.init.topValue = .error .nullDeref ∧
    ∀ fuel, FibonacciHeap.init.pop fuel = .error .nullDeref :=
  ⟨rfl, empty_heap_not_reported FibonacciHeap.init rfl⟩

/-- C7, counterexample: on the freshly constructed heap `top()` and `pop()` dereference
the absent top node. -/
theorem empty_heap_dereferences_null :
    FibonacciHeap.init.empty = true ∧ FibonacciHeap.init.topValue = .error .nullDeref ∧
    FibonacciHeap.init.pop 1 = .error .nullDeref :=
  ⟨rfl, rfl, rfl⟩

/-- C2, failing input: push 9, 3, 17; pop; `decrease_key(h3, 5)`; `decrease_key(h3, 1)`;
push 20; pop; pop. The heap returns 3, 1, 20, the sorted-list model 3, 1, 9: the second
`decrease_key` cuts the node a second time and the node holding 9 is lost. -/
theorem cross_validation_diverges :
    (do
      let (_, h) ← FibonacciHeap.init.push 9
      let (_, h) ← h.push 3
      let (h3, h) ← h.push 17
      let (a, h) ← h.pop 9
      let h ← h.decrease_key 9 h3 5
      let h ← h.decrease_key 9 h3 1
      let (_, h) ← h.push 20
      let (b, h) ← h.pop 9
      let (c, _) ← h.pop 9
      pure [a, b, c] : Res (List Int)) = .ok [3, 1, 20] ∧
    (do
      let q := refPush 17 (refPush 3 (refPush 9 []))
      let (a, q) ← refPop q
      let q := refDecrease 17 5 q
      let q := refDecrease 5 1 q
      let q := refPush 20 q
      let (b, q) ← refPop q
      let (c, _) ← refPop q
      pure [a, b, c] : Option (List Int)) = some [3, 1, 9] :=
  ⟨rfl, by decide⟩

/-- C9, failing input: push 0, 10, 20, 1; pop; `decrease_key(h3, 5)`; `decrease_key(h3, 4)`.
Afterwards the node of 10 (address 2) has as `child` the root holding 1 (address 4), whose
key compares smaller than 10. -/
theorem heap_order_broken :
    (do
      let (_, h) ← FibonacciHeap.init.push 0
      let (p, h) ← h.push 10
      let (h3, h) ← h.push 20
      let (t, h) ← h.push 1
      let (_, h) ← h.pop 16
      let h ← h.decrease_key 16 h3 5
      let h ← h.decrease_key 16 h3 4
      pure (h.mem.child p = t, h.mem.value t, h.mem.value p, h.mem.live t && h.mem.live p)
        : Res (Bool × Int × Int × Bool)) = .ok (true, 1, 10, true) :=
  rfl

/-- C10, failing input: push 9, 3, 17; pop; `decrease_key(h3, 5)`; `decrease_key(h3, 1)`.
Afterwards the node of 9 (address 1) has degree -1 and its `child` is the node itself,
whose parent is null. -/
theorem degree_broken :
    (do
      let (p, h) ← FibonacciHeap.init.push 9
      let (_, h) ← h.push 3
      let (h3, h) ← h.push 17
      let (_, h) ← h.pop 9
      let h ← h.decrease_key 9 h3 5
      let h ← h.decrease_key 9 h3 1
      pure (h.mem.degree p, h.mem.child p, h.mem.parent (h.mem.child p), h.mem.live p)
        : Res (Int × Ptr × Ptr × Bool)) = .ok (-1, 1, 0, true) :=
  rfl

end

section

variable {m : Store} {N : Finset Ptr} {roots : List Ptr} {kids : Ptr → List Ptr}

theorem below_mem (F : Forest m N roots kids) {x z : Ptr} (hx : x ∈ N) (h : Below kids x z) :
    z ∈ N ∧ (kids z).length < (kids x).length := by
  induction h with
  | kid hz => exact ⟨F.kids_mem _ hx _ hz, F.kid_length_lt hx hz⟩
  | step hy _ ih =>
    have hyN := F.kids_mem _ hx _ hy
    have := ih hyN
    exact ⟨this.1, lt_trans this.2 (F.kid_length_lt hx hy)⟩

theorem below_parent (F : Forest m N roots kids) {x z : Ptr} (hx : x ∈ N)
    (h : Below kids x z) :
    m.parent z ∈ N ∧ z ∈ kids (m.parent z) ∧ (m.parent z = x ∨ Below kids x (m.parent z)) := by
  induction h with
  | kid hz =>
    have hp := F.kids_parent _ hx _ hz
    rw [hp]
    exact ⟨hx, hz, Or.inl rfl⟩
  | step hy _ ih =>
    have hyN := F.kids_mem _ hx _ hy
    obtain ⟨h1, h2, h3⟩ := ih hyN
    refine ⟨h1, h2, Or.inr ?_⟩
    rcases h3 with h3 | h3
    · rw [h3]; exact Below.kid hy
    · exact Below.step hy h3

theorem below_comparable (F : Forest m N roots kids) {a b : Ptr} (ha : a ∈ N) (hb : b ∈ N) :
    ∀ (n : Nat) (z : Ptr), N.card - (kids z).length ≤ n → Below kids a z → Below kids b z →
      a = b ∨ Below kids a b ∨ Below kids b a := by
  intro n
  induction n with
  | zero =>
    intro z hn h1 h2
    obtain ⟨p1, p2, p3⟩ := below_parent F ha h1
    have := F.kid_length_lt p1 p2
    have := F.kids_length_le p1
    omega
  | succ n ih =>
    intro z hn h1 h2
    obtain ⟨p1, p2, p3⟩ := below_parent F ha h1
    obtain ⟨_, _, q3⟩ := below_parent F hb h2
    have hlt := F.kid_length_lt p1 p2
    have hle := F.kids_length_le p1
    rcases p3 with p3 | p3
    · rcases q3 with q3 | q3
      · left; rw [← p3, ← q3]
      · right; right; rw [← p3]; exact q3
    · rcases q3 with q3 | q3
      · right; left; rw [← q3]; exact p3
      · exact ih (m.parent z) (by omega) p3 q3

theorem sibling_not_below (F : Forest m N roots kids) {L : List Ptr}
    (hL : Siblings N roots kids L) {a b : Ptr} (ha : a ∈ L) (hb : b ∈ L) (haN : a ∈ N) :
    ¬ Below kids a b := by
  intro h
  obtain ⟨p1, p2, p3⟩ := below_parent F haN h
  rcases hL with rfl | ⟨p, hp, rfl⟩
  · exact F.kid_not_root p1 p2 hb
  · have hpb : m.parent b = p := F.kids_parent p hp b hb
    rw [hpb] at p3
    have hap := F.kid_length_lt hp ha
    rcases p3 with p3 | p3
    · rw [p3] at hap; exact lt_irrefl _ hap
    · have := (below_mem F haN p3).2
      omega

theorem siblings_mem (F : Forest m N roots kids) {L : List Ptr}
    (hL : Siblings N roots kids L) {a : Ptr} (ha : a ∈ L) : a ∈ N := by
  rcases hL with rfl | ⟨p, hp, rfl⟩
  · exact F.roots_mem a ha
  · exact F.kids_mem p hp a ha

/-- The subtrees of two different siblings are disjoint. -/
theorem sibling_trees_disjoint (F : Forest m N roots kids) {L : List Ptr}
    (hL : Siblings N roots kids L) {a b z : Ptr} (ha : a ∈ L) (hb : b ∈ L) (hab : a ≠ b)
    (hza : z = a ∨ Below kids a z) (hzb : z = b ∨ Below kids b z) : False := by
  have haN := siblings_mem F hL ha
  have hbN := siblings_mem F hL hb
  rcases hza with hza | hza
  · rcases hzb with hzb | hzb
    · exact hab (hza.symm.trans hzb)
    · rw [hza] at hzb
      exact sibling_not_below F hL hb ha hbN hzb
  · rcases hzb with hzb | hzb
    · rw [hzb] at hza
      exact sibling_not_below F hL ha hb haN hza
    · rcases below_comparable F haN hbN _ z (le_refl _) hza hzb with h | h | h
      · exact hab h
      · exact sibling_not_below F hL ha hb haN h
      · exact sibling_not_below F hL hb ha hbN h

end

section

theorem lst_frame {m m2 : Store} : ∀ (S : List Ptr) (c : Ptr),
    (∀ z ∈ S, m2.next z = m.next z) → Lst m c S → Lst m2 c S := by
  intro S
  induction S with
  | nil => intro c _ h; exact h
  | cons s S ih =>
    intro c hn h
    refine ⟨h.1, ?_⟩
    rw [hn s (by simp)]
    exact ih _ (fun z hz => hn z (List.mem_cons_of_mem _ hz)) h.2

theorem lst_of_seg {m0 m1 : Store} : ∀ (l : List Ptr) (x y : Ptr), Seg m0 x l y →
    (x :: l).Nodup →
    (∀ z ∈ x :: l, z ≠ (x :: l).getLast (by simp) → m1.next z = m0.next z) →
    m1.next ((x :: l).getLast (by simp)) = 0 → Lst m1 x (x :: l) := by
  intro l
  induction l with
  | nil =>
    intro x y _ _ _ h0
    simp only [List.getLast_singleton] at h0
    exact ⟨rfl, h0⟩
  | cons c l ih =>
    intro x y hs hnd hn h0
    rw [seg_cons] at hs
    have hlast : (x :: c :: l).getLast (by simp) = (c :: l).getLast (by simp) := by
      simp [List.getLast_cons]
    have hxl : x ≠ (c :: l).getLast (by simp) := by
      intro h
      have := List.getLast_mem (l := c :: l) (by simp)
      rw [← h] at this
      exact (List.nodup_cons.1 hnd).1 this
    refine ⟨rfl, ?_⟩
    rw [hn x (by simp) (by rw [hlast]; exact hxl), hs.1.1]
    apply ih c y hs.2 (List.nodup_cons.1 hnd).2
    · intro z hz hzl
      exact hn z (List.mem_cons_of_mem _ hz) (by rw [hlast]; exact hzl)
    · rw [← hlast]; exact h0

theorem lst_of_ring {m0 m1 : Store} {x : Ptr} {l : List Ptr} (hr : IsRing m0 (x :: l))
    (hnd : (x :: l).Nodup)
    (hn : ∀ z ∈ x :: l, z ≠ m0.prev x → m1.next z = m0.next z)
    (h0 : m1.next (m0.prev x) = 0) : Lst m1 x (x :: l) := by
  have hp := (isRing_prev_last hr).1
  apply lst_of_seg l x x hr hnd
  · intro z hz hzl
    exact hn z hz (by rw [hp]; exact hzl)
  · rw [← hp]; exact h0

variable {m0 : Store} {N : Finset Ptr} {roots : List Ptr} {kids : Ptr → List Ptr}

/-- The loop of `Node::clear` over a sibling list returns, provided `Node::clear` returns
on the child list of every node of degree below `d`. -/
theorem clear_loop_ok (F : Forest m0 N roots kids) (d : Nat)
    (hC : ∀ x ∈ N, (kids x).length < d → ∀ (m : Store) (fuel : Nat),
      (∀ z, Below kids x z → Intact m0 m z) → (d + 1) ^ 2 ≤ fuel →
      ∃ m2, Node.clear fuel m (m0.child x) = .ok m2 ∧ m2.brk = m.brk ∧
        SameOutside m m2 (Below kids x))
    {L : List Ptr} (hL : Siblings N roots kids L) :
    ∀ (S : List Ptr), (∀ s ∈ S, s ∈ L) → S.Nodup → (∀ s ∈ S, (kids s).length < d) →
    ∀ (m : Store) (c : Ptr), Lst m c S →
    (∀ s ∈ S, m.live s = true ∧ m.child s = m0.child s ∧ ∀ z, Below kids s z → Intact m0 m z) →
    ∀ (fuel : Nat), S.length + 1 + (d + 1) ^ 2 ≤ fuel →
    ∃ m2, Node.clear_loop fuel m c = .ok m2 ∧ m2.brk = m.brk ∧
      SameOutside m m2 (fun z => ∃ s ∈ S, z = s ∨ Below kids s z) := by
  intro S
  induction S with
  | nil =>
    intro _ _ _ m c hl _ fuel hf
    obtain ⟨f, rfl⟩ : ∃ f, fuel = f + 1 := ⟨fuel - 1, by omega⟩
    have hc : c = 0 := hl
    exact ⟨m, by simp [Node.clear_loop, hc], rfl, fun z _ => ⟨rfl, rfl, rfl, rfl⟩⟩
  | cons s S ih =>
    intro hSL hnd hdeg m c hl hint fuel hf
    obtain ⟨f, rfl⟩ : ∃ f, fuel = f + 1 := ⟨fuel - 1, by omega⟩
    simp only [List.length_cons] at hf
    have hc : c = s := hl.1
    subst hc
    have hsL : c ∈ L := hSL c (by simp)
    have hsN : c ∈ N := siblings_mem F hL hsL
    have hs0 : c ≠ 0 := F.ne_zero hsN
    obtain ⟨hlive, hchild, hbelow⟩ := hint c (by simp)
    have vs : Valid m c := ⟨hs0, hlive⟩
    obtain ⟨m1, hcl, hbrk1, hso⟩ := hC c hsN (hdeg c (by simp)) m f hbelow (by omega)
    have hnb : ¬ Below kids c c := fun h => lt_irrefl _ (below_mem F hsN h).2
    have hs1 := hso c hnb
    have vs1 : Valid m1 c := ⟨hs0, by rw [hs1.1]; exact hlive⟩
    -- the store after `delete`
    let m2 : Store := { m1 with live := upd m1.live c false }
    have hrest : ∀ z ∈ S, z ≠ c ∧ ¬ Below kids c z := by
      intro z hz
      refine ⟨fun h => (List.nodup_cons.1 hnd).1 (h ▸ hz), ?_⟩
      exact sibling_not_below F hL hsL (hSL z (List.mem_cons_of_mem _ hz)) hsN
    have hlst2 : Lst m2 (m.next c) S := by
      apply lst_frame S _ _ hl.2
      intro z hz
      exact (hso z (hrest z hz).2).2.2.1
    have hint2 : ∀ s ∈ S, m2.live s = true ∧ m2.child s = m0.child s ∧
        ∀ z, Below kids s z → Intact m0 m2 z := by
      intro s hs
      obtain ⟨h1, h2, h3⟩ := hint s (List.mem_cons_of_mem _ hs)
      obtain ⟨hne, hnb2⟩ := hrest s hs
      have hsL2 : s ∈ L := hSL s (List.mem_cons_of_mem _ hs)
      have e := hso s hnb2
      refine ⟨?_, ?_, ?_⟩
      · show upd m1.live c false s = true
        rw [upd_other _ _ hne, e.1]; exact h1
      · show m1.child s = m0.child s
        rw [e.2.1]; exact h2
      · intro z hz
        have hzc : z ≠ c := by
          intro h
          rw [h] at hz
          exact sibling_not_below F hL hsL2 hsL (siblings_mem F hL hsL2) hz
        have hzb : ¬ Below kids c z := fun h =>
          sibling_trees_disjoint F hL hsL hsL2 (Ne.symm hne) (Or.inr h) (Or.inr hz)
        have e2 := hso z hzb
        obtain ⟨i1, i2, i3, i4⟩ := h3 z hz
        refine ⟨?_, ?_, ?_, ?_⟩
        · show upd m1.live c false z = true
          rw [upd_other _ _ hzc, e2.1]; exact i1
        · show m1.child z = m0.child z
          rw [e2.2.1]; exact i2
        · show m1.next z = m0.next z
          rw [e2.2.2.1]; exact i3
        · show m1.prev z = m0.prev z
          rw [e2.2.2.2]; exact i4
    obtain ⟨m3, hloop, hbrk3, hso3⟩ := ih (fun s hs => hSL s (List.mem_cons_of_mem _ hs))
      (List.nodup_cons.1 hnd).2 (fun s hs => hdeg s (List.mem_cons_of_mem _ hs)) m2 (m.next c)
      hlst2 hint2 f (by omega)
    refine ⟨m3, ?_, ?_, ?_⟩
    · simp only [Node.clear_loop, hs0, if_false, get_ok vs, ok_bind, hchild, hcl, get_ok vs1,
        delete_ok vs1, hs1.2.2.1]
      exact hloop
    · rw [hbrk3]; exact hbrk1
    · intro z hz
      have hzc : z ≠ c := fun h => hz ⟨c, by simp, Or.inl h⟩
      have hzb : ¬ Below kids c z := fun h => hz ⟨c, by simp, Or.inr h⟩
      have hzS : ¬ ∃ s ∈ S, z = s ∨ Below kids s z := by
        rintro ⟨s, hs, h⟩
        exact hz ⟨s, List.mem_cons_of_mem _ hs, h⟩
      have e3 := hso3 z hzS
      have e1 := hso z hzb
      refine ⟨?_, ?_, ?_, ?_⟩
      · rw [e3.1]
        show upd m1.live c false z = m.live z
        rw [upd_other _ _ hzc, e1.1]
      · rw [e3.2.1]; exact e1.2.1
      · rw [e3.2.2.1]; exact e1.2.2.1
      · rw [e3.2.2.2]; exact e1.2.2.2

/-- The function `Node::clear` returns on the head of a complete sibling list. -/
theorem clear_ring_ok (F : Forest m0 N roots kids) (d : Nat)
    (hC : ∀ x ∈ N, (kids x).length < d → ∀ (m : Store) (fuel : Nat),
      (∀ z, Below kids x z → Intact m0 m z) → (d + 1) ^ 2 ≤ fuel →
      ∃ m2, Node.clear fuel m (m0.child x) = .ok m2 ∧ m2.brk = m.brk ∧
        SameOutside m m2 (Below kids x))
    {x : Ptr} {l : List Ptr} (hL : Siblings N roots kids (x :: l)) (hring : IsRing m0 (x :: l))
    (hnd : (x :: l).Nodup) (hdeg : ∀ s ∈ x :: l, (kids s).length < d) (m : Store)
    (hint : ∀ s ∈ x :: l, Intact m0 m s ∧ ∀ z, Below kids s z → Intact m0 m z)
    (fuel : Nat) (hf : (x :: l).length + 2 + (d + 1) ^ 2 ≤ fuel) :
    ∃ m2, Node.clear fuel m x = .ok m2 ∧ m2.brk = m.brk ∧
      SameOutside m m2 (fun z => ∃ s ∈ x :: l, z = s ∨ Below kids s z) := by
  obtain ⟨f, rfl⟩ : ∃ f, fuel = f + 1 := ⟨fuel - 1, by omega⟩
  have hxN : x ∈ N := siblings_mem F hL (by simp)
  have hx0 : x ≠ 0 := F.ne_zero hxN
  have ix := (hint x (by simp)).1
  have vx : Valid m x := ⟨hx0, ix.1⟩
  have hlast : m0.prev x ∈ x :: l := isRing_prev_mem hring (by simp)
  have il := (hint _ hlast).1
  have vl : Valid m (m0.prev x) := ⟨F.ne_zero (siblings_mem F hL hlast), il.1⟩
  let m1 : Store := { m with next := upd m.next (m0.prev x) 0 }
  have hlst : Lst m1 x (x :: l) := by
    apply lst_of_ring hring hnd
    · intro z hz hne
      show upd m.next (m0.prev x) 0 z = m0.next z
      rw [upd_other _ _ hne]
      exact (hint z hz).1.2.2.1
    · show upd m.next (m0.prev x) 0 (m0.prev x) = 0
      exact upd_same _ _ _
  have hint1 : ∀ s ∈ x :: l, m1.live s = true ∧ m1.child s = m0.child s ∧
      ∀ z, Below kids s z → Intact m0 m1 z := by
    intro s hs
    obtain ⟨i1, i2⟩ := hint s hs
    refine ⟨i1.1, i1.2.1, ?_⟩
    intro z hz
    have hne : z ≠ m0.prev x := by
      intro h
      rw [h] at hz
      exact sibling_not_below F hL hs hlast (siblings_mem F hL hs) hz
    obtain ⟨j1, j2, j3, j4⟩ := i2 z hz
    refine ⟨j1, j2, ?_, j4⟩
    show upd m.next (m0.prev x) 0 z = m0.next z
    rw [upd_other _ _ hne]; exact j3
  obtain ⟨m2, hloop, hbrk, hso⟩ := clear_loop_ok F d hC hL (x :: l) (fun _ h => h) hnd hdeg m1 x
    hlst hint1 f (by omega)
  refine ⟨m2, ?_, hbrk, ?_⟩
  · simp only [Node.clear, hx0, if_false, get_ok vx, ok_bind, ix.2.2.2, setNext_ok vl]
    exact hloop
  · intro z hz
    have e := hso z hz
    have hne : z ≠ m0.prev x := fun h => hz ⟨m0.prev x, hlast, Or.inl h⟩
    refine ⟨e.1, e.2.1, ?_, e.2.2.2⟩
    rw [e.2.2.1]
    show upd m.next (m0.prev x) 0 z = m.next z
    exact upd_other _ _ hne

theorem below_iff_kids {x z : Ptr} :
    Below kids x z ↔ ∃ s ∈ kids x, z = s ∨ Below kids s z := by
  constructor
  · intro h
    cases h with
    | kid hz => exact ⟨z, hz, Or.inl rfl⟩
    | step hy hz => exact ⟨_, hy, Or.inr hz⟩
  · rintro ⟨s, hs, rfl | h⟩
    · exact Below.kid hs
    · exact Below.step hs h

/-- The function `Node::clear` returns on the child list of every node. -/
theorem clear_ok (F : Forest m0 N roots kids) : ∀ (d : Nat), ∀ x ∈ N, (kids x).length < d →
    ∀ (m : Store) (fuel : Nat), (∀ z, Below kids x z → Intact m0 m z) → (d + 1) ^ 2 ≤ fuel →
    ∃ m2, Node.clear fuel m (m0.child x) = .ok m2 ∧ m2.brk = m.brk ∧
      SameOutside m m2 (Below kids x) := by
  intro d
  induction d with
  | zero => intro x _ h; exact absurd h (Nat.not_lt_zero _)
  | succ d ih =>
    intro x hx hlen m fuel hint hf
    by_cases hc : m0.child x = 0
    · have hpos : 0 < fuel := lt_of_lt_of_le (by positivity) hf
      obtain ⟨f, rfl⟩ : ∃ f, fuel = f + 1 := ⟨fuel - 1, by omega⟩
      exact ⟨m, by simp [Node.clear, hc], rfl, fun z _ => ⟨rfl, rfl, rfl, rfl⟩⟩
    · obtain ⟨l, hk⟩ := F.child_mem hx hc
      have hL : Siblings N roots kids (m0.child x :: l) := Or.inr ⟨x, hx, hk.symm⟩
      have hring : IsRing m0 (m0.child x :: l) := by rw [← hk]; exact F.kids_ring x hx
      have hnd : (m0.child x :: l).Nodup := by rw [← hk]; exact F.kids_nodup x hx
      have hdeg : ∀ s ∈ m0.child x :: l, (kids s).length < d := by
        intro s hs
        rw [← hk] at hs
        have := F.kid_length_lt hx hs
        omega
      have hint2 : ∀ s ∈ m0.child x :: l, Intact m0 m s ∧
          ∀ z, Below kids s z → Intact m0 m z := by
        intro s hs
        rw [← hk] at hs
        exact ⟨hint s (Below.kid hs), fun z hz => hint z (Below.step hs hz)⟩
      have hlen2 : (m0.child x :: l).length ≤ d := by rw [← hk]; omega
      obtain ⟨m2, h1, h2, h3⟩ := clear_ring_ok F d ih hL hring hnd hdeg m hint2 fuel
        (by nlinarith)
      refine ⟨m2, h1, h2, ?_⟩
      intro z hz
      apply h3
      rw [← hk]
      exact fun h => hz (below_iff_kids.2 h)

/-- Calling `clear()` on a well-formed heap returns and leaves the empty heap. -/
theorem clear_spec {h : FibonacciHeap} {N : Finset Ptr} {roots : List Ptr}
    {kids : Ptr → List Ptr} (I : HeapInv h N roots kids) {fuel : Nat}
    (hf : (N.card + 3) ^ 2 ≤ fuel) :
    ∃ hc, h.clear fuel = .ok hc ∧ hc.top = 0 ∧ HeapInv hc ∅ [] kids := by
  have F := I.forest
  cases hr : roots with
  | nil =>
    have ht : h.top = 0 := by rw [I.top_head, hr]; rfl
    have hpos : 0 < fuel := lt_of_lt_of_le (by positivity) hf
    obtain ⟨f, rfl⟩ : ∃ f, fuel = f + 1 := ⟨fuel - 1, by omega⟩
    refine ⟨{ mem := h.mem, top := 0 }, by simp [FibonacciHeap.clear, Node.clear, ht], rfl, ?_⟩
    exact { forest := forest_empty _ _, top_head := rfl, top_le := by simp, cleared := by simp,
            fresh := by simp, brk_pos := I.brk_pos }
  | cons t R =>
    have ht : h.top = t := by rw [I.top_head, hr]; rfl
    have hL : Siblings N roots kids (t :: R) := Or.inl hr.symm
    have hring : IsRing h.mem (t :: R) := by rw [← hr]; exact F.roots_ring
    have hnd : (t :: R).Nodup := by rw [← hr]; exact F.roots_nodup
    have hdeg : ∀ s ∈ t :: R, (kids s).length < N.card + 1 := by
      intro s hs
      rw [← hr] at hs
      have := F.kids_length_le (F.roots_mem s hs)
      omega
    have hint : ∀ s ∈ t :: R, Intact h.mem h.mem s ∧
        ∀ z, Below kids s z → Intact h.mem h.mem z := by
      intro s hs
      rw [← hr] at hs
      have hsN := F.roots_mem s hs
      exact ⟨⟨F.live s hsN, rfl, rfl, rfl⟩,
        fun z hz => ⟨F.live z (below_mem F hsN hz).1, rfl, rfl, rfl⟩⟩
    have hlen : (t :: R).length ≤ N.card := by rw [← hr]; exact F.roots_length_le
    obtain ⟨m2, h1, h2, _⟩ := clear_ring_ok F (N.card + 1) (clear_ok F (N.card + 1)) hL hring hnd
      hdeg h.mem hint fuel (by nlinarith)
    refine ⟨{ mem := m2, top := 0 }, by simp [FibonacciHeap.clear, ht, h1], rfl, ?_⟩
    exact { forest := forest_empty _ _, top_head := rfl, top_le := by simp, cleared := by simp,
            fresh := by simp, brk_pos := by show 0 < m2.brk; rw [h2]; exact I.brk_pos }

end

section

theorem topValue_null {h : FibonacciHeap} (h0 : h.top = 0) : h.topValue = .error .nullDeref := by
  simp [FibonacciHeap.topValue, Store.get, Store.deref, h0]

theorem pop_null {h : FibonacciHeap} (h0 : h.top = 0) (fuel : Nat) :
    h.pop fuel = .error .nullDeref := by
  simp [FibonacciHeap.pop, Store.get, Store.deref, h0]

theorem top_null_of_empty {h : FibonacciHeap} {roots : List Ptr} {kids : Ptr → List Ptr}
    (I : HeapInv h ∅ roots kids) : h.top = 0 := by
  have := I.empty_iff.2 rfl
  simpa [FibonacciHeap.empty] using this

theorem topValue_ok {h : FibonacciHeap} {N : Finset Ptr} {roots : List Ptr}
    {kids : Ptr → List Ptr} (I : HeapInv h N roots kids) (hN : N.Nonempty) :
    h.topValue = .ok (h.mem.value h.top) := by
  have ht := I.forest.roots_mem _ (I.top_mem hN)
  exact get_ok (I.forest.valid ht) _

/-- The value at the top of a well-formed heap is determined by the values it holds. -/
theorem top_value_eq {h1 h2 : FibonacciHeap} {N1 N2 : Finset Ptr} {roots1 roots2 : List Ptr}
    {kids1 kids2 : Ptr → List Ptr} (I1 : HeapInv h1 N1 roots1 kids1)
    (I2 : HeapInv h2 N2 roots2 kids2) (hc : contents h1 N1 = contents h2 N2)
    (hN1 : N1.Nonempty) (hN2 : N2.Nonempty) :
    h1.mem.value h1.top = h2.mem.value h2.top := by
  have t1 := I1.forest.roots_mem _ (I1.top_mem hN1)
  have t2 := I2.forest.roots_mem _ (I2.top_mem hN2)
  have m1 : h1.mem.value h1.top ∈ contents h2 N2 := by
    rw [← hc]; exact Multiset.mem_map_of_mem _ t1
  have m2 : h2.mem.value h2.top ∈ contents h1 N1 := by
    rw [hc]; exact Multiset.mem_map_of_mem _ t2
  obtain ⟨x, hx, ex⟩ := Multiset.mem_map.1 m1
  obtain ⟨y, hy, ey⟩ := Multiset.mem_map.1 m2
  apply le_antisymm
  · rw [← ey]; exact I1.top_min hy
  · rw [← ex]; exact I2.top_min hx

theorem card_eq_of_contents {h1 h2 : FibonacciHeap} {N1 N2 : Finset Ptr}
    (hc : contents h1 N1 = contents h2 N2) : N1.card = N2.card := by
  rw [← card_contents h1 N1, ← card_contents h2 N2, hc]

/-- On well-formed heaps the values returned by a sequence of calls depend only on the
values the heap holds. -/
theorem trace_contents (fuel : Nat) (ops : List Op) :
    ∀ (h1 : FibonacciHeap) (N1 : Finset Ptr) (h2 : FibonacciHeap) (N2 : Finset Ptr),
    WF h1 N1 → WF h2 N2 → contents h1 N1 = contents h2 N2 →
    (N1.card + pushes ops) ^ 2 ≤ fuel → trace fuel ops h1 = trace fuel ops h2 := by
  induction ops with
  | nil => intro _ _ _ _ _ _ _ _; rfl
  | cons op ops ih =>
    intro h1 N1 h2 N2 ⟨roots1, kids1, I1⟩ ⟨roots2, kids2, I2⟩ hc hfuel
    have hcard := card_eq_of_contents hc
    cases op with
    | push v =>
      obtain ⟨g1, r1, k1, hp1, J1, hn1, hv1, _, _⟩ := push_spec I1 v
      obtain ⟨g2, r2, k2, hp2, J2, hn2, hv2, _, _⟩ := push_spec I2 v
      simp only [trace, hp1, hp2]
      apply ih g1 _ g2 _ ⟨r1, k1, J1⟩ ⟨r2, k2, J2⟩
      · rw [contents_insert hn1 hv1, contents_insert hn2 hv2, hc]
      · rw [Finset.card_insert_of_not_mem hn1]
        simp only [pushes] at hfuel
        rw [show N1.card + 1 + pushes ops = N1.card + (pushes ops + 1) by omega]
        exact hfuel
    | pop =>
      simp only [pushes] at hfuel
      have hf1 : N1.card ^ 2 ≤ fuel :=
        le_trans (Nat.pow_le_pow_left (Nat.le_add_right _ _) 2) hfuel
      have hf2 : N2.card ^ 2 ≤ fuel := by rw [← hcard]; exact hf1
      rcases Finset.eq_empty_or_nonempty N1 with e1 | hN1
      · have e2 : N2 = ∅ := by
          apply Finset.card_eq_zero.1
          rw [← hcard, e1]; rfl
        subst e1; subst e2
        simp only [trace, pop_null (top_null_of_empty I1), pop_null (top_null_of_empty I2)]
      · have hN2 : N2.Nonempty := by
          rw [← Finset.card_pos, ← hcard]; exact Finset.card_pos.2 hN1
        have hv := top_value_eq I1 I2 hc hN1 hN2
        rcases pop_spec I1 hN1 hf1 with ⟨c1, g1, r1, k1, hp1, J1, hv1⟩ | ⟨c1, hp1⟩
        · rcases pop_spec I2 hN2 hf2 with ⟨c2, g2, r2, k2, hp2, J2, hv2⟩ | ⟨c2, hp2⟩
          · simp only [trace, hp1, hp2, hv]
            congr 1
            apply ih g1 _ g2 _ ⟨r1, k1, J1⟩ ⟨r2, k2, J2⟩
            · have t1 := I1.forest.roots_mem _ (I1.top_mem hN1)
              have t2 := I2.forest.roots_mem _ (I2.top_mem hN2)
              have a1 := contents_erase t1 hv1
              have a2 := contents_erase t2 hv2
              rw [a1, a2, hv] at hc
              exact (Multiset.cons_inj_right _).1 hc
            · refine le_trans (Nat.pow_le_pow_left ?_ 2) hfuel
              exact Nat.add_le_add_right (Finset.card_erase_le) _
          · omega
        · rcases pop_spec I2 hN2 hf2 with ⟨c2, g2, r2, k2, hp2, J2, hv2⟩ | ⟨c2, hp2⟩
          · omega
          · simp only [trace, hp1, hp2]
    | top =>
      simp only [pushes] at hfuel
      rcases Finset.eq_empty_or_nonempty N1 with e1 | hN1
      · have e2 : N2 = ∅ := by
          apply Finset.card_eq_zero.1
          rw [← hcard, e1]; rfl
        subst e1; subst e2
        simp only [trace, topValue_null (top_null_of_empty I1),
          topValue_null (top_null_of_empty I2)]
      · have hN2 : N2.Nonempty := by
          rw [← Finset.card_pos, ← hcard]; exact Finset.card_pos.2 hN1
        have hv := top_value_eq I1 I2 hc hN1 hN2
        simp only [trace, topValue_ok I1 hN1, topValue_ok I2 hN2, hv]
        congr 1
        exact ih h1 N1 h2 N2 ⟨roots1, kids1, I1⟩ ⟨roots2, kids2, I2⟩ hc hfuel

/-- Every heap a sequence of calls returns is well formed, whatever the budget. -/
theorem runOps_wf (fuel : Nat) (ops : List Op) : ∀ (h : FibonacciHeap) (N : Finset Ptr),
    WF h N → ∀ h2, runOps fuel ops h = .ok h2 → ∃ N2, WF h2 N2 ∧ N2.card ≤ N.card + pushes ops := by
  induction ops with
  | nil =>
    intro h N W h2 hr
    have : h = h2 := by simpa [runOps] using hr
    subst this
    exact ⟨N, W, Nat.le_add_right _ _⟩
  | cons op ops ih =>
    intro h N ⟨roots, kids, I⟩ h2 hr
    cases op with
    | push v =>
      obtain ⟨g, r, k, hp, J, hn, _, _, _⟩ := push_spec I v
      simp only [runOps, hp, ok_bind] at hr
      obtain ⟨N2, W2, hc⟩ := ih g _ ⟨r, k, J⟩ h2 hr
      refine ⟨N2, W2, ?_⟩
      rw [Finset.card_insert_of_not_mem hn] at hc
      simp only [pushes]; omega
    | pop =>
      rcases Finset.eq_empty_or_nonempty N with e | hN
      · subst e
        simp [runOps, pop_null (top_null_of_empty I)] at hr
      · cases hp : h.pop fuel with
        | error e => simp [runOps, hp] at hr
        | ok r =>
          obtain ⟨v, g⟩ := r
          simp only [runOps, hp, ok_bind] at hr
          have hbig := pop_mono (Nat.le_max_left fuel (N.card ^ 2)) h _ hp
          rcases pop_spec I hN (Nat.le_max_right fuel (N.card ^ 2)) with
            ⟨_, g1, r1, k1, hp1, J1, _⟩ | ⟨_, hp1⟩
          · rw [hp1] at hbig
            have hg : g1 = g := by
              have := Except.ok.inj hbig
              exact (Prod.mk.inj this).2
            subst hg
            obtain ⟨N2, W2, hc⟩ := ih g1 _ ⟨r1, k1, J1⟩ h2 hr
            refine ⟨N2, W2, ?_⟩
            have := Finset.card_erase_le (s := N) (a := h.top)
            simp only [pushes]; omega
          · rw [hp1] at hbig
            exact absurd hbig (by simp)
    | top =>
      cases ht : h.topValue with
      | error e => simp [runOps, ht] at hr
      | ok v =>
        simp only [runOps, ht, ok_bind] at hr
        obtain ⟨N2, W2, hc⟩ := ih h N ⟨roots, kids, I⟩ h2 hr
        exact ⟨N2, W2, by simp only [pushes]; omega⟩

theorem pushes_le_length : ∀ ops : List Op, pushes ops ≤ ops.length
  | [] => Nat.le_refl _
  | .push _ :: ops => Nat.succ_le_succ (pushes_le_length ops)
  | .pop :: ops => Nat.le_succ_of_le (pushes_le_length ops)
  | .top :: ops => Nat.le_succ_of_le (pushes_le_length ops)

theorem isOk_iff {α : Type} (r : Res α) : Except.isOk r = true ↔ ∃ a, r = .ok a := by
  cases r with
  | error e => simp [Except.isOk, Except.toBool]
  | ok a => simp [Except.isOk, Except.toBool]

/-- C6: for every heap reached from the freshly constructed heap by a sequence of calls,
`clear()` returns, `empty()` is true afterwards, and every later sequence of `push`, `top`
and `pop` calls returns the same values as on a freshly constructed heap. -/
theorem clear_resets_state (ops1 ops2 : List Op) (fuel1 fuel : Nat)
    (hreach : Except.isOk (runOps fuel1 ops1 FibonacciHeap.init) = true)
    (hf1 : (ops1.length + 3) ^ 2 ≤ fuel) (hf2 : ops2.length ^ 2 ≤ fuel) :
    ∃ h hc, runOps fuel1 ops1 FibonacciHeap.init = .ok h ∧ h.clear fuel = .ok hc ∧
      hc.empty = true ∧ trace fuel ops2 hc = trace fuel ops2 FibonacciHeap.init := by
  obtain ⟨h, hr⟩ := (isOk_iff _).1 hreach
  obtain ⟨N, ⟨roots, kids, I⟩, hc⟩ := runOps_wf fuel1 ops1 _ ∅ ⟨_, _, heapInv_init⟩ h hr
  have hlen := pushes_le_length ops1
  simp only [Finset.card_empty, Nat.zero_add] at hc
  obtain ⟨g, hg, ht, J⟩ := clear_spec I
    (le_trans (Nat.pow_le_pow_left (by omega : N.card + 3 ≤ ops1.length + 3) 2) hf1)
  refine ⟨h, g, hr, hg, by simp [FibonacciHeap.empty, ht], ?_⟩
  apply trace_contents fuel ops2 g ∅ _ ∅ ⟨_, _, J⟩ ⟨_, _, heapInv_init⟩ rfl
  simp only [Finset.card_empty, Nat.zero_add]
  exact le_trans (Nat.pow_le_pow_left (pushes_le_length ops2) 2) hf2

/-- C6, witness: three pushes and a pop, then `clear()`, then two pushes, a `top` and
three pops, the last of them on the empty heap. -/
theorem clear_resets_state_witness :
    Except.isOk (runOps 9 [.push 5, .push 3, .push 8, .pop] FibonacciHeap.init) = true ∧
    ∃ h hc, runOps 9 [.push 5, .push 3, .push 8, .pop] FibonacciHeap.init = .ok h ∧
      h.clear 49 = .ok hc ∧ hc.empty = true ∧
      trace 49 [.push 2, .push 7, .top, .pop, .pop, .pop] hc
        = trace 49 [.push 2, .push 7, .top, .pop, .pop, .pop] FibonacciHeap.init :=
  ⟨by rfl, clear_resets_state [.push 5, .push 3, .push 8, .pop]
    [.push 2, .push 7, .top, .pop, .pop, .pop] 9 49 (by rfl) (by decide) (by decide)⟩

end

section

/-! ## Claims C11, C12, C15: roots after `decrease_key` -/

/-- C11, failing input: push 9, 3, 17; pop; `decrease_key(h3, 5)`. The node of `h3` was a
child of the node of 9 (handle `p`); when `decrease_key` returns it is the heap's top, it
lies in the root list next to `p`, and its `parent` is still `p`, not null. -/
theorem cut_root_keeps_parent :
    (do
      let (p, h) ← FibonacciHeap.init.push 9
      let (_, h) ← h.push 3
      let (h3, h) ← h.push 17
      let (_, h) ← h.pop 9
      let h ← h.decrease_key 9 h3 5
      pure (decide (h.top = h3), decide (h.mem.next h3 = p) && decide (h.mem.next p = h3),
        decide (h.mem.parent h3 = p), h.mem.parent h3)
        : Res (Bool × Bool × Bool × Ptr)) = .ok (true, true, true, 1) :=
  rfl

/-- C12, failing input: push 0, 1, ..., 8; pop; `decrease_key(h7, 4)`;
`decrease_key(h8, 3)`. After the pop the node of `h6` has the parent `r` (the top) and the
children `h7` and `h8`. The first call marks `h6`; the second one cuts `h8`, finds `h6`
marked and moves it to the root list, and then marks it again: `h6` is a marked root. -/
theorem cut_root_is_marked :
    (do
      let (_, h) ← FibonacciHeap.init.push 0
      let (r, h) ← h.push 1
      let (_, h) ← h.push 2
      let (_, h) ← h.push 3
      let (_, h) ← h.push 4
      let (h6, h) ← h.push 5
      let (h7, h) ← h.push 6
      let (h8, h) ← h.push 7
      let (_, h) ← h.push 8
      let (_, h) ← h.pop 64
      let before : Bool × Bool × Bool :=
        (decide (h.mem.parent h6 = r),
          decide (h.mem.parent h7 = h6) && decide (h.mem.parent h8 = h6), h.mem.marked h6)
      let h ← h.decrease_key 64 h7 4
      let first := h.mem.marked h6
      let h ← h.decrease_key 64 h8 3
      pure (before, first, decide (h.top = r), decide (h.mem.next h6 = r), h.mem.marked h6)
        : Res ((Bool × Bool × Bool) × Bool × Bool × Bool × Bool))
      = .ok ((true, true, false), true, true, true, true) :=
  rfl

/-- C15, failing input: push 0, 10, 20, 1; pop; `decrease_key(h3, 5)`; `decrease_key(h3, 4)`;
pop. Three elements are in the heap. The second `decrease_key` leaves the root `p` (the
node of 10) with degree -1, and the next `pop` uses that degree as an index into
`degree_map`. -/
theorem degree_index_negative :
    (do
      let (_, h) ← FibonacciHeap.init.push 0
      let (p, h) ← h.push 10
      let (h3, h) ← h.push 20
      let (t, h) ← h.push 1
      let (_, h) ← h.pop 16
      let h ← h.decrease_key 16 h3 5
      let h ← h.decrease_key 16 h3 4
      pure (decide (h.top = t), decide (h.mem.next t = p), h.mem.degree p,
        slot (h.mem.degree p), h.pop 16)
        : Res (Bool × Bool × Int × Res Nat × Res (Int × FibonacciHeap)))
      = .ok (true, true, -1, .error .outOfBounds, .error .outOfBounds) :=
  rfl

end

section

/-! ## Claims C16, C17: the list primitives `join` and `cut` -/

theorem joinMem_next_frame (m : Store) (a b : Ptr) {z : Ptr} (h1 : z ≠ a) (h2 : z ≠ m.prev b) :
    (joinMem m a b).next z = m.next z := by
  simp [joinMem, upd, h1, h2]

theorem joinMem_prev_frame (m : Store) (a b : Ptr) {z : Ptr} (h1 : z ≠ b) (h2 : z ≠ m.next a) :
    (joinMem m a b).prev z = m.prev z := by
  simp [joinMem, upd, h1, h2]

theorem splice_perm (a b : Ptr) (A B : List Ptr) :
    (a :: b :: (B ++ A)).Perm (a :: A ++ b :: B) := by
  rw [List.cons_append]
  refine List.Perm.cons a ?_
  have h1 : (b :: (B ++ A)).Perm ((b :: B) ++ A) := by rw [List.cons_append]
  exact h1.trans List.perm_append_comm

/-- C17: for two nodes `a` and `b` in two distinct circular lists `a :: A` and `b :: B`
(all nodes allocated, no node twice), `a.join(b)` returns `a` if the key of `a` compares
smaller than the key of `b` and `b` otherwise, and leaves the single circular list
`a, b, B, A`, whose members are those of both lists, each once; no value and no node
outside the two lists is changed. And `a.join(null)` changes nothing and returns `a`. -/
theorem join_splices {m : Store} {a b : Ptr} {A B : List Ptr}
    (hA : IsRing m (a :: A)) (hB : IsRing m (b :: B)) (hnd : (a :: A ++ b :: B).Nodup)
    (hv : ∀ x ∈ a :: A ++ b :: B, Valid m x) :
    (∃ m2, Node.join m a b = .ok (if m.value a < m.value b then a else b, m2) ∧
      IsRing m2 (a :: b :: (B ++ A)) ∧ (a :: b :: (B ++ A)).Nodup ∧
      (a :: b :: (B ++ A)).Perm (a :: A ++ b :: B) ∧ m2.value = m.value ∧
      ∀ z, z ∉ a :: A ++ b :: B → m2.next z = m.next z ∧ m2.prev z = m.prev z) ∧
    Node.join m a 0 = .ok (a, m) := by
  refine ⟨?_, join_null m a⟩
  have ha : a ∈ a :: A ++ b :: B := by simp
  have hb : b ∈ a :: A ++ b :: B := by simp
  have hna : m.next a ∈ a :: A ++ b :: B :=
    List.mem_append_left _ (isRing_next_mem hA (List.mem_cons_self _ _))
  have hpb : m.prev b ∈ a :: A ++ b :: B :=
    List.mem_append_right _ (isRing_prev_mem hB (List.mem_cons_self _ _))
  refine ⟨joinMem m a b, ?_, isRing_join hA hB hnd, ?_, splice_perm a b A B, rfl, ?_⟩
  · rw [join_ok (hv b hb).1 (hv a ha) (hv b hb) (hv _ hna) (hv _ hpb)]
    rfl
  · exact (splice_perm a b A B).nodup_iff.2 hnd
  · intro z hz
    have h1 : z ≠ a := fun h => hz (h ▸ ha)
    have h2 : z ≠ b := fun h => hz (h ▸ hb)
    have h3 : z ≠ m.next a := fun h => hz (h ▸ hna)
    have h4 : z ≠ m.prev b := fun h => hz (h ▸ hpb)
    exact ⟨joinMem_next_frame m a b h1 h4, joinMem_prev_frame m a b h2 h3⟩

theorem exampleStore_valid : ∀ x ∈ [1, 2] ++ [3], Valid exampleStore x := by
  intro x hx
  simp only [List.cons_append, List.nil_append, List.mem_cons, List.mem_singleton,
    List.not_mem_nil, or_false] at hx
  rcases hx with rfl | rfl | rfl <;> exact ⟨by decide, rfl⟩

theorem exampleStore_ring : IsRing exampleStore [1, 2] ∧ IsRing exampleStore [3] := by
  refine ⟨?_, (isRing_singleton _ _).2 ⟨rfl, rfl⟩⟩
  rw [isRing_cons_cons, seg_nil]
  exact ⟨⟨rfl, rfl⟩, ⟨rfl, rfl⟩⟩

/-- C17, witness: the list of the nodes 1, 2 joined with the list of node 3. -/
theorem join_splices_witness :
    IsRing exampleStore [1, 2] ∧ IsRing exampleStore [3] ∧ ([1, 2] ++ [3]).Nodup ∧
    (∀ x ∈ [1, 2] ++ [3], Valid exampleStore x) ∧
    ((∃ m2, Node.join exampleStore 1 3
        = .ok (if exampleStore.value 1 < exampleStore.value 3 then 1 else 3, m2) ∧
      IsRing m2 (1 :: 3 :: ([] ++ [2])) ∧ (1 :: 3 :: ([] ++ [2])).Nodup ∧
      (1 :: 3 :: ([] ++ [2])).Perm ([1, 2] ++ [3]) ∧ m2.value = exampleStore.value ∧
      ∀ z, z ∉ [1, 2] ++ [3] → m2.next z = exampleStore.next z ∧
        m2.prev z = exampleStore.prev z) ∧
    Node.join exampleStore 1 0 = .ok (1, exampleStore)) :=
  ⟨exampleStore_ring.1, exampleStore_ring.2, by decide, exampleStore_valid,
    join_splices exampleStore_ring.1 exampleStore_ring.2 (by decide) exampleStore_valid⟩

theorem cutMem_value (m : Store) (u : Ptr) : (cutMem m u).value = m.value := by
  unfold cutMem; split_ifs <;> rfl

theorem cutMem_live (m : Store) (u : Ptr) : (cutMem m u).live = m.live := by
  unfold cutMem; split_ifs <;> rfl

theorem cutMem_parent (m : Store) (u : Ptr) : (cutMem m u).parent = m.parent := by
  unfold cutMem; split_ifs <;> rfl

theorem cutMem_degree (m : Store) (u : Ptr) :
    (cutMem m u).degree = upd m.degree (m.parent u) (m.degree (m.parent u) - 1) := by
  unfold cutMem; split_ifs <;> rfl

theorem cutMem_child (m : Store) (u : Ptr) :
    (cutMem m u).child = upd m.child (m.parent u) (if u = m.next u then 0 else m.next u) := by
  unfold cutMem; split_ifs <;> rfl

theorem cutMem_next (m : Store) (u : Ptr) (hpn : m.next (m.prev u) = u) :
    (cutMem m u).next = upd (upd m.next (m.prev u) (m.next u)) u u := by
  unfold cutMem
  split_ifs with h
  · funext z
    by_cases hz : z = u
    · simp [upd, hz]
    · simp only [upd, hz, if_false]
      split_ifs with h2
      · rw [h2, hpn]; exact h
      · rfl
  · rfl

theorem cutMem_prev (m : Store) (u : Ptr) :
    (cutMem m u).prev = upd (upd m.prev (m.next u) (m.prev u)) u u := by
  unfold cutMem
  split_ifs with h
  · funext z
    by_cases hz : z = u
    · simp [upd, hz]
    · simp only [upd, hz, if_false]
      split_ifs with h2
      · exact absurd (h2.trans h.symm) hz
      · rfl
  · rfl

/-- With a parent, `A.cut(u)` is the block that takes `u` out of its list followed by
`u->join(A)`. -/
theorem cut_eq {m : Store} {self u : Ptr} (vu : Valid m u)
    (vp : Valid m (m.parent u)) (vn : Valid m (m.next u)) (vpv : Valid m (m.prev u)) :
    Node.cut m self u = Node.join (cutMem m u) u self := by
  by_cases h : u = m.next u
  · have h2 : m.next u = u := h.symm
    simp [Node.cut, get_eq, setPrev_eq, setNext_eq, setChild_eq, setDegree_eq, vu.1, vu.2,
      vp.1, vp.2, h2, cutMem]
  · simp [Node.cut, get_eq, setPrev_eq, setNext_eq, setChild_eq, setDegree_eq, vu.1, vu.2,
      vp.1, vp.2, vn.1, vn.2, vpv.1, vpv.2, h, cutMem, upd_self_read]

/-- Without a parent, `A.cut(u)` is `u->join(A)`: `u` is not taken out of its list. -/
theorem cut_no_parent {m : Store} {self u : Ptr} (vu : Valid m u) (hp : m.parent u = 0) :
    Node.cut m self u = Node.join m u self := by
  simp [Node.cut, get_eq, vu.1, vu.2, hp]

/-- Let `u` lie in the circular list `u :: L` and `a` in a different circular list
`a :: LA`. If `u` has a parent, `a.cut(u)` leaves the other members `L` of the list of `u`
linked as a circular list, splices `u` alone into the list of `a`, decreases the degree
of the parent by exactly one, and sets the child reference of the parent to null if `u`
was the only member and to the remaining member `u->next` otherwise. If `u` has no
parent, the result of `a.cut(u)` is that of `u->join(a)`: the whole list of `u` is in
the list of `a`. In both cases the pointer returned is `u` if the key of `u` compares
smaller than the key of `a`, and `a` otherwise, and no value or parent field changes. -/
theorem cut_removes_only {m : Store} {u a : Ptr} {L LA : List Ptr}
    (hU : IsRing m (u :: L)) (hS : IsRing m (a :: LA)) (hnd : (u :: L ++ a :: LA).Nodup)
    (hv : ∀ x ∈ u :: L ++ a :: LA, Valid m x)
    (vp : m.parent u ≠ 0 → Valid m (m.parent u)) :
    ∃ m2, Node.cut m a u = .ok (if m.value u < m.value a then u else a, m2) ∧
      m2.value = m.value ∧ m2.parent = m.parent ∧
      if m.parent u = 0 then
        IsRing m2 (u :: a :: (LA ++ L)) ∧ m2.degree = m.degree ∧ m2.child = m.child
      else
        IsRing m2 L ∧ IsRing m2 (u :: a :: LA) ∧
        m2.degree (m.parent u) = m.degree (m.parent u) - 1 ∧
        m2.child (m.parent u) = (if L = [] then 0 else L.headI) ∧
        (L ≠ [] → L.headI = m.next u) := by
  have hu : u ∈ u :: L ++ a :: LA := by simp
  have ha : a ∈ u :: L ++ a :: LA := by simp
  have hnu : m.next u ∈ u :: L ++ a :: LA :=
    List.mem_append_left _ (isRing_next_mem hU (List.mem_cons_self _ _))
  have hpu : m.prev u ∈ u :: L ++ a :: LA :=
    List.mem_append_left _ (isRing_prev_mem hU (List.mem_cons_self _ _))
  have hpa : m.prev a ∈ u :: L ++ a :: LA :=
    List.mem_append_right _ (isRing_prev_mem hS (List.mem_cons_self _ _))
  by_cases hp : m.parent u = 0
  · -- no parent: the two lists are joined
    refine ⟨joinMem m u a, ?_, rfl, rfl, ?_⟩
    · rw [cut_no_parent (hv u hu) hp,
        join_ok (hv a ha).1 (hv u hu) (hv a ha) (hv _ hnu) (hv _ hpa)]
      rfl
    · rw [if_pos hp]
      exact ⟨isRing_join hU hS hnd, rfl, rfl⟩
  · -- with a parent
    have hnd2 := hnd
    rw [List.nodup_append] at hnd2
    obtain ⟨ndU, ndS, hdisj⟩ := hnd2
    have hpn : m.next (m.prev u) = u := (isRing_prev_next hU (List.mem_cons_self _ _)).2
    have hnext := cutMem_next m u hpn
    have hprev := cutMem_prev m u
    have haU : a ∉ u :: L := fun h => hdisj h (List.mem_cons_self _ _)
    have hau : a ≠ u := fun h => haU (h ▸ List.mem_cons_self _ _)
    -- the list of `a` is untouched by the block
    have hframeS : ∀ z ∈ a :: LA, (cutMem m u).next z = m.next z ∧
        (cutMem m u).prev z = m.prev z := by
      intro z hz
      have hzU : z ∉ u :: L := fun h => hdisj h hz
      have h1 : z ≠ u := fun h => hzU (h ▸ List.mem_cons_self _ _)
      have h2 : z ≠ m.prev u :=
        fun h => hzU (h ▸ isRing_prev_mem hU (List.mem_cons_self _ _))
      have h3 : z ≠ m.next u :=
        fun h => hzU (h ▸ isRing_next_mem hU (List.mem_cons_self _ _))
      rw [hnext, hprev]
      simp [upd, h1, h2, h3]
    have hS2 : IsRing (cutMem m u) (a :: LA) :=
      isRing_frame (fun z hz => (hframeS z hz).1) (fun z hz => (hframeS z hz).2) hS
    have hU2 : IsRing (cutMem m u) [u] := by
      rw [isRing_singleton, hnext, hprev]
      simp
    have hL2 : IsRing (cutMem m u) L :=
      isRing_unlink hU ndU (fun x hx => by
        rw [hnext]
        have hxu : x ≠ u := fun h => (List.nodup_cons.1 ndU).1 (h ▸ hx)
        rw [upd_other _ _ hxu]) (fun x hx => by
        rw [hprev]
        have hxu : x ≠ u := fun h => (List.nodup_cons.1 ndU).1 (h ▸ hx)
        rw [upd_other _ _ hxu])
    have huS : u ∉ a :: LA := fun h => hdisj (List.mem_cons_self _ _) h
    have hnd3 : ([u] ++ a :: LA).Nodup := by
      rw [List.singleton_append, List.nodup_cons]
      exact ⟨huS, ndS⟩
    have hval : ∀ x, Valid m x → Valid (cutMem m u) x := by
      intro x hx
      exact ⟨hx.1, by rw [cutMem_live]; exact hx.2⟩
    have hnu2 : (cutMem m u).next u = u := by rw [hnext]; simp
    have hpa2 : (cutMem m u).prev a = m.prev a := (hframeS a (List.mem_cons_self _ _)).2
    have hhead : m.next u = (L ++ [u]).headI := isRing_next_head hU
    refine ⟨joinMem (cutMem m u) u a, ?_, ?_, ?_, ?_⟩
    · rw [cut_eq (hv u hu) (vp hp) (hv _ hnu) (hv _ hpu),
        join_ok (hv a ha).1 (hval _ (hv u hu)) (hval _ (hv a ha))
          (by rw [hnu2]; exact hval _ (hv u hu)) (by rw [hpa2]; exact hval _ (hv _ hpa))]
      simp only [joinTop, cutMem_value]
    · exact cutMem_value m u
    · exact cutMem_parent m u
    · rw [if_neg hp]
      refine ⟨?_, ?_, ?_, ?_, ?_⟩
      · apply isRing_frame _ _ hL2
        · intro z hz
          have hzU : z ∈ u :: L := List.mem_cons_of_mem _ hz
          have h1 : z ≠ u := fun h => (List.nodup_cons.1 ndU).1 (h ▸ hz)
          have h2 : z ≠ (cutMem m u).prev a := by
            rw [hpa2]
            exact fun h => hdisj hzU (h ▸ isRing_prev_mem hS (List.mem_cons_self _ _))
          exact joinMem_next_frame _ u a h1 h2
        · intro z hz
          have hzU : z ∈ u :: L := List.mem_cons_of_mem _ hz
          have h1 : z ≠ a := fun h => hdisj hzU (h ▸ List.mem_cons_self _ _)
          have h2 : z ≠ (cutMem m u).next u := by
            rw [hnu2]
            exact fun h => (List.nodup_cons.1 ndU).1 (h ▸ hz)
          exact joinMem_prev_frame _ u a h1 h2
      · have := isRing_join hU2 hS2 hnd3
        simpa using this
      · show (cutMem m u).degree (m.parent u) = _
        rw [cutMem_degree, upd_same]
      · show (cutMem m u).child (m.parent u) = _
        rw [cutMem_child, upd_same]
        cases L with
        | nil =>
          have : m.next u = u := by simpa using hhead
          simp [this]
        | cons c L2 =>
          have hc : m.next u = c := by simpa using hhead
          have hcu : u ≠ c := fun h => (List.nodup_cons.1 ndU).1 (h ▸ List.mem_cons_self _ _)
          simp [hc, hcu]
      · intro hL
        cases L with
        | nil => exact absurd rfl hL
        | cons c L2 => simpa using hhead.symm

theorem exampleTree_ring : IsRing exampleTree [3, 2] ∧ IsRing exampleTree [4] := by
  refine ⟨?_, (isRing_singleton _ _).2 ⟨rfl, rfl⟩⟩
  rw [isRing_cons_cons, seg_nil]
  exact ⟨⟨rfl, rfl⟩, ⟨rfl, rfl⟩⟩

theorem exampleTree_valid : ∀ x ∈ [3, 2] ++ [4], Valid exampleTree x := by
  intro x hx
  simp only [List.cons_append, List.nil_append, List.mem_cons, List.mem_singleton,
    List.not_mem_nil, or_false] at hx
  rcases hx with rfl | rfl | rfl <;> exact ⟨by decide, rfl⟩

/-- Example: node 3, a child of node 1 with the sibling 2, is cut into the list of
node 4. -/
theorem cut_removes_only_witness :
    IsRing exampleTree [3, 2] ∧ IsRing exampleTree [4] ∧ ([3, 2] ++ [4]).Nodup ∧
    (∀ x ∈ [3, 2] ++ [4], Valid exampleTree x) ∧
    (exampleTree.parent 3 ≠ 0 → Valid exampleTree (exampleTree.parent 3)) ∧
    ∃ m2, Node.cut exampleTree 4 3
        = .ok (if exampleTree.value 3 < exampleTree.value 4 then 3 else 4, m2) ∧
      m2.value = exampleTree.value ∧ m2.parent = exampleTree.parent ∧
      if exampleTree.parent 3 = 0 then
        IsRing m2 (3 :: 4 :: ([] ++ [2])) ∧ m2.degree = exampleTree.degree ∧
          m2.child = exampleTree.child
      else
        IsRing m2 [2] ∧ IsRing m2 (3 :: 4 :: []) ∧
        m2.degree (exampleTree.parent 3) = exampleTree.degree (exampleTree.parent 3) - 1 ∧
        m2.child (exampleTree.parent 3) = (if [2] = [] then 0 else [2].headI) ∧
        (([2] : List Ptr) ≠ [] → [2].headI = exampleTree.next 3) :=
  ⟨exampleTree_ring.1, exampleTree_ring.2, by decide, exampleTree_valid,
    fun _ => ⟨by decide, rfl⟩,
    cut_removes_only exampleTree_ring.1 exampleTree_ring.2 (by decide) exampleTree_valid
      (fun _ => ⟨by decide, rfl⟩)⟩

/-- C16, failing input: the nodes 1, 2, 3 hold 5, 3, 8; after `1.join(2)` the nodes 1 and
2 form one circular list, node 3 is alone, no node has a parent. Then `3.cut(1)` leaves
the three nodes in one list 1, 3, 2: node 1 was not removed from its list, and node 2
went into the list of node 3 with it. -/
theorem cut_without_parent_moves_list :
    (do
      let (_, m2) ← Node.cut exampleStore 3 1
      pure (exampleStore.parent 1, exampleStore.next 1, exampleStore.next 2,
        exampleStore.next 3, m2.next 1, m2.next 3, m2.next 2)
        : Res (Ptr × Ptr × Ptr × Ptr × Ptr × Ptr × Ptr)) = .ok (0, 2, 1, 3, 3, 2, 1) :=
  rfl

end

section

theorem post_ok {α : Type} {a : α} {Q : α → Prop} (h : Q a) : Post (Except.ok a : Res α) Q := by
  intro b hb
  cases hb
  exact h

theorem post_pure {α : Type} {a : α} {Q : α → Prop} (h : Q a) : Post (pure a : Res α) Q :=
  post_ok h

theorem post_error {α : Type} {e : Fault} {Q : α → Prop} : Post (Except.error e : Res α) Q := by
  intro b hb
  cases hb

theorem post_bind {α β : Type} {x : Res α} {f : α → Res β} {Q : β → Prop} (P : α → Prop)
    (hx : Post x P) (hf : ∀ a, P a → Post (f a) Q) : Post (x >>= f) Q := by
  intro b hb
  cases x with
  | error e => cases hb
  | ok a => exact hf a (hx a rfl) b hb

theorem post_mono {α : Type} {x : Res α} {P Q : α → Prop} (hx : Post x P)
    (h : ∀ a, P a → Q a) : Post x Q :=
  fun a ha => h a (hx a ha)

theorem post_and {α : Type} {x : Res α} {P Q : α → Prop} (hp : Post x P) (hq : Post x Q) :
    Post x (fun a => P a ∧ Q a) :=
  fun a ha => ⟨hp a ha, hq a ha⟩

theorem post_ite {α : Type} {c : Prop} [Decidable c] {x y : Res α} {Q : α → Prop}
    (hx : c → Post x Q) (hy : ¬ c → Post y Q) : Post (if c then x else y) Q := by
  split_ifs with h
  · exact hx h
  · exact hy h

theorem valid_of_deref {m : Store} {p : Ptr} (h : m.deref p = .ok ()) : Valid m p := by
  unfold Store.deref at h
  split_ifs at h with h1 h2
  exact ⟨h1, h2⟩

theorem post_get {α β : Type} {m : Store} {p : Ptr} {f : Ptr → α} {g : α → Res β}
    {Q : β → Prop} (h : Valid m p → Post (g (f p)) Q) : Post (m.get p f >>= g) Q := by
  by_cases v : Valid m p
  · rw [get_ok v]; exact h v
  · intro b hb
    cases hd : m.deref p with
    | error e => simp [Store.get, hd] at hb
    | ok u => exact absurd (valid_of_deref hd) v

theorem post_get_last {α : Type} {m : Store} {p : Ptr} {f : Ptr → α}
    {Q : α → Prop} (h : Valid m p → Q (f p)) : Post (m.get p f) Q := by
  by_cases v : Valid m p
  · rw [get_ok v]; exact post_ok (h v)
  · intro b hb
    cases hd : m.deref p with
    | error e => simp [Store.get, hd] at hb
    | ok u => exact absurd (valid_of_deref hd) v

theorem post_set {β : Type} {m : Store} {p : Ptr} {op : Res Store} {m2 : Store}
    {g : Store → Res β} {Q : β → Prop}
    (hop : Valid m p → op = .ok m2) (herr : ¬ Valid m p → ∀ a, op ≠ .ok a)
    (h : Valid m p → Post (g m2) Q) : Post (op >>= g) Q := by
  by_cases v : Valid m p
  · rw [hop v]; exact h v
  · intro b hb
    cases ho : op with
    | error e => rw [ho] at hb; cases hb
    | ok a => exact absurd ho (herr v a)

theorem set_err {m : Store} {p : Ptr} (f : Store) (hv : ¬ Valid m p) :
    ∀ a, (do m.deref p; pure f : Res Store) ≠ .ok a := by
  intro a ha
  cases hd : m.deref p with
  | error e => simp [hd] at ha
  | ok u => exact hv (valid_of_deref hd)

theorem post_setPrev {β : Type} {m : Store} {p v : Ptr} {g : Store → Res β} {Q : β → Prop}
    (h : Valid m p → Post (g { m with prev := upd m.prev p v }) Q) :
    Post (m.setPrev p v >>= g) Q :=
  post_set (fun hv => setPrev_ok hv v) (fun hv => set_err _ hv) h

theorem post_setNext {β : Type} {m : Store} {p v : Ptr} {g : Store → Res β} {Q : β → Prop}
    (h : Valid m p → Post (g { m with next := upd m.next p v }) Q) :
    Post (m.setNext p v >>= g) Q :=
  post_set (fun hv => setNext_ok hv v) (fun hv => set_err _ hv) h

theorem post_setParent {β : Type} {m : Store} {p v : Ptr} {g : Store → Res β} {Q : β → Prop}
    (h : Valid m p → Post (g { m with parent := upd m.parent p v }) Q) :
    Post (m.setParent p v >>= g) Q :=
  post_set (fun hv => setParent_ok hv v) (fun hv => set_err _ hv) h

theorem post_setChild {β : Type} {m : Store} {p v : Ptr} {g : Store → Res β} {Q : β → Prop}
    (h : Valid m p → Post (g { m with child := upd m.child p v }) Q) :
    Post (m.setChild p v >>= g) Q :=
  post_set (fun hv => setChild_ok hv v) (fun hv => set_err _ hv) h

theorem post_setDegree {β : Type} {m : Store} {p : Ptr} {v : Int} {g : Store → Res β}
    {Q : β → Prop}
    (h : Valid m p → Post (g { m with degree := upd m.degree p v }) Q) :
    Post (m.setDegree p v >>= g) Q :=
  post_set (fun hv => setDegree_ok hv v) (fun hv => set_err _ hv) h

theorem post_setMarked {β : Type} {m : Store} {p : Ptr} {v : Bool} {g : Store → Res β}
    {Q : β → Prop}
    (h : Valid m p → Post (g { m with marked := upd m.marked p v }) Q) :
    Post (m.setMarked p v >>= g) Q :=
  post_set (fun hv => setMarked_ok hv v) (fun hv => set_err _ hv) h

theorem post_setValue {β : Type} {m : Store} {p : Ptr} {v : Int} {g : Store → Res β}
    {Q : β → Prop}
    (h : Valid m p → Post (g { m with value := upd m.value p v }) Q) :
    Post (m.setValue p v >>= g) Q :=
  post_set (fun hv => setValue_ok hv v) (fun hv => set_err _ hv) h

theorem post_delete {β : Type} {m : Store} {p : Ptr} {g : Store → Res β} {Q : β → Prop}
    (h : Valid m p → Post (g { m with live := upd m.live p false }) Q) :
    Post (m.delete p >>= g) Q :=
  post_set (fun hv => delete_ok hv) (fun hv => set_err _ hv) h

theorem post_set_last {m : Store} {p : Ptr} {op : Res Store} {m2 : Store}
    {Q : Store → Prop}
    (hop : Valid m p → op = .ok m2) (herr : ¬ Valid m p → ∀ a, op ≠ .ok a)
    (h : Valid m p → Q m2) : Post op Q := by
  by_cases v : Valid m p
  · rw [hop v]; exact post_ok (h v)
  · intro b hb
    exact absurd hb (herr v b)

theorem post_setPrev_last {m : Store} {p v : Ptr} {Q : Store → Prop}
    (h : Valid m p → Q { m with prev := upd m.prev p v }) : Post (m.setPrev p v) Q :=
  post_set_last (fun hv => setPrev_ok hv v) (fun hv => set_err _ hv) h

theorem post_setNext_last {m : Store} {p v : Ptr} {Q : Store → Prop}
    (h : Valid m p → Q { m with next := upd m.next p v }) : Post (m.setNext p v) Q :=
  post_set_last (fun hv => setNext_ok hv v) (fun hv => set_err _ hv) h

theorem post_setChild_last {m : Store} {p v : Ptr} {Q : Store → Prop}
    (h : Valid m p → Q { m with child := upd m.child p v }) : Post (m.setChild p v) Q :=
  post_set_last (fun hv => setChild_ok hv v) (fun hv => set_err _ hv) h

theorem post_setDegree_last {m : Store} {p : Ptr} {v : Int} {Q : Store → Prop}
    (h : Valid m p → Q { m with degree := upd m.degree p v }) : Post (m.setDegree p v) Q :=
  post_set_last (fun hv => setDegree_ok hv v) (fun hv => set_err _ hv) h

theorem post_setMarked_last {m : Store} {p : Ptr} {v : Bool} {Q : Store → Prop}
    (h : Valid m p → Q { m with marked := upd m.marked p v }) : Post (m.setMarked p v) Q :=
  post_set_last (fun hv => setMarked_ok hv v) (fun hv => set_err _ hv) h

theorem join_valid (m : Store) (a b : Ptr) (hb : b ≠ 0) :
    Post (Node.join m a b) (fun _ =>
      Valid m a ∧ Valid m b ∧ Valid m (m.next a) ∧ Valid m (m.prev b)) := by
  unfold Node.join
  rw [if_neg hb]
  apply post_get; intro va
  apply post_get; intro vb
  apply post_setPrev; intro vn
  apply post_get; intro _
  apply post_get; intro _
  apply post_setNext; intro vp
  intro r _
  have vp2 : Valid m (upd m.prev (m.next a) (m.prev b) b) := vp
  rw [upd_self_read] at vp2
  exact ⟨va, vb, vn, vp2⟩

/-- What `self.join(u)` returns, whenever it returns. -/
theorem join_post (m : Store) (a b : Ptr) :
    Post (Node.join m a b) (fun r =>
      (b = 0 ∧ r = (a, m)) ∨
      (b ≠ 0 ∧ Valid m a ∧ Valid m b ∧ Valid m (m.next a) ∧ Valid m (m.prev b) ∧
        r = (joinTop m a b, joinMem m a b))) := by
  by_cases hb : b = 0
  · intro r hr
    rw [hb, join_null] at hr
    exact Or.inl ⟨hb, (Except.ok.inj hr).symm⟩
  · intro r hr
    obtain ⟨va, vb, vn, vp⟩ := join_valid m a b hb r hr
    rw [join_ok hb va vb vn vp] at hr
    exact Or.inr ⟨hb, va, vb, vn, vp, (Except.ok.inj hr).symm⟩

end

section

theorem joinMem_next (m : Store) (a b n : Ptr) : (joinMem m a b).next n
    = if n = a then b else if n = m.prev b then m.next a else m.next n := rfl

theorem joinMem_prev (m : Store) (a b n : Ptr) : (joinMem m a b).prev n
    = if n = b then a else if n = m.next a then m.prev b else m.prev n := rfl

theorem circ_join {m : Store} (C : Circ m) {a b : Ptr} (va : Valid m a) (vb : Valid m b) :
    Circ (joinMem m a b) := by
  have vA := C.next_valid a va
  have vB := C.prev_valid b vb
  have hA := C.prev_next a va
  have hB := C.next_prev b vb
  have key1 : ∀ n, Valid m n → m.next n = b → n = m.prev b := by
    intro n vn h; rw [← h, C.prev_next n vn]
  have key2 : ∀ n, Valid m n → m.next n = m.next a → n = a := by
    intro n vn h; rw [← C.prev_next n vn, h, hA]
  have key3 : ∀ n, Valid m n → m.prev n = a → n = m.next a := by
    intro n vn h; rw [← h, C.next_prev n vn]
  have key4 : ∀ n, Valid m n → m.prev n = m.prev b → n = b := by
    intro n vn h; rw [← C.next_prev n vn, h, hB]
  refine ⟨?_, ?_, ?_, ?_, C.fresh, C.brk_pos⟩
  · intro n vn
    show Valid m ((joinMem m a b).next n)
    rw [joinMem_next]
    split_ifs
    · exact vb
    · exact vA
    · exact C.next_valid n vn
  · intro n vn
    show Valid m ((joinMem m a b).prev n)
    rw [joinMem_prev]
    split_ifs
    · exact va
    · exact vB
    · exact C.prev_valid n vn
  · intro n vn
    have vn : Valid m n := vn
    rw [joinMem_next, joinMem_prev]
    by_cases h1 : n = a
    · simp [h1]
    · rw [if_neg h1]
      by_cases h2 : n = m.prev b
      · rw [if_pos h2]
        have h3 : m.next a ≠ b := by
          intro h
          exact h1 (h2.trans (key1 a va h).symm)
        simp [h3, h2]
      · rw [if_neg h2]
        have h3 : m.next n ≠ b := fun h => h2 (key1 n vn h)
        have h4 : m.next n ≠ m.next a := fun h => h1 (key2 n vn h)
        simp [h3, h4, C.prev_next n vn]
  · intro n vn
    have vn : Valid m n := vn
    rw [joinMem_next, joinMem_prev]
    by_cases h1 : n = b
    · simp [h1]
    · rw [if_neg h1]
      by_cases h2 : n = m.next a
      · rw [if_pos h2]
        have h3 : m.prev b ≠ a := by
          intro h
          exact h1 (h2.trans (key3 b vb h).symm)
        simp [h3, h2]
      · rw [if_neg h2]
        have h3 : m.prev n ≠ a := fun h => h2 (key3 n vn h)
        have h4 : m.prev n ≠ m.prev b := fun h => h1 (key4 n vn h)
        simp [h3, h4, C.next_prev n vn]

/-- The property `Circ` only reads `next` and `prev` of allocated nodes. -/
theorem circ_congr {m m2 : Store} (C : Circ m) (hl : m2.live = m.live) (hb : m2.brk = m.brk)
    (hn : ∀ n, Valid m n → m2.next n = m.next n)
    (hp : ∀ n, Valid m n → m2.prev n = m.prev n) : Circ m2 := by
  have hv : ∀ n, Valid m2 n ↔ Valid m n := by
    intro n; unfold Valid; rw [hl]
  refine ⟨?_, ?_, ?_, ?_, ?_, ?_⟩
  · intro n vn
    have vn := (hv n).1 vn
    rw [hv, hn n vn]; exact C.next_valid n vn
  · intro n vn
    have vn := (hv n).1 vn
    rw [hv, hp n vn]; exact C.prev_valid n vn
  · intro n vn
    have vn := (hv n).1 vn
    rw [hn n vn, hp _ (C.next_valid n vn)]; exact C.prev_next n vn
  · intro n vn
    have vn := (hv n).1 vn
    rw [hp n vn, hn _ (C.prev_valid n vn)]; exact C.next_prev n vn
  · intro n h
    rw [hl]; exact C.fresh n (hb ▸ h)
  · rw [hb]; exact C.brk_pos

/-- Releasing a node that is alone in its list. -/
theorem circ_delete {m : Store} (C : Circ m) {t : Ptr} (vt : Valid m t) (ht : m.next t = t) :
    Circ { m with live := upd m.live t false } := by
  have hpt : m.prev t = t := by
    have := C.prev_next t vt
    rw [ht] at this
    exact this
  have hv : ∀ n, Valid { m with live := upd m.live t false } n → Valid m n ∧ n ≠ t := by
    intro n ⟨h0, hl⟩
    have hl : upd m.live t false n = true := hl
    by_cases h : n = t
    · rw [h] at hl; simp at hl
    · rw [upd_other _ _ h] at hl
      exact ⟨⟨h0, hl⟩, h⟩
  have hv2 : ∀ n, Valid m n → n ≠ t → Valid { m with live := upd m.live t false } n := by
    intro n vn h
    exact ⟨vn.1, by show upd m.live t false n = true; rw [upd_other _ _ h]; exact vn.2⟩
  refine ⟨?_, ?_, ?_, ?_, ?_, C.brk_pos⟩
  · intro n vn
    obtain ⟨vn, hnt⟩ := hv n vn
    apply hv2 _ (C.next_valid n vn)
    intro h
    apply hnt
    rw [← C.prev_next n vn]
    show m.prev (m.next n) = t
    rw [h, hpt]
  · intro n vn
    obtain ⟨vn, hnt⟩ := hv n vn
    apply hv2 _ (C.prev_valid n vn)
    intro h
    apply hnt
    rw [← C.next_prev n vn]
    show m.next (m.prev n) = t
    rw [h, ht]
  · intro n vn
    exact C.prev_next n (hv n vn).1
  · intro n vn
    exact C.next_prev n (hv n vn).1
  · intro n h
    show upd m.live t false n = false
    by_cases hnt : n = t
    · rw [hnt]; simp
    · rw [upd_other _ _ hnt]; exact C.fresh n h

/-- A fresh node is a one-element cycle. -/
theorem circ_alloc {m : Store} (C : Circ m) (v : Int) : Circ (m.alloc v).2 := by
  have hb : m.live m.brk = false := C.fresh _ (Nat.le_refl _)
  have hne : ∀ n, Valid m n → n ≠ m.brk := by
    intro n vn h
    rw [h] at vn
    rw [vn.2] at hb
    cases hb
  have hv : ∀ n, Valid (m.alloc v).2 n → n = m.brk ∨ Valid m n := by
    intro n ⟨h0, hl⟩
    have hl : upd m.live m.brk true n = true := hl
    by_cases h : n = m.brk
    · exact Or.inl h
    · rw [upd_other _ _ h] at hl
      exact Or.inr ⟨h0, hl⟩
  have hv2 : ∀ n, Valid m n → Valid (m.alloc v).2 n := by
    intro n vn
    exact ⟨vn.1, by show upd m.live m.brk true n = true; rw [upd_other _ _ (hne n vn)]; exact vn.2⟩
  have hvb : Valid (m.alloc v).2 m.brk :=
    ⟨Nat.pos_iff_ne_zero.1 C.brk_pos, by show upd m.live m.brk true m.brk = true; simp⟩
  have hnx : ∀ n, (m.alloc v).2.next n = upd m.next m.brk m.brk n := fun _ => rfl
  have hpv : ∀ n, (m.alloc v).2.prev n = upd m.prev m.brk m.brk n := fun _ => rfl
  refine ⟨?_, ?_, ?_, ?_, ?_, Nat.succ_pos _⟩
  · intro n vn
    rcases hv n vn with h | h
    · rw [h, hnx, upd_same]; exact hvb
    · rw [hnx, upd_other _ _ (hne n h)]; exact hv2 _ (C.next_valid n h)
  · intro n vn
    rcases hv n vn with h | h
    · rw [h, hpv, upd_same]; exact hvb
    · rw [hpv, upd_other _ _ (hne n h)]; exact hv2 _ (C.prev_valid n h)
  · intro n vn
    rcases hv n vn with h | h
    · rw [h, hnx, upd_same, hpv, upd_same]
    · rw [hnx, upd_other _ _ (hne n h), hpv, upd_other _ _ (hne _ (C.next_valid n h))]
      exact C.prev_next n h
  · intro n vn
    rcases hv n vn with h | h
    · rw [h, hpv, upd_same, hnx, upd_same]
    · rw [hpv, upd_other _ _ (hne n h), hnx, upd_other _ _ (hne _ (C.prev_valid n h))]
      exact C.next_prev n h
  · intro n h
    have h : m.brk + 1 ≤ n := h
    show upd m.live m.brk true n = false
    have hnb : n ≠ m.brk := fun e => by rw [e] at h; exact Nat.not_succ_le_self _ h
    rw [upd_other _ _ hnb]
    exact C.fresh n (Nat.le_of_succ_le h)

theorem not_valid_init (n : Ptr) : ¬ Valid Store.init n := by
  intro vn
  cases vn.2

theorem circ_init : Circ Store.init :=
  ⟨fun n vn => absurd vn (not_valid_init n), fun n vn => absurd vn (not_valid_init n),
    fun n vn => absurd vn (not_valid_init n), fun n vn => absurd vn (not_valid_init n),
    fun _ _ => rfl, Nat.one_pos⟩

end

section

theorem keeps_refl (m : Store) : Keeps m m := ⟨rfl, rfl, id⟩

theorem Keeps.trans {m m2 m3 : Store} (h1 : Keeps m m2) (h2 : Keeps m2 m3) : Keeps m m3 :=
  ⟨h2.1.trans h1.1, h2.2.1.trans h1.2.1, fun C => h2.2.2 (h1.2.2 C)⟩

theorem keeps_of_eq {m m2 : Store} (hn : m2.next = m.next) (hp : m2.prev = m.prev)
    (hl : m2.live = m.live) (hb : m2.brk = m.brk) : Keeps m m2 :=
  ⟨hl, hb, fun C => circ_congr C hl hb (fun n _ => by rw [hn]) (fun n _ => by rw [hp])⟩

/-- Taking `u` out of its list and making it a one-element cycle. -/
theorem keeps_isolate {m m2 : Store} {u : Ptr} (vu : Valid m u)
    (hn : m2.next = upd (upd m.next (m.prev u) (m.next u)) u u)
    (hp : m2.prev = upd (upd m.prev (m.next u) (m.prev u)) u u)
    (hl : m2.live = m.live) (hb : m2.brk = m.brk) : Keeps m m2 := by
  refine ⟨hl, hb, fun C => ?_⟩
  have := circ_join C vu vu
  exact circ_congr this hl hb (fun n _ => by rw [hn]; rfl) (fun n _ => by rw [hp]; rfl)

theorem join_keeps (m : Store) (a b : Ptr) :
    Post (Node.join m a b) (fun r => Keeps m r.2) := by
  intro r hr
  rcases join_post m a b r hr with ⟨_, rfl⟩ | ⟨_, va, vb, _, _, rfl⟩
  · exact keeps_refl m
  · exact ⟨rfl, rfl, fun C => circ_join C va vb⟩

theorem add_child_keeps (m : Store) (p u : Ptr) :
    Post (Node.add_child m p u) (fun r => Keeps m r.2) := by
  unfold Node.add_child
  apply post_get; intro vu
  apply post_get; intro _
  apply post_setPrev; intro _
  apply post_get; intro _
  apply post_get; intro _
  apply post_setNext; intro _
  apply post_setNext; intro _
  apply post_setPrev; intro _
  apply post_setParent; intro _
  apply post_get; intro _
  refine post_bind _ (join_keeps _ _ _) ?_
  rintro ⟨c, m6⟩ hj
  apply post_setChild; intro _
  apply post_get; intro _
  apply post_setDegree; intro _
  apply post_pure
  refine Keeps.trans (Keeps.trans ?_ hj) (keeps_of_eq rfl rfl rfl rfl)
  apply keeps_isolate vu
  · show upd (upd m.next (upd m.prev (m.next u) (m.prev u) u) (m.next u)) u u = _
    rw [upd_self_read]
  · rfl
  · rfl
  · rfl

theorem node_cut_keeps (m : Store) (self u : Ptr) :
    Post (Node.cut m self u) (fun r => Keeps m r.2) := by
  unfold Node.cut
  apply post_ite
  · intro _; exact post_pure (keeps_refl m)
  · intro _
    apply post_get; intro vu
    refine post_bind (fun m2 => Keeps m m2) ?_
      (fun m2 h => post_mono (join_keeps m2 u self) (fun r hr => h.trans hr))
    apply post_ite
    · intro _
      apply post_get; intro _
      refine post_bind (fun m1 => m1.live = m.live ∧ m1.brk = m.brk ∧
        ((u = m.next u ∧ m1.next = m.next ∧ m1.prev = m.prev) ∨
         (u ≠ m.next u ∧ m1.next = upd m.next (m.prev u) (m.next u) ∧
           m1.prev = upd m.prev (m.next u) (m.prev u)))) ?_ ?_
      · apply post_ite
        · intro h
          apply post_setChild_last; intro _
          exact ⟨rfl, rfl, Or.inl ⟨h, rfl, rfl⟩⟩
        · intro h
          apply post_get; intro _
          apply post_setChild; intro _
          apply post_get; intro _
          apply post_get; intro _
          apply post_setPrev; intro _
          apply post_get; intro _
          apply post_get; intro _
          apply post_setNext_last; intro _
          refine ⟨rfl, rfl, Or.inr ⟨h, ?_, rfl⟩⟩
          show upd m.next (upd m.prev (m.next u) (m.prev u) u) (m.next u) = _
          rw [upd_self_read]
      · intro m1 ⟨hl, hb, hcase⟩
        apply post_setNext; intro _
        apply post_setPrev; intro _
        apply post_get; intro _
        apply post_get; intro _
        apply post_setDegree_last; intro _
        refine ⟨hl, hb, fun C => ?_⟩
        show Circ { value := _, prev := upd m1.prev u u, next := upd m1.next u u, parent := _,
                    child := _, degree := _, marked := _, live := m1.live, brk := m1.brk }
        refine circ_congr (circ_join C vu vu) hl hb ?_ ?_
        · intro n _
          show upd m1.next u u n = _
          rw [joinMem_next]
          rcases hcase with ⟨h, hn, _⟩ | ⟨_, hn, _⟩
          · rw [hn]
            have hpu : m.prev u = u := by
              have := C.prev_next u vu
              rw [← h] at this
              exact this
            simp only [upd, hpu]
            split_ifs with a1
            · rfl
            · rfl
          · rw [hn]; rfl
        · intro n _
          show upd m1.prev u u n = _
          rw [joinMem_prev]
          rcases hcase with ⟨h, _, hp⟩ | ⟨_, _, hp⟩
          · rw [hp]
            simp only [upd, ← h]
            split_ifs with a1
            · rfl
            · rfl
          · rw [hp]; rfl
    · intro _; exact post_pure (keeps_refl m)

theorem heap_cut_keeps (h : FibonacciHeap) (u : Ptr) :
    Post (h.cut u) (fun h2 => Keeps h.mem h2.mem) := by
  unfold FibonacciHeap.cut
  apply post_setMarked; intro _
  refine post_bind _ (node_cut_keeps _ _ _) ?_
  rintro ⟨t, m2⟩ hk
  apply post_pure
  refine Keeps.trans ?_ hk
  exact keeps_of_eq rfl rfl rfl rfl

theorem cascade_cut_keeps (fuel : Nat) : ∀ (h : FibonacciHeap) (u : Ptr),
    Post (FibonacciHeap.cascade_cut fuel h u) (fun h2 => Keeps h.mem h2.mem) := by
  induction fuel with
  | zero => intro h u; exact post_error
  | succ fuel ih =>
    intro h u
    unfold FibonacciHeap.cascade_cut
    apply post_get; intro _
    apply post_ite
    · intro _
      apply post_get; intro _
      refine post_bind (fun h1 => Keeps h.mem h1.mem) ?_ ?_
      · apply post_ite
        · intro _
          refine post_bind _ (heap_cut_keeps h u) ?_
          intro h1 hk
          apply post_get; intro _
          exact post_mono (ih h1 _) (fun h2 hk2 => hk.trans hk2)
        · intro _; exact post_pure (keeps_refl _)
      · intro h1 hk
        apply post_setMarked; intro _
        exact post_pure (hk.trans (keeps_of_eq rfl rfl rfl rfl))
    · intro _; exact post_pure (keeps_refl _)

theorem decrease_key_keeps (fuel : Nat) (h : FibonacciHeap) (node : Ptr) (key : Int) :
    Post (h.decrease_key fuel node key) (fun h2 => Keeps h.mem h2.mem) := by
  unfold FibonacciHeap.decrease_key
  apply post_setValue; intro _
  apply post_get; intro _
  refine post_bind (fun h1 => Keeps h.mem h1.mem) ?_ ?_
  · apply post_ite
    · intro _
      apply post_get; intro _
      apply post_ite
      · intro _
        refine post_bind _ (heap_cut_keeps _ node) ?_
        intro h1 hk
        apply post_get; intro _
        refine post_mono (cascade_cut_keeps fuel h1 _) (fun h2 hk2 => ?_)
        refine Keeps.trans (Keeps.trans ?_ hk) hk2
        exact keeps_of_eq rfl rfl rfl rfl
      · intro _; exact post_pure (keeps_of_eq rfl rfl rfl rfl)
    · intro _; exact post_pure (keeps_of_eq rfl rfl rfl rfl)
  · intro h1 hk
    apply post_get; intro _
    apply post_ite
    · intro _; exact post_pure hk
    · intro _; exact post_pure hk

theorem push_post (h : FibonacciHeap) (v : Int) :
    Post (h.push v) (fun r => r.1 = h.mem.brk ∧ r.2.mem.live = upd h.mem.live h.mem.brk true ∧
      r.2.mem.brk = h.mem.brk + 1 ∧ (Circ h.mem → Circ r.2.mem)) := by
  unfold FibonacciHeap.push
  refine post_bind _ (join_keeps _ _ _) ?_
  rintro ⟨t, m2⟩ hk
  apply post_pure
  exact ⟨rfl, hk.1, hk.2.1, fun C => hk.2.2 (circ_alloc C v)⟩

end

section

/-! ## What `pop` leaves behind, whenever it returns -/

/-- One iteration of the scan: the stores, and the effect of an iteration that does not
link. -/
theorem scan_body_post (c : Consol) : Post (pop_scan_body c) (fun c2 =>
    Keeps c.mem c2.mem ∧
    (c2.mapped = true → c.mapped = true ∧ c2.mem = c.mem ∧ c2.top = c.top ∧
      c2.stop = c.stop ∧ Valid c.mem c.curr ∧ c2.curr = c.mem.next c.curr ∧
      ∃ d, slot (c.mem.degree c.curr) = .ok d ∧ c2.degree_map d = c.curr ∧
        ∀ d2, c.degree_map d2 ≠ 0 → c2.degree_map d2 = c.degree_map d2)) := by
  unfold pop_scan_body
  apply post_get; intro vc
  refine post_bind (fun d => slot (c.mem.degree c.curr) = .ok d) (fun d hd => hd) ?_
  intro d hd
  dsimp only
  apply post_ite
  · intro he
    apply post_get; intro _
    apply post_pure
    refine ⟨keeps_refl _, fun hm => ⟨hm, rfl, rfl, rfl, vc, rfl, d, hd, by simp, ?_⟩⟩
    intro d2 h2
    have : d2 ≠ d := fun h => h2 (h ▸ he)
    exact upd_other _ _ this
  · intro he
    apply post_ite
    · intro hec
      apply post_get; intro _
      apply post_pure
      exact ⟨keeps_refl _, fun hm => ⟨hm, rfl, rfl, rfl, vc, rfl, d, hd, hec, fun _ _ => rfl⟩⟩
    · intro _
      apply post_get; intro _
      apply post_get; intro _
      apply post_get; intro _
      refine post_bind (fun _ => True) (fun _ _ => trivial) ?_
      intro curr _
      refine post_bind _ (add_child_keeps _ _ _) ?_
      rintro ⟨x, m2⟩ hk
      apply post_pure
      exact ⟨hk, fun hm => by cases hm⟩

theorem scan_keeps (fuel : Nat) : ∀ c : Consol, Post (pop_scan fuel c) (fun c2 =>
    Keeps c.mem c2.mem ∧ (c2.mapped = true → c.mapped = true) ∧ c2.curr = c2.stop) := by
  induction fuel with
  | zero => intro c; exact post_error
  | succ fuel ih =>
    intro c
    unfold pop_scan
    refine post_bind _ (scan_body_post c) ?_
    intro c1 ⟨hk, hm⟩
    apply post_ite
    · intro _
      refine post_mono (ih c1) ?_
      intro c2 ⟨hk2, hm2, hc⟩
      exact ⟨hk.trans hk2, fun h => (hm (hm2 h)).1, hc⟩
    · intro hcs
      apply post_pure
      exact ⟨hk, fun h => (hm h).1, not_not.1 hcs⟩

theorem seen_inj {m : Store} {dm : Nat → Ptr} {x y : Ptr} (hx : Seen m dm x) (hy : Seen m dm y)
    (hd : m.degree x = m.degree y) : x = y := by
  obtain ⟨_, d, h1, h2⟩ := hx
  obtain ⟨_, e, h3, h4⟩ := hy
  rw [hd, h3] at h1
  have : e = d := Except.ok.inj h1
  rw [← h2, ← h4, this]

/-- A pass without a link: after `k` iterations the scan stands `k` steps behind `t`, and
the table holds the nodes it went over. -/
theorem scan_pass (m : Store) (t : Ptr) (fuel : Nat) : ∀ (c : Consol) (k : Nat),
    c.mem = m → c.top = t → c.stop = t → c.curr = m.next^[k] t →
    (∀ i, i < k → Seen m c.degree_map (m.next^[i] t)) →
    Post (pop_scan fuel c) (fun c2 => c2.mapped = true →
      c2.mem = m ∧ c2.top = t ∧ ∃ k2, 0 < k2 ∧ m.next^[k2] t = t ∧
        ∀ i, i < k2 → Seen m c2.degree_map (m.next^[i] t)) := by
  induction fuel with
  | zero => intro c k _ _ _ _ _; exact post_error
  | succ fuel ih =>
    intro c k hmem htop hstop hcurr hseen
    unfold pop_scan
    refine post_bind _ (scan_body_post c) ?_
    intro c1 ⟨_, hb⟩
    have step : c1.mapped = true → c1.mem = m ∧ c1.top = t ∧ c1.stop = t ∧
        c1.curr = m.next^[k + 1] t ∧ ∀ i, i < k + 1 → Seen m c1.degree_map (m.next^[i] t) := by
      intro h1
      obtain ⟨_, e1, e2, e3, vc, e4, d, hd, hdm, hkeep⟩ := hb h1
      refine ⟨e1.trans hmem, e2.trans htop, e3.trans hstop, ?_, ?_⟩
      · rw [e4, hmem, hcurr, Function.iterate_succ_apply']
      · intro i hi
        rcases Nat.lt_succ_iff_lt_or_eq.1 hi with h | h
        · obtain ⟨n0, d2, s1, s2⟩ := hseen i h
          refine ⟨n0, d2, s1, ?_⟩
          rw [hkeep d2 (by rw [s2]; exact n0), s2]
        · rw [h, ← hcurr]
          refine ⟨vc.1, d, ?_, hdm⟩
          rw [← hmem]; exact hd
    apply post_ite
    · intro _
      intro c2 h2 hm2
      have hm1 : c1.mapped = true := (scan_keeps fuel c1 c2 h2).2.1 hm2
      obtain ⟨s1, s2, s3, s4, s5⟩ := step hm1
      exact ih c1 (k + 1) s1 s2 s3 s4 s5 c2 h2 hm2
    · intro hcs
      apply post_pure
      intro hm1
      obtain ⟨s1, s2, s3, s4, s5⟩ := step hm1
      refine ⟨s1, s2, k + 1, Nat.succ_pos _, ?_, s5⟩
      rw [← s4, not_not.1 hcs, s3]

theorem consolidate_post (inner : Nat) (fuel : Nat) : ∀ c : Consol,
    Post (pop_consolidate inner fuel c) (fun c2 =>
      Keeps c.mem c2.mem ∧ ((c.mapped = true → Mapped c) → Mapped c2)) := by
  induction fuel with
  | zero => intro c; exact post_error
  | succ fuel ih =>
    intro c
    unfold pop_consolidate
    apply post_ite
    · intro hm
      exact post_pure ⟨keeps_refl _, fun h => h hm⟩
    · intro _
      refine post_bind (fun c1 => Keeps c.mem c1.mem ∧ (c1.mapped = true → Mapped c1)) ?_ ?_
      · intro c1 h1
        refine ⟨(scan_keeps inner _ c1 h1).1, fun hm1 => ?_⟩
        obtain ⟨e1, e2, k2, hk, hper, hs⟩ :=
          scan_pass c.mem c.top inner { c with mapped := true, curr := c.top, stop := c.top } 0
            rfl rfl rfl rfl (fun i hi => absurd hi (Nat.not_lt_zero i)) c1 h1 hm1
        intro i
        rw [e1, e2]
        have hp : Function.IsPeriodicPt c.mem.next k2 c.top := hper
        rw [← hp.iterate_mod_apply i]
        exact hs _ (Nat.mod_lt _ hk)
      · intro c1 ⟨hk1, hg1⟩
        refine post_mono (ih c1) ?_
        intro c2 ⟨hk2, hg2⟩
        exact ⟨hk1.trans hk2, fun _ => hg2 hg1⟩

theorem newtop_post (stop : Ptr) (fuel : Nat) : ∀ (m : Store) (top curr : Ptr),
    Post (pop_newtop stop fuel m top curr) (fun r =>
      r.1.next = m.next ∧ r.1.prev = m.prev ∧ r.1.degree = m.degree ∧ r.1.live = m.live ∧
      r.1.brk = m.brk ∧ (r.2 = top ∨ ∃ i, r.2 = m.next^[i] curr)) := by
  induction fuel with
  | zero => intro m top curr; exact post_error
  | succ fuel ih =>
    intro m top curr
    unfold pop_newtop
    apply post_get; intro _
    apply post_get; intro _
    apply post_setParent; intro _
    apply post_setMarked; intro _
    apply post_get; intro _
    apply post_ite
    · intro _
      refine post_mono (ih _ _ _) ?_
      rintro ⟨m2, t2⟩ ⟨h1, h2, h3, h4, h5, h6⟩
      refine ⟨h1, h2, h3, h4, h5, ?_⟩
      rcases h6 with h | ⟨i, h⟩
      · have h : t2 = if m.value curr < m.value top then curr else top := h
        split_ifs at h with hlt
        · exact Or.inr ⟨0, h⟩
        · exact Or.inl h
      · exact Or.inr ⟨i + 1, h⟩
    · intro _
      apply post_pure
      refine ⟨rfl, rfl, rfl, rfl, rfl, ?_⟩
      show (if m.value curr < m.value top then curr else top) = top ∨ _
      split_ifs with hlt
      · exact Or.inr ⟨0, rfl⟩
      · exact Or.inl rfl

/-- Unlinking the node `t` from its list and releasing it. -/
theorem circ_unlink_delete {m m5 : Store} (C : Circ m) {t : Ptr} (vt : Valid m t)
    (hl : m5.live = upd m.live t false) (hb : m5.brk = m.brk)
    (hn : ∀ n, n ≠ t → m5.next n = upd m.next (m.prev t) (m.next t) n)
    (hp : ∀ n, n ≠ t → m5.prev n = upd m.prev (m.next t) (m.prev t) n) : Circ m5 := by
  have C1 := circ_join C vt vt
  have C2 := circ_delete C1 (t := t) vt (by rw [joinMem_next]; simp)
  have hne : ∀ n, Valid { joinMem m t t with live := upd (joinMem m t t).live t false } n →
      n ≠ t := by
    intro n vn h
    have h2 : upd m.live t false n = true := vn.2
    rw [h] at h2
    simp at h2
  refine circ_congr C2 hl hb ?_ ?_
  · intro n vn
    have h := hne n vn
    rw [hn n h]
    show _ = (joinMem m t t).next n
    rw [joinMem_next, if_neg h]
    rfl
  · intro n vn
    have h := hne n vn
    rw [hp n h]
    show _ = (joinMem m t t).prev n
    rw [joinMem_prev, if_neg h]
    rfl

theorem pop_post (fuel : Nat) (h : FibonacciHeap) : Post (h.pop fuel) (fun r =>
    r.2.mem.live = upd h.mem.live h.top false ∧ r.2.mem.brk = h.mem.brk ∧
    (Circ h.mem → Circ r.2.mem) ∧ (r.2.top ≠ 0 → DistinctDegrees r.2)) := by
  unfold FibonacciHeap.pop
  apply post_get; intro vt
  apply post_get; intro _
  apply post_get; intro _
  apply post_ite
  · intro hc
    apply post_delete; intro _
    apply post_pure
    exact ⟨rfl, rfl, fun C => circ_delete C vt hc.1.symm, fun h0 => absurd rfl h0⟩
  · intro _
    apply post_get; intro _
    refine post_bind _ (join_keeps _ _ _) ?_
    rintro ⟨x, m1⟩ hk
    apply post_setChild; intro vt1
    apply post_get; intro _
    apply post_get; intro _
    apply post_get; intro _
    apply post_setPrev; intro _
    apply post_get; intro _
    apply post_get; intro _
    apply post_setNext; intro _
    apply post_delete; intro _
    refine post_bind _ (consolidate_post fuel fuel _) ?_
    intro c ⟨hkc, hmap⟩
    refine post_bind _ (newtop_post c.top fuel c.mem c.top c.top) ?_
    rintro ⟨m9, t9⟩ ⟨e1, e2, e3, e4, e5, e6⟩
    apply post_pure
    have hk : Keeps h.mem m1 := hk
    have vt1 : Valid m1 h.top := vt1
    refine ⟨?_, ?_, ?_, ?_⟩
    · show m9.live = _
      rw [e4, hkc.1]
      show upd m1.live h.top false = _
      rw [hk.1]
    · show m9.brk = _
      rw [e5, hkc.2.1]
      exact hk.2.1
    · intro C
      have C1 := hk.2.2 C
      have C5 := hkc.2.2 (circ_unlink_delete C1 vt1 rfl rfl
        (fun n _ => by
          show upd m1.next (upd m1.prev (m1.next h.top) (m1.prev h.top) h.top) (m1.next h.top) n
            = _
          rw [upd_self_read])
        (fun n _ => rfl))
      exact circ_congr C5 e4 e5 (fun n _ => by rw [e1]) (fun n _ => by rw [e2])
    · intro _ i j hd
      have hM : Mapped c := hmap (fun hm => by cases hm)
      have ht : ∃ i0, t9 = c.mem.next^[i0] c.top := by
        rcases e6 with h | h
        · exact ⟨0, h⟩
        · exact h
      obtain ⟨i0, ht⟩ := ht
      have key : ∀ k, m9.next^[k] t9 = c.mem.next^[k + i0] c.top := by
        intro k
        rw [e1, ht, Function.iterate_add_apply]
      show m9.next^[i] t9 = m9.next^[j] t9
      have hd : m9.degree (m9.next^[i] t9) = m9.degree (m9.next^[j] t9) := hd
      rw [key, key] at hd ⊢
      rw [e3] at hd
      exact seen_inj (hM _) (hM _) hd

end

section

theorem runCalls_append (fuel : Nat) (cs ds : List Call) : ∀ (hs : List Ptr)
    (h : FibonacciHeap), runCalls fuel (cs ++ ds) hs h
      = (runCalls fuel cs hs h >>= fun r => runCalls fuel ds r.1 r.2) := by
  induction cs with
  | nil => intro hs h; rfl
  | cons c cs ih =>
    intro hs h
    cases c with
    | push v =>
      simp only [List.cons_append, runCalls, bind_assoc]
      congr 1
      funext r
      exact ih _ _
    | pop =>
      simp only [List.cons_append, runCalls, bind_assoc]
      congr 1
      funext r
      exact ih _ _
    | decrease_key i k =>
      simp only [List.cons_append, runCalls, bind_assoc]
      congr 1
      funext r
      exact ih _ _

/-- Every heap a sequence of calls returns has circular lists. -/
theorem runCalls_circ (fuel : Nat) (cs : List Call) : ∀ (hs : List Ptr) (h : FibonacciHeap),
    Circ h.mem → Post (runCalls fuel cs hs h) (fun r => Circ r.2.mem) := by
  induction cs with
  | nil => intro hs h C; exact post_pure C
  | cons c cs ih =>
    intro hs h C
    cases c with
    | push v =>
      unfold runCalls
      refine post_bind _ (push_post h v) ?_
      rintro ⟨p, h1⟩ ⟨_, _, _, hc⟩
      exact ih _ h1 (hc C)
    | pop =>
      unfold runCalls
      refine post_bind _ (pop_post fuel h) ?_
      rintro ⟨v, h1⟩ ⟨_, _, hc, _⟩
      exact ih _ h1 (hc C)
    | decrease_key i k =>
      unfold runCalls
      refine post_bind _ (decrease_key_keeps fuel h _ k) ?_
      intro h1 hk
      exact ih _ h1 (hk.2.2 C)

theorem circ_iterate_valid {m : Store} (C : Circ m) {n : Ptr} (vn : Valid m n) :
    ∀ i, Valid m (m.next^[i] n) := by
  intro i
  induction i with
  | zero => exact vn
  | succ i ih =>
    rw [Function.iterate_succ_apply']
    exact C.next_valid _ ih

theorem circ_prev_iterate {m : Store} (C : Circ m) : ∀ (i : Nat) (x : Ptr), Valid m x →
    m.prev^[i] (m.next^[i] x) = x := by
  intro i
  induction i with
  | zero => intro x _; rfl
  | succ i ih =>
    intro x vx
    rw [Function.iterate_succ_apply' m.prev, Function.iterate_succ_apply m.next,
      ih _ (C.next_valid x vx)]
    exact C.prev_next x vx

theorem valid_lt_brk {m : Store} (C : Circ m) {n : Ptr} (vn : Valid m n) : n < m.brk := by
  by_contra h
  have := C.fresh n (Nat.le_of_not_lt h)
  rw [vn.2] at this
  cases this

/-- Following `next` from an allocated node leads back to it. -/
theorem circ_returns {m : Store} (C : Circ m) {n : Ptr} (vn : Valid m n) :
    ∃ k, 0 < k ∧ m.next^[k] n = n := by
  let f : Nat → Fin m.brk := fun i => ⟨m.next^[i] n, valid_lt_brk C (circ_iterate_valid C vn i)⟩
  obtain ⟨i, j, hij, hf⟩ := Finite.exists_ne_map_eq_of_infinite f
  have hf : m.next^[i] n = m.next^[j] n := congrArg Fin.val hf
  have key : ∀ a b, a < b → m.next^[a] n = m.next^[b] n → m.next^[b - a] n = n := by
    intro a b hab h
    have h1 := circ_prev_iterate C a n vn
    have h2 : m.next^[b] n = m.next^[a] (m.next^[b - a] n) := by
      rw [← Function.iterate_add_apply]
      congr 1
      omega
    rw [h, h2, circ_prev_iterate C a _ (circ_iterate_valid C vn _)] at h1
    exact h1
  rcases Nat.lt_or_gt_of_ne hij with h | h
  · exact ⟨j - i, Nat.sub_pos_of_lt h, key i j h hf⟩
  · exact ⟨i - j, Nat.sub_pos_of_lt h, key j i h hf.symm⟩

theorem isOk_run {α : Type} {r : Res α} (h : Except.isOk r = true) : ∃ a, r = .ok a :=
  (isOk_iff r).1 h

/-- C14: in every heap that a sequence of `push`, `pop` and `decrease_key` calls returns,
every allocated node `n` has allocated neighbours with `n.next.prev = n` and
`n.prev.next = n`, following `next` from `n` leads back to `n`, and `n.next = n` exactly
when `n.prev = n` (a node alone in its list points to itself in both directions). -/
theorem lists_stay_circular (calls : List Call) (fuel : Nat)
    (hok : Except.isOk (runCalls fuel calls [] FibonacciHeap.init) = true) :
    ∃ hs h, runCalls fuel calls [] FibonacciHeap.init = .ok (hs, h) ∧
      ∀ n, Valid h.mem n →
        Valid h.mem (h.mem.next n) ∧ Valid h.mem (h.mem.prev n) ∧
        h.mem.prev (h.mem.next n) = n ∧ h.mem.next (h.mem.prev n) = n ∧
        (∃ k, 0 < k ∧ h.mem.next^[k] n = n) ∧
        (h.mem.next n = n ↔ h.mem.prev n = n) := by
  obtain ⟨⟨hs, h⟩, hr⟩ := isOk_run hok
  have C : Circ h.mem := runCalls_circ fuel calls [] FibonacciHeap.init circ_init _ hr
  refine ⟨hs, h, hr, fun n vn => ⟨C.next_valid n vn, C.prev_valid n vn, C.prev_next n vn,
    C.next_prev n vn, circ_returns C vn, ?_, ?_⟩⟩
  · intro e
    have := C.prev_next n vn
    rw [e] at this
    exact this
  · intro e
    have := C.next_prev n vn
    rw [e] at this
    exact this

/-- C14, witness: a sequence with two `decrease_key` calls on the same node. -/
theorem lists_stay_circular_witness :
    Except.isOk (runCalls 16 [.push 9, .push 3, .push 17, .pop, .decrease_key 2 5,
      .decrease_key 2 1, .push 20, .pop] [] FibonacciHeap.init) = true ∧
    ∃ hs h, runCalls 16 [.push 9, .push 3, .push 17, .pop, .decrease_key 2 5,
        .decrease_key 2 1, .push 20, .pop] [] FibonacciHeap.init = .ok (hs, h) ∧
      ∀ n, Valid h.mem n →
        Valid h.mem (h.mem.next n) ∧ Valid h.mem (h.mem.prev n) ∧
        h.mem.prev (h.mem.next n) = n ∧ h.mem.next (h.mem.prev n) = n ∧
        (∃ k, 0 < k ∧ h.mem.next^[k] n = n) ∧
        (h.mem.next n = n ↔ h.mem.prev n = n) :=
  ⟨by rfl, lists_stay_circular _ 16 (by rfl)⟩

/-- C13: whenever a `pop` at the end of a sequence of `push`, `pop` and `decrease_key`
calls returns and leaves the heap non-empty, no two distinct nodes of the root list (the
nodes reached from `_top` by `next`) have the same degree. -/
theorem degrees_unique_after_pop (calls : List Call) (fuel : Nat)
    (hok : Except.isOk (runCalls fuel (calls ++ [Call.pop]) [] FibonacciHeap.init) = true) :
    ∃ hs h, runCalls fuel (calls ++ [Call.pop]) [] FibonacciHeap.init = .ok (hs, h) ∧
      (h.empty = false → DistinctDegrees h) := by
  obtain ⟨⟨hs, h⟩, hr⟩ := isOk_run hok
  refine ⟨hs, h, hr, fun he => ?_⟩
  have hne : h.top ≠ 0 := by simpa [FibonacciHeap.empty] using he
  rw [runCalls_append] at hr
  cases h1 : runCalls fuel calls [] FibonacciHeap.init with
  | error e => rw [h1] at hr; cases hr
  | ok r =>
    rw [h1] at hr
    have hr : runCalls fuel [Call.pop] r.1 r.2 = .ok (hs, h) := hr
    unfold runCalls at hr
    cases h2 : r.2.pop fuel with
    | error e => rw [h2] at hr; cases hr
    | ok q =>
      rw [h2] at hr
      have hq : q.2 = h := by
        have hr : runCalls fuel [] r.1 q.2 = .ok (hs, h) := hr
        unfold runCalls at hr
        exact (Prod.mk.inj (Except.ok.inj hr)).2
      have := (pop_post fuel r.2 q h2).2.2.2
      rw [hq] at this
      exact this hne

/-- C13, witness: five pushes, a `decrease_key`, and the final `pop`. -/
theorem degrees_unique_after_pop_witness :
    Except.isOk (runCalls 25 ([.push 5, .push 3, .push 8, .push 1, .push 7,
      .decrease_key 2 2] ++ [Call.pop]) [] FibonacciHeap.init) = true ∧
    ∃ hs h, runCalls 25 ([.push 5, .push 3, .push 8, .push 1, .push 7,
        .decrease_key 2 2] ++ [Call.pop]) [] FibonacciHeap.init = .ok (hs, h) ∧
      (h.empty = false → DistinctDegrees h) :=
  ⟨by rfl, degrees_unique_after_pop _ 25 (by rfl)⟩

end

section

theorem ringFrom_seg (m : Store) (stop : Ptr) : ∀ (l : List Ptr) (x : Ptr) (fuel : Nat),
    Seg m x l stop → stop ∉ l → l.length < fuel → ringFrom m stop fuel x = x :: l := by
  intro l
  induction l with
  | nil =>
    intro x fuel hs _ hf
    obtain ⟨f, rfl⟩ : ∃ f, fuel = f + 1 := ⟨fuel - 1, by omega⟩
    have := ((seg_nil m x stop).1 hs).1
    simp [ringFrom, this]
  | cons c l ih =>
    intro x fuel hs hn hf
    obtain ⟨f, rfl⟩ : ∃ f, fuel = f + 1 := ⟨fuel - 1, by omega⟩
    rw [seg_cons] at hs
    have hc : m.next x = c := hs.1.1
    have hcs : c ≠ stop := fun h => hn (h ▸ List.mem_cons_self _ _)
    have := ih c f hs.2 (fun h => hn (List.mem_cons_of_mem _ h))
      (by simp only [List.length_cons] at hf; omega)
    simp [ringFrom, hc, hcs, this]

theorem siblings_eq {m : Store} {L : List Ptr} (hr : IsRing m L) (hnd : L.Nodup)
    (h0 : ∀ x ∈ L, x ≠ 0) {fuel : Nat} (hf : L.length ≤ fuel) :
    siblings m fuel L.headI = L := by
  cases L with
  | nil => simp [siblings]
  | cons a l =>
    have ha : a ≠ 0 := h0 a (List.mem_cons_self _ _)
    simp only [siblings, List.headI_cons, ha, if_false]
    exact ringFrom_seg m a l a fuel hr (List.nodup_cons.1 hnd).1
      (by simp only [List.length_cons] at hf; omega)

theorem subtreeSize_eq {m : Store} {N : Finset Ptr} {roots : List Ptr}
    {kids : Ptr → List Ptr} (F : Forest m N roots kids) : ∀ (fuel : Nat) (x : Ptr), x ∈ N →
    (kids x).length < fuel → subtreeSize m fuel x = 2 ^ (kids x).length := by
  intro fuel
  induction fuel with
  | zero => intro x _ h; exact absurd h (Nat.not_lt_zero _)
  | succ fuel ih =>
    intro x hx hlen
    have hs : siblings m (fuel + 1) (m.child x) = kids x := by
      rw [F.child_head x hx]
      exact siblings_eq (F.kids_ring x hx) (F.kids_nodup x hx)
        (fun y hy => F.ne_zero (F.kids_mem x hx y hy)) (by omega)
    rw [subtreeSize, hs, F.binom x hx]
    congr 2
    apply List.map_congr_left
    intro c hc
    exact ih c (F.kids_mem x hx c hc) (by have := F.kid_length_lt hx hc; omega)

/-- Every heap a sequence of `push`, `pop` and `top` calls returns is a well-formed forest
of all allocated nodes, whatever the budget. -/
theorem runOps_reach (fuel : Nat) (ops : List Op) : ∀ (h : FibonacciHeap) (N : Finset Ptr),
    WF h N → LiveIn h N → ∀ h2, runOps fuel ops h = .ok h2 →
    ∃ N2, WF h2 N2 ∧ LiveIn h2 N2 ∧ N2.card + pops ops = N.card + pushes ops := by
  induction ops with
  | nil =>
    intro h N W L h2 hr
    have : h = h2 := by simpa [runOps] using hr
    subst this
    exact ⟨N, W, L, rfl⟩
  | cons op ops ih =>
    intro h N ⟨roots, kids, I⟩ L h2 hr
    cases op with
    | push v =>
      obtain ⟨g, r, k, hp, J, hn, _, _, _⟩ := push_spec I v
      have hl := (push_post h v _ hp).2.1
      simp only [runOps, hp, ok_bind] at hr
      have L2 : LiveIn g (insert h.mem.brk N) := by
        intro x vx
        have h2 : upd h.mem.live h.mem.brk true x = true := by
          have := vx.2
          rw [hl] at this
          exact this
        by_cases hx : x = h.mem.brk
        · rw [hx]; exact Finset.mem_insert_self _ _
        · rw [upd_other _ _ hx] at h2
          exact Finset.mem_insert_of_mem (L x ⟨vx.1, h2⟩)
      obtain ⟨N2, W2, L3, hc⟩ := ih g _ ⟨r, k, J⟩ L2 h2 hr
      refine ⟨N2, W2, L3, ?_⟩
      rw [Finset.card_insert_of_not_mem hn] at hc
      simp only [pushes, pops]; omega
    | pop =>
      rcases Finset.eq_empty_or_nonempty N with e | hN
      · subst e
        simp [runOps, pop_null (top_null_of_empty I)] at hr
      · cases hp : h.pop fuel with
        | error e => simp [runOps, hp] at hr
        | ok r =>
          obtain ⟨v, g⟩ := r
          have hl := (pop_post fuel h _ hp).1
          simp only [runOps, hp, ok_bind] at hr
          have hbig := pop_mono (Nat.le_max_left fuel (N.card ^ 2)) h _ hp
          have htop : h.top ∈ N := I.forest.roots_mem _ (I.top_mem hN)
          rcases pop_spec I hN (Nat.le_max_right fuel (N.card ^ 2)) with
            ⟨_, g1, r1, k1, hp1, J1, _⟩ | ⟨_, hp1⟩
          · rw [hp1] at hbig
            have hg : g1 = g := (Prod.mk.inj (Except.ok.inj hbig)).2
            subst hg
            have L2 : LiveIn g1 (N.erase h.top) := by
              intro x vx
              have h2 : upd h.mem.live h.top false x = true := by
                have := vx.2
                rw [hl] at this
                exact this
              by_cases hx : x = h.top
              · rw [hx] at h2; simp at h2
              · rw [upd_other _ _ hx] at h2
                exact Finset.mem_erase.2 ⟨hx, L x ⟨vx.1, h2⟩⟩
            obtain ⟨N2, W2, L3, hc⟩ := ih g1 _ ⟨r1, k1, J1⟩ L2 h2 hr
            refine ⟨N2, W2, L3, ?_⟩
            rw [Finset.card_erase_of_mem htop] at hc
            have := Finset.card_pos.2 hN
            simp only [pushes, pops]; omega
          · rw [hp1] at hbig
            exact absurd hbig (by simp)
    | top =>
      cases ht : h.topValue with
      | error e => simp [runOps, ht] at hr
      | ok v =>
        simp only [runOps, ht, ok_bind] at hr
        obtain ⟨N2, W2, L3, hc⟩ := ih h N ⟨roots, kids, I⟩ L h2 hr
        exact ⟨N2, W2, L3, by simp only [pushes, pops]; omega⟩

/-- C19: in every heap that a sequence of `push` and `pop` (and `top`) calls returns,
every allocated node of degree `d` is the root of a subtree of exactly `2 ^ d` nodes, and
the number of elements (pushes minus pops) is the sum of `2 ^ degree` over the root
list. -/
theorem binomial_shape (ops : List Op) (fuel0 : Nat)
    (hok : Except.isOk (runOps fuel0 ops FibonacciHeap.init) = true) :
    ∃ h, runOps fuel0 ops FibonacciHeap.init = .ok h ∧
      (∀ (x : Ptr) (d fuel : Nat), Valid h.mem x → h.mem.degree x = (d : Int) → d < fuel →
        subtreeSize h.mem fuel x = 2 ^ d) ∧
      (∀ fuel, pushes ops - pops ops ≤ fuel →
        ((siblings h.mem fuel h.top).map (fun r => 2 ^ (h.mem.degree r).toNat)).sum
          = pushes ops - pops ops) := by
  obtain ⟨h, hr⟩ := isOk_run hok
  obtain ⟨N, ⟨roots, kids, I⟩, L, hc⟩ := runOps_reach fuel0 ops _ ∅ ⟨_, _, heapInv_init⟩
    (fun x vx => absurd vx (not_valid_init x)) h hr
  simp only [Finset.card_empty, Nat.zero_add] at hc
  have F := I.forest
  refine ⟨h, hr, ?_, ?_⟩
  · intro x d fuel vx hd hf
    have hx := L x vx
    have hd2 : (kids x).length = d := by
      have := F.degree_eq x hx
      rw [hd] at this
      exact_mod_cast this.symm
    rw [← hd2]
    exact subtreeSize_eq F fuel x hx (by omega)
  · intro fuel hf
    have hlen : roots.length ≤ N.card := F.roots_length_le
    have hs : siblings h.mem fuel h.top = roots := by
      rw [I.top_head]
      exact siblings_eq F.roots_ring F.roots_nodup (fun y hy => F.ne_zero (F.roots_mem y hy))
        (by omega)
    rw [hs]
    have hmap : roots.map (fun r => 2 ^ (h.mem.degree r).toNat)
        = roots.map (fun r => 2 ^ (kids r).length) := by
      apply List.map_congr_left
      intro r hr2
      rw [F.degree_eq r (F.roots_mem r hr2)]
      simp
    rw [hmap, F.count]
    omega

/-- C19, witness: six pushes and two pops. -/
theorem binomial_shape_witness :
    Except.isOk (runOps 36 [.push 4, .push 2, .push 9, .push 7, .push 1, .pop, .push 6, .pop]
      FibonacciHeap.init) = true ∧
    ∃ h, runOps 36 [.push 4, .push 2, .push 9, .push 7, .push 1, .pop, .push 6, .pop]
        FibonacciHeap.init = .ok h ∧
      (∀ (x : Ptr) (d fuel : Nat), Valid h.mem x → h.mem.degree x = (d : Int) → d < fuel →
        subtreeSize h.mem fuel x = 2 ^ d) ∧
      (∀ fuel, pushes [.push 4, .push 2, .push 9, .push 7, .push 1, .pop, .push 6, .pop]
          - pops [.push 4, .push 2, .push 9, .push 7, .push 1, .pop, .push 6, .pop] ≤ fuel →
        ((siblings h.mem fuel h.top).map (fun r => 2 ^ (h.mem.degree r).toNat)).sum
          = pushes [.push 4, .push 2, .push 9, .push 7, .push 1, .pop, .push 6, .pop]
            - pops [.push 4, .push 2, .push 9, .push 7, .push 1, .pop, .push 6, .pop]) :=
  ⟨by rfl, binomial_shape _ 36 (by rfl)⟩

end

section

theorem rootCount_eq {c : Consol} {N : Finset Ptr} {R : List Ptr} {kids : Ptr → List Ptr}
    (F : Forest c.mem N R kids) (ht : c.top = R.headI) {fuel : Nat} (hf : N.card ≤ fuel) :
    rootCount fuel c = R.length := by
  unfold rootCount
  rw [ht, siblings_eq F.roots_ring F.roots_nodup (fun y hy => F.ne_zero (F.roots_mem y hy))
    (le_trans F.roots_length_le hf)]

/-- One pass from a state at the head of the loop. -/
theorem pass_spec {c : Consol} {N : Finset Ptr} (hL : LoopInv N c)
    (hcap : N.card < 2 ^ max_degree) {fuel : Nat} (hf : N.card + N.card ^ 2 < fuel) :
    ∃ c2, pop_pass fuel c = .ok c2 ∧ LoopInv N c2 ∧ c2.curr = c2.stop ∧
      rootCount fuel c2 ≤ rootCount fuel c ∧
      (c2.mapped = false → rootCount fuel c2 < rootCount fuel c) ∧
      (c2.mapped = true → ∀ f, pop_consolidate fuel (f + 1) c2 = .ok c2) := by
  obtain ⟨R, kids, F, hmap, hne, htop⟩ := hL
  obtain ⟨r, R1, rfl⟩ := List.exists_cons_of_ne_nil hne
  have hlen : (r :: R1).length ≤ N.card := F.roots_length_le
  have I : ScanInv { c with mapped := true, curr := c.top, stop := c.top } N (r :: R1) []
      kids :=
    { forest := by simpa using F
      map_ok := by simpa using hmap
      curr_eq := ⟨R1, by simp [htop]⟩
      stop_eq := by simp [htop]
      top_eq := rfl
      seen := by intro _ x hx; simp at hx }
  have hfuel : (r :: R1).length + (r :: R1 ++ []).length ^ 2 < fuel := by
    rw [List.append_nil]
    have := Nat.pow_le_pow_left hlen 2
    omega
  rcases scan_loop fuel _ N (r :: R1) [] kids I hfuel with ⟨_, h2⟩ | ⟨c2, R2, kids2, h1, P⟩
  · omega
  · have hk := scan_keeps fuel _ c2 h1
    have hN : N.card ≤ fuel := by omega
    have e1 : rootCount fuel c2 = R2.length := rootCount_eq P.forest P.top_head hN
    have e2 : rootCount fuel c = (r :: R1).length := rootCount_eq F htop hN
    have hle : R2.length ≤ (r :: R1).length := by simpa using P.len_le
    refine ⟨c2, h1, ⟨R2, kids2, P.forest, P.map_ok, P.ne, P.top_head⟩, hk.2.2, ?_, ?_, ?_⟩
    · rw [e1, e2]; exact hle
    · intro hm
      rw [e1, e2]
      rcases P.linked hm with h | h
      · simp at h
      · simpa using h
    · intro hm f
      simp [pop_consolidate, hm]

theorem pushes_replicate (v : Int) : ∀ n : Nat, pushes (List.replicate n (Op.push v)) = n
  | 0 => rfl
  | n + 1 => by rw [List.replicate_succ, pushes, pushes_replicate v n]

theorem pops_replicate (v : Int) : ∀ n : Nat, pops (List.replicate n (Op.push v)) = 0
  | 0 => rfl
  | n + 1 => by
    rw [List.replicate_succ]
    simp only [pops]
    exact pops_replicate v n

/-- A reached heap with `pushes - pops` elements. -/
theorem reached_inv {ops : List Op} {fuel0 : Nat} {h : FibonacciHeap}
    (hr : runOps fuel0 ops FibonacciHeap.init = .ok h) :
    ∃ N roots kids, HeapInv h N roots kids ∧ N.card + pops ops = pushes ops := by
  obtain ⟨N, ⟨roots, kids, I⟩, _, hc⟩ := runOps_reach fuel0 ops _ ∅ ⟨_, _, heapInv_init⟩
    (fun x vx => absurd vx (not_valid_init x)) h hr
  simp only [Finset.card_empty, Nat.zero_add] at hc
  exact ⟨N, roots, kids, I, hc⟩

/-- The first statements of `pop` lead to the state `pop_enter`. -/
theorem pop_eq_enter {h : FibonacciHeap} {N : Finset Ptr} {roots : List Ptr}
    {kids : Ptr → List Ptr} (I : HeapInv h N roots kids) (h2 : 2 ≤ N.card) (fuel : Nat) :
    h.pop fuel = (do
        let c ← pop_consolidate fuel fuel (pop_enter h)
        let (m2, t2) ← pop_newtop c.top fuel c.mem c.top c.top
        pure (h.mem.value h.top, { mem := m2, top := t2 })) ∧
    LoopInv (N.erase h.top) (pop_enter h) := by
  have hN : N.Nonempty := Finset.card_pos.1 (by omega)
  have htm := I.top_mem hN
  have hth := I.top_head
  rcases h with ⟨m, t⟩
  dsimp only at *
  cases hr : roots with
  | nil => rw [hr] at htm; simp at htm
  | cons r R =>
    rw [hr] at hth
    simp only [List.headI_cons] at hth
    subst hth
    subst hr
    have F := I.forest
    have tN : t ∈ N := F.roots_mem t (by simp)
    have hsingle : kids t ++ R ≠ [] := by
      intro hs
      have hk : kids t = [] := (List.append_eq_nil.1 hs).1
      have hR : R = [] := (List.append_eq_nil.1 hs).2
      subst hR
      have := F.count
      simp [hk] at this
      omega
    have hnx : (popJoinMem m t).next t = (kids t ++ R).headI := by
      rw [isRing_next_head (popJoin_ring F)]
      cases hl : kids t ++ R with
      | nil => exact absurd hl hsingle
      | cons x l => simp
    constructor
    · rw [pop_prelude_eq fuel F hsingle]
      simp only [pop_enter, hnx]
    · refine ⟨kids t ++ R, kids, forest_popUnlink F hsingle, ?_, hsingle, hnx⟩
      intro d hd
      exact absurd rfl hd

/-- C18, amended: for every non-empty heap of at most `2 ^ 32` elements that a sequence of
`push` and `pop` (and `top`) calls returns, `pop` returns. If the heap has more than one
element, `pop` enters its consolidation loop in the state `pop_enter`, in which the loop
invariant holds, and from every state with the loop invariant a pass returns (the scan is
back at its end marker) in a state with the loop invariant and no more roots than before;
a pass that links (it leaves `mapped` false) reduces the number of roots, and a pass
without a link (it leaves `mapped` true) ends the loop. -/
theorem pop_terminates (ops : List Op) (fuel0 fuel : Nat)
    (hok : Except.isOk (runOps fuel0 ops FibonacciHeap.init) = true)
    (hne : pops ops < pushes ops) (hcap : pushes ops - pops ops ≤ 2 ^ max_degree)
    (hf : (pushes ops - pops ops) ^ 2 ≤ fuel) :
    ∃ h, runOps fuel0 ops FibonacciHeap.init = .ok h ∧ h.empty = false ∧
      (∃ r, h.pop fuel = .ok r) ∧
      (pushes ops - pops ops = 1 ∨
        (h.pop fuel = (do
            let c ← pop_consolidate fuel fuel (pop_enter h)
            let (m2, t2) ← pop_newtop c.top fuel c.mem c.top c.top
            pure (h.mem.value h.top, { mem := m2, top := t2 })) ∧
          ∃ N, LoopInv N (pop_enter h) ∧
            ∀ c, LoopInv N c →
              ∃ c2, pop_pass fuel c = .ok c2 ∧ LoopInv N c2 ∧ c2.curr = c2.stop ∧
                rootCount fuel c2 ≤ rootCount fuel c ∧
                (c2.mapped = false → rootCount fuel c2 < rootCount fuel c) ∧
                (c2.mapped = true → ∀ f, pop_consolidate fuel (f + 1) c2 = .ok c2))) := by
  obtain ⟨h, hr⟩ := isOk_run hok
  obtain ⟨N, roots, kids, I, hc⟩ := reached_inv hr
  have hcard : N.card = pushes ops - pops ops := by omega
  have hN : N.Nonempty := Finset.card_pos.1 (by omega)
  have he : h.empty = false := by
    cases hb : h.empty
    · rfl
    · have := I.empty_iff.1 hb
      rw [this] at hN
      simp at hN
  have hf2 : N.card ^ 2 ≤ fuel := hcard ▸ hf
  have hcap2 : N.card ≤ 2 ^ max_degree := hcard ▸ hcap
  have hpop : ∃ r, h.pop fuel = .ok r := by
    rcases pop_spec I hN hf2 with ⟨_, h2, _, _, hp, _⟩ | ⟨hgt, _⟩
    · exact ⟨_, hp⟩
    · exact absurd hcap2 (Nat.not_le.2 hgt)
  refine ⟨h, hr, he, hpop, ?_⟩
  by_cases h1 : pushes ops - pops ops = 1
  · exact Or.inl h1
  · right
    have h2 : 2 ≤ N.card := by omega
    obtain ⟨e1, e2⟩ := pop_eq_enter I h2 fuel
    refine ⟨e1, N.erase h.top, e2, ?_⟩
    intro c hL
    have htop : h.top ∈ N := I.forest.roots_mem _ (I.top_mem hN)
    have hce : (N.erase h.top).card = N.card - 1 := Finset.card_erase_of_mem htop
    have hpos : 0 < N.card := by omega
    have g1 : (N.erase h.top).card < 2 ^ max_degree := by
      rw [hce]
      exact lt_of_lt_of_le (Nat.sub_lt hpos Nat.one_pos) hcap2
    have g2 : (N.erase h.top).card + (N.erase h.top).card ^ 2 < fuel := by
      rw [hce]
      obtain ⟨k, hk⟩ : ∃ k, N.card = k + 1 := ⟨N.card - 1, by omega⟩
      rw [hk] at hf2
      rw [hk, Nat.add_sub_cancel]
      have : (k + 1) ^ 2 = k ^ 2 + 2 * k + 1 := by ring
      omega
    exact pass_spec hL g1 g2

/-- C18, witness: five pushes; the pop that follows runs three passes. -/
theorem pop_terminates_witness :
    Except.isOk (runOps 25 [.push 0, .push 1, .push 2, .push 3, .push 4] FibonacciHeap.init)
      = true ∧
    pops [.push 0, .push 1, .push 2, .push 3, .push 4]
      < pushes [.push 0, .push 1, .push 2, .push 3, .push 4] ∧
    pushes [.push 0, .push 1, .push 2, .push 3, .push 4]
      - pops [.push 0, .push 1, .push 2, .push 3, .push 4] ≤ 2 ^ max_degree ∧
    (pushes [.push 0, .push 1, .push 2, .push 3, .push 4]
      - pops [.push 0, .push 1, .push 2, .push 3, .push 4]) ^ 2 ≤ 25 ∧
    ∃ h, runOps 25 [.push 0, .push 1, .push 2, .push 3, .push 4] FibonacciHeap.init = .ok h ∧
      h.empty = false ∧ (∃ r, h.pop 25 = .ok r) ∧
      (pushes [.push 0, .push 1, .push 2, .push 3, .push 4]
          - pops [.push 0, .push 1, .push 2, .push 3, .push 4] = 1 ∨
        (h.pop 25 = (do
            let c ← pop_consolidate 25 25 (pop_enter h)
            let (m2, t2) ← pop_newtop c.top 25 c.mem c.top c.top
            pure (h.mem.value h.top, { mem := m2, top := t2 })) ∧
          ∃ N, LoopInv N (pop_enter h) ∧
            ∀ c, LoopInv N c →
              ∃ c2, pop_pass 25 c = .ok c2 ∧ LoopInv N c2 ∧ c2.curr = c2.stop ∧
                rootCount 25 c2 ≤ rootCount 25 c ∧
                (c2.mapped = false → rootCount 25 c2 < rootCount 25 c) ∧
                (c2.mapped = true → ∀ f, pop_consolidate 25 (f + 1) c2 = .ok c2))) :=
  ⟨by rfl, by decide, by norm_num [pushes, pops, max_degree], by norm_num [pushes, pops],
    pop_terminates _ 25 25 (by rfl) (by decide) (by norm_num [pushes, pops, max_degree])
      (by norm_num [pushes, pops])⟩

/-- C18, counterexample: after `2 ^ 32 + 1` pushes no budget makes `pop` return; and
after the pushes of 0, 1, 2, 3, 4 the first pass of `pop` links twice: it starts with four
roots and leaves two. -/
theorem pop_loop_claim_fails :
    (¬ ∃ fuel0 fuel h r,
      runOps fuel0 (List.replicate (2 ^ 32 + 1) (Op.push 0)) FibonacciHeap.init = .ok h ∧
      h.pop fuel = .ok r) ∧
    (do
      let h ← runOps 25 [.push 0, .push 1, .push 2, .push 3, .push 4] FibonacciHeap.init
      let c2 ← pop_pass 25 (pop_enter h)
      pure (rootCount 25 (pop_enter h), rootCount 25 c2, c2.mapped)
        : Res (Nat × Nat × Bool)) = .ok (4, 2, false) := by
  refine ⟨?_, rfl⟩
  rintro ⟨fuel0, fuel, h, r, hr, hp⟩
  obtain ⟨N, roots, kids, I, hc⟩ := reached_inv hr
  rw [pushes_replicate, pops_replicate] at hc
  have hN : N.Nonempty := Finset.card_pos.1 (by
    have hc2 : N.card = 2 ^ 32 + 1 := hc
    rw [hc2]
    exact Nat.succ_pos _)
  have hbig := pop_mono (Nat.le_max_left fuel (N.card ^ 2)) h _ hp
  rcases pop_spec I hN (Nat.le_max_right fuel (N.card ^ 2)) with ⟨hle, _⟩ | ⟨_, hp2⟩
  · have h32 : N.card = 2 ^ max_degree + 1 := hc
    rw [h32] at hle
    exact absurd hle (Nat.not_succ_le_self _)
  · rw [hp2] at hbig
    cases hbig

end

end FibHeap
